import Mathlib

/-!
Verification of the CryptoKernel blockchain ledger engine
(`src/kernel/blockchain.cpp`) against its natural-language specification.

The development shallowly embeds the ledger core:

* JSON `data` documents are reduced to the three fields the engine inspects
  (`publicKey`, `contract`, `signature`); their canonical serialized size is
  supplied by the environment function `serSize`, since the serializer
  (`CryptoKernel::Storage::toString`) lives outside the covered sources.
* All primary identifiers (outputs, inputs, transactions, blocks, output-set
  ids) are large integers produced by collision-resistant hashes computed by
  the external crypto library; they are modelled as environment functions
  `outId`, `inId`, `txId`, `blockId`, `outputSetId` over the entity values.
  Theorems that need distinctness of ids state it as an explicit hypothesis,
  mirroring collision resistance.
* The transactional key/value store is a record of association-list tables,
  one per logical table of the engine, with the `"tip"` key and the
  height-subindex of `blocks` split into their own fields.  `get`/`put`/
  `erase` are modelled by `tget`/`tput`/`terase` (and `sget`/`sput` for the
  per-owner secondary lists, whose absent key reads as an empty list exactly
  as a null `Json::Value` iterates zero times).
* `uint64_t` arithmetic wraps: every sum the C++ accumulates in a 64-bit
  register is folded through `% 2 ^ 64`.  The one floating-point comparison,
  `fee < getTransactionFee(tx) * 0.5`, is modelled by the exact rational
  comparison `2 * fee < getTransactionFee tx`, and the mempool bound
  `totalSize + size < 3.9 * 1024 * 1024` by `10 * (totalSize + size) <
  40894464`; both are exact for the value ranges the types admit below 2^53.
* External collaborators (consensus adapter, contract runner, signature
  verification, block-reward schedule) are read-only functions in the
  environment `Env`, following the contracts of spec sections 4.5 and 4.7;
  `getBlockReward` is not part of the covered sources, so it is carried as
  the opaque-schedule function `blockReward` the spec prescribes.
* Code paths on which the C++ would throw from a constructor applied to a
  null JSON value, or invoke undefined behaviour (such as `top()` on an
  empty `std::stack`), or fail to terminate, return `none`; the chain of
  `submitBlock`/`reorgChain` recursion is bounded by explicit fuel.
-/

/-- Data document attached to outputs and inputs: the engine only ever asks
for the `publicKey`, `contract` and `signature` members, so the document is
reduced to those three optional fields. -/
structure Doc where
  publicKey : Option String
  contract : Option String
  signature : Option String
deriving DecidableEq, Repr

/-- Transaction output: `value` and `nonce` are `uint64_t` fields and `data`
is the attached document (blockchain.cpp uses them through `getValue`,
`getNonce`, `getData`). -/
structure Output where
  value : Nat
  nonce : Nat
  data : Doc
deriving DecidableEq, Repr

/-- Transaction input: the id of the output being spent plus the spend data
document (`getOutputId`, `getData`). -/
structure Input where
  outputId : Nat
  data : Doc
deriving DecidableEq, Repr

/-- Transaction: inputs, outputs, timestamp and coinbase flag.  The C++
`std::set` collections iterate in id-sorted order; they are modelled as
lists, and the places where the iteration order matters state it
explicitly. -/
structure Transaction where
  inputs : List Input
  outputs : List Output
  timestamp : Nat
  coinbase : Bool
deriving DecidableEq, Repr

/-- Block: transactions, coinbase transaction, previous block id, timestamp,
opaque consensus data (modelled as a number) and height. -/
structure Block where
  transactions : List Transaction
  coinbaseTx : Transaction
  previousBlockId : Nat
  timestamp : Nat
  consensusData : Nat
  height : Nat
deriving DecidableEq, Repr

/-- Stored output record (`dbOutput`): the output fields plus its id and the
id of the creating transaction. -/
structure DbOutput where
  id : Nat
  value : Nat
  nonce : Nat
  data : Doc
  creationTx : Nat
deriving DecidableEq, Repr

/-- Stored input record (`dbInput`). -/
structure DbInput where
  id : Nat
  outputId : Nat
  data : Doc
deriving DecidableEq, Repr

/-- Stored transaction record (`dbTransaction`): ids of inputs and outputs,
timestamp, the coinbase flag passed to `confirmTransaction`, and the
confirming block. -/
structure DbTransaction where
  id : Nat
  inputIds : List Nat
  outputIds : List Nat
  timestamp : Nat
  coinbase : Bool
  confirmingBlock : Nat
deriving DecidableEq, Repr

/-- Stored block record (`dbBlock`): transactions by id. -/
structure DbBlock where
  id : Nat
  transactionIds : List Nat
  coinbaseTxId : Nat
  previousBlockId : Nat
  timestamp : Nat
  consensusData : Nat
  height : Nat
deriving DecidableEq, Repr

/-- Primary-table lookup (`Table::get` with a string-encoded big-integer
key); a non-object result is `none`. -/
def tget {α : Type} : List (Nat × α) → Nat → Option α
  | [], _ => none
  | (a, v) :: t, k => if a = k then some v else tget t k

/-- Primary-table delete (`Table::erase`). -/
def terase {α : Type} : List (Nat × α) → Nat → List (Nat × α)
  | [], _ => []
  | (a, v) :: t, k => if a = k then terase t k else (a, v) :: terase t k

/-- Primary-table write (`Table::put`): the store is a map, so the previous
binding of the key is superseded. -/
def tput {α : Type} (t : List (Nat × α)) (k : Nat) (v : α) : List (Nat × α) :=
  (k, v) :: terase t k

/-- Per-owner secondary list delete helper. -/
def serase : List (String × List Nat) → String → List (String × List Nat)
  | [], _ => []
  | (a, v) :: t, k => if a = k then serase t k else (a, v) :: serase t k

/-- Per-owner secondary list read (`Table::get` with subindex 0): a missing
key reads as a null JSON value, which iterates as an empty array. -/
def sget : List (String × List Nat) → String → List Nat
  | [], _ => []
  | (a, v) :: t, k => if a = k then v else sget t k

/-- Per-owner secondary list write (`Table::put` with subindex 0). -/
def sput (t : List (String × List Nat)) (k : String) (v : List Nat) :
    List (String × List Nat) :=
  (k, v) :: serase t k

/-- Persisted state of the engine: the six logical tables of blockchain.cpp,
with the `"tip"` record and the height subindex of `blocks` as separate
fields (their keys are disjoint from the big-integer block ids). -/
structure Store where
  tip : Option DbBlock
  blocks : List (Nat × DbBlock)
  heights : List (Nat × Nat)
  transactions : List (Nat × DbTransaction)
  utxos : List (Nat × DbOutput)
  utxoOwners : List (String × List Nat)
  stxos : List (Nat × DbOutput)
  stxoOwners : List (String × List Nat)
  inputs : List (Nat × DbInput)
  candidates : List (Nat × Block)
deriving DecidableEq, Repr

/-- Mempool state.  Modelled from the spec: the member declarations live in
blockchain.h, outside the covered sources; spec 4.3 gives
`txs : map<TxId, Transaction>`, `inputs : map<InputId, TxId>`,
`outputs : map<OutputId, TxId>` and an integer byte count, which matches
every use in blockchain.cpp.  The `std::map`s iterate id-sorted; theorems
about iteration order carry the sortedness of `txs` as a hypothesis. -/
structure Mempool where
  txs : List (Nat × Transaction)
  inputs : List (Nat × Nat)
  outputs : List (Nat × Nat)
  bytes : Nat
deriving DecidableEq, Repr

/-- Environment of external collaborators: the hash-derived identifiers, the
canonical serializer size, signature verification (over the message
`outputId ++ outputSetId`, modelled as the pair of the two ids), the
consensus adapter callbacks and the contract runner, all read-only per the
contracts of spec sections 4.5-4.7, and the block-reward schedule. -/
structure Env where
  outId : Output → Nat
  inId : Input → Nat
  txId : Transaction → Nat
  blockId : Block → Nat
  outputSetId : List Nat → Nat
  txSize : Transaction → Nat
  serSize : Doc → Nat
  verifySig : String → Nat × Nat → String → Bool
  consVerifyTx : Store → Transaction → Bool
  consCheckRules : Store → Block → DbBlock → Bool
  consIsBlockBetter : Store → Block → DbBlock → Bool
  consSubmitBlock : Store → Block → Bool
  consSubmitTx : Store → Transaction → Bool
  consConfirmTx : Store → Transaction → Bool
  contractValid : Store → Transaction → Bool
  blockReward : Nat → Nat

/-- Wrapped 64-bit accumulation of a list of values, as the C++ `+=` loops
over `uint64_t` totals compute it. -/
def sum64 (l : List Nat) : Nat :=
  l.foldl (fun a v => (a + v) % 2 ^ 64) 0

/-- Wrapped 64-bit subtraction `a - b` for `b < 2 ^ 64`. -/
def sub64 (a b : Nat) : Nat :=
  (a + (2 ^ 64 - b)) % 2 ^ 64

/-- Size fee of a transaction (`Blockchain::getTransactionFee`): 100 times
the canonical serialized size of each input data document plus 100 times
that of each output data document, accumulated in `uint64_t`. -/
def getTransactionFee (e : Env) (tx : Transaction) : Nat :=
  let f := tx.inputs.foldl (fun a i => (a + e.serSize i.data * 100 % 2 ^ 64) % 2 ^ 64) 0
  tx.outputs.foldl (fun a o => (a + e.serSize o.data * 100 % 2 ^ 64) % 2 ^ 64) f

/-- Output loop of `verifyTransaction`: reject with `(false, false)` on a
duplicate output id (present in `utxos` or `stxos`), otherwise accumulate
the wrapped output total. -/
def outputsPass (e : Env) (st : Store) : List Output → Nat → Except (Bool × Bool) Nat
  | [], acc => .ok acc
  | o :: rest, acc =>
    if (tget st.utxos (e.outId o)).isSome || (tget st.stxos (e.outId o)).isSome then
      .error (false, false)
    else
      outputsPass e st rest ((acc + o.value) % 2 ^ 64)

/-- Input loop of `verifyTransaction`: reject with `(false, false)` when the
referenced output is not unspent; accumulate the wrapped input total; when
the output data carries a `publicKey` and no `contract`, require a
`signature` member verifying the message `outputId ++ outputSetId`, with
failure rejected as `(false, true)`. -/
def inputsPass (e : Env) (st : Store) (outputHash : Nat) :
    List Input → Nat → Except (Bool × Bool) Nat
  | [], acc => .ok acc
  | i :: rest, acc =>
    match tget st.utxos i.outputId with
    | none => .error (false, false)
    | some out =>
      let acc := (acc + out.value) % 2 ^ 64
      match out.data.publicKey, out.data.contract with
      | some pk, none =>
        match i.data.signature with
        | none => .error (false, true)
        | some sig =>
          if e.verifySig pk (out.id, outputHash) sig then
            inputsPass e st outputHash rest acc
          else
            .error (false, true)
      | _, _ => inputsPass e st outputHash rest acc

/-- Store- and mempool-threading translation of
`Blockchain::verifyTransaction`.  Every branch returns the verdict together
with the store and mempool it leaves behind; the source performs reads only,
and the external contract runner and consensus callback are read-only by
their contracts, so each branch hands back its arguments. -/
def verifyTransactionST (e : Env) (st : Store) (mp : Mempool) (tx : Transaction)
    (coinbaseTx : Bool) : (Bool × Bool) × Store × Mempool :=
  if (tget st.transactions (e.txId tx)).isSome then ((false, false), st, mp)
  else
    match outputsPass e st tx.outputs 0 with
    | .error v => (v, st, mp)
    | .ok outputTotal =>
      let outputHash := e.outputSetId (tx.outputs.map e.outId)
      match inputsPass e st outputHash tx.inputs 0 with
      | .error v => (v, st, mp)
      | .ok inputTotal =>
        if coinbaseTx = false ∧ outputTotal > inputTotal then ((false, true), st, mp)
        else if coinbaseTx = false ∧ 2 * (inputTotal - outputTotal) < getTransactionFee e tx then
          ((false, true), st, mp)
        else if e.contractValid st tx = false then ((false, true), st, mp)
        else if e.consVerifyTx st tx = false then ((false, true), st, mp)
        else ((true, false), st, mp)

/-- Verdict of `Blockchain::verifyTransaction`. -/
def verifyTransaction (e : Env) (st : Store) (tx : Transaction) (coinbaseTx : Bool) :
    Bool × Bool :=
  (verifyTransactionST e st ⟨[], [], [], 0⟩ tx coinbaseTx).1

/-- Fee of an already-validated transaction
(`Blockchain::calculateTransactionFee`): wrapped input total minus wrapped
output total, with every referenced output looked up in `utxos`; a missing
lookup would feed a null JSON value to the `dbOutput` constructor, so it
yields `none`. -/
def calculateTransactionFee (e : Env) (st : Store) (tx : Transaction) : Option Nat :=
  let outputTotal := sum64 (tx.outputs.map (·.value))
  match tx.inputs.mapM (fun i => tget st.utxos i.outputId) with
  | none => none
  | some recs => some (sub64 (sum64 (recs.map (·.value))) outputTotal)

/-- Mempool insertion (`Mempool::insert`): reject when the transaction, any
input id, any consumed output id or any produced output id is already
indexed; otherwise index everything and add the canonical size to the byte
count. -/
def Mempool.insert (e : Env) (mp : Mempool) (tx : Transaction) : Bool × Mempool :=
  if (tget mp.txs (e.txId tx)).isSome then (false, mp)
  else if tx.inputs.any (fun i =>
      (tget mp.inputs (e.inId i)).isSome || (tget mp.outputs i.outputId).isSome) then
    (false, mp)
  else if tx.outputs.any (fun o => (tget mp.outputs (e.outId o)).isSome) then
    (false, mp)
  else
    (true,
      { txs := tput mp.txs (e.txId tx) tx
        bytes := mp.bytes + e.txSize tx
        inputs := tx.inputs.foldl (fun m i => tput m (e.inId i) (e.txId tx)) mp.inputs
        outputs := tx.outputs.foldl (fun m o => tput m (e.outId o) (e.txId tx))
          (tx.inputs.foldl (fun m i => tput m i.outputId (e.txId tx)) mp.outputs) })

/-- Mempool removal (`Mempool::remove`): idempotent teardown of all index
entries of a member transaction. -/
def Mempool.remove (e : Env) (mp : Mempool) (tx : Transaction) : Mempool :=
  if (tget mp.txs (e.txId tx)).isSome then
    { txs := terase mp.txs (e.txId tx)
      bytes := mp.bytes - e.txSize tx
      inputs := tx.inputs.foldl (fun m i => terase m (e.inId i)) mp.inputs
      outputs := tx.outputs.foldl (fun m o => terase m (e.outId o))
        (tx.inputs.foldl (fun m i => terase m i.outputId) mp.outputs) }
  else mp

/-- Mempool revalidation (`Mempool::rescanMempool`): remove every member
that no longer satisfies `verifyTransaction` against the current store. -/
def rescanMempool (e : Env) (st : Store) (mp : Mempool) : Mempool :=
  let removals := mp.txs.filter (fun p => !(verifyTransaction e st p.2 false).1)
  removals.foldl (fun m p => Mempool.remove e m p.2) mp

/-- Selection loop of `Mempool::getTransactions`: walk the member list,
keeping a wrapped `uint64_t` running size, and stop at the first transaction
whose inclusion would reach 3.9 * 1024 * 1024 bytes (the comparison
`totalSize + size < 3.9 * 1024 * 1024` is the exact rational test
`10 * (totalSize + size) < 40894464`). -/
def selectLoop (e : Env) : Nat → List (Nat × Transaction) → List Transaction
  | _, [] => []
  | totalSize, p :: rest =>
    if 10 * ((totalSize + e.txSize p.2) % 2 ^ 64) < 40894464 then
      p.2 :: selectLoop e ((totalSize + e.txSize p.2) % 2 ^ 64) rest
    else []

/-- Block-assembly selection (`Mempool::getTransactions`). -/
def Mempool.getTransactions (e : Env) (mp : Mempool) : List Transaction :=
  selectLoop e 0 mp.txs

/-- Per-input spend step of `confirmTransaction`: copy the `utxos` record
into `stxos`, maintain both per-owner lists when the record carries a
`publicKey`, erase the `utxos` record and write the consumption record into
`inputs`.  A spent or unknown referenced output feeds a null JSON value to
the `dbOutput` constructor, modelled as `none`. -/
def spendInput (e : Env) (st : Store) (inp : Input) : Option Store :=
  match tget st.utxos inp.outputId with
  | none => none
  | some u =>
    let st1 := { st with stxos := tput st.stxos inp.outputId u }
    let st2 :=
      match u.data.publicKey with
      | none => st1
      | some pk =>
        let sa := { st1 with
          stxoOwners := sput st1.stxoOwners pk (sget st1.stxoOwners pk ++ [inp.outputId]) }
        { sa with
          utxoOwners := sput sa.utxoOwners pk
            ((sget sa.utxoOwners pk).filter (fun x => x != inp.outputId)) }
    let st3 := { st2 with utxos := terase st2.utxos inp.outputId }
    some { st3 with
      inputs := tput st3.inputs (e.inId inp)
        { id := e.inId inp, outputId := inp.outputId, data := inp.data } }

/-- Per-output creation step of `confirmTransaction`: append to the owner
list when the data carries a `publicKey`, then write the `utxos` record with
the creating transaction id. -/
def createOutput (e : Env) (txid : Nat) (st : Store) (out : Output) : Store :=
  let st1 :=
    match out.data.publicKey with
    | none => st
    | some pk =>
      { st with utxoOwners := sput st.utxoOwners pk (sget st.utxoOwners pk ++ [e.outId out]) }
  { st1 with
    utxos := tput st1.utxos (e.outId out)
      { id := e.outId out, value := out.value, nonce := out.nonce, data := out.data
        creationTx := txid } }

/-- Side effects of `Blockchain::confirmTransaction`: the consensus
confirmation hook runs first and its verdict is only logged; each input is
spent, each output created, the transaction record written, and the
transaction removed from the mempool. -/
def confirmTransaction (e : Env) (st : Store) (mp : Mempool) (tx : Transaction)
    (confirmingBlock : Nat) (coinbaseTx : Bool) : Option (Store × Mempool) :=
  let _hook := e.consConfirmTx st tx
  match tx.inputs.foldlM (spendInput e) st with
  | none => none
  | some st1 =>
    let st2 := tx.outputs.foldl (createOutput e (e.txId tx)) st1
    let st3 := { st2 with
      transactions := tput st2.transactions (e.txId tx)
        { id := e.txId tx, inputIds := tx.inputs.map e.inId
          outputIds := tx.outputs.map e.outId, timestamp := tx.timestamp
          coinbase := coinbaseTx, confirmingBlock := confirmingBlock } }
    some (st3, Mempool.remove e mp tx)

/-- Output view of a stored output record (the `output(Json::Value)`
constructor applied to a `dbOutput` document). -/
def outputOfDb (u : DbOutput) : Output :=
  { value := u.value, nonce := u.nonce, data := u.data }

/-- Input view of a stored input record. -/
def inputOfDb (i : DbInput) : Input :=
  { outputId := i.outputId, data := i.data }

/-- Lookup of `Blockchain::getOutput` / `getOutputDB`: `utxos` first, then
`stxos`, else not found. -/
def getOutputRec (st : Store) (id : Nat) : Option DbOutput :=
  match tget st.utxos id with
  | some u => some u
  | none => tget st.stxos id

/-- Reconstruction of a confirmed transaction from the tables
(`Blockchain::getTransaction(Storage::Transaction*, id)`): read the
`dbTransaction` record, then resolve every output id via `getOutput` and
every input id via the `inputs` table. -/
def getTransactionFromDb (st : Store) (id : Nat) : Option Transaction :=
  match tget st.transactions id with
  | none => none
  | some dtx =>
    match dtx.outputIds.mapM (getOutputRec st), dtx.inputIds.mapM (tget st.inputs) with
    | some outRecs, some inRecs =>
      some { inputs := inRecs.map inputOfDb, outputs := outRecs.map outputOfDb
             timestamp := dtx.timestamp, coinbase := dtx.coinbase }
    | _, _ => none

/-- Stored block record of a block (`dbBlock(block, height)`): transaction
ids, coinbase id, and the supplied height; the block id does not depend on
the height. -/
def DbBlock.ofBlock (e : Env) (b : Block) (h : Nat) : DbBlock :=
  { id := e.blockId b, transactionIds := b.transactions.map e.txId
    coinbaseTxId := e.txId b.coinbaseTx, previousBlockId := b.previousBlockId
    timestamp := b.timestamp, consensusData := b.consensusData, height := h }

/-- Block lookup of `Blockchain::getBlockDB` for a big-integer id: the
`blocks` table first, then the `candidates` table (whose full block is
viewed as a `dbBlock`). -/
def getBlockDB (e : Env) (st : Store) (id : Nat) : Option DbBlock :=
  match tget st.blocks id with
  | some b => some b
  | none => (tget st.candidates id).map (fun b => DbBlock.ofBlock e b b.height)

/-- Reconstruction of a full block from its stored record
(`Blockchain::buildBlock`): resolve every transaction id through the
`transactions` table; on a lookup failure fall back to the candidate block
stored under the record's id, as the `NotFoundException` handler does. -/
def buildBlock (st : Store) (db : DbBlock) : Option Block :=
  match db.transactionIds.mapM (getTransactionFromDb st), getTransactionFromDb st db.coinbaseTxId with
  | some txs, some cb =>
    some { transactions := txs, coinbaseTx := cb, previousBlockId := db.previousBlockId
           timestamp := db.timestamp, consensusData := db.consensusData, height := db.height }
  | _, _ => tget st.candidates db.id

/-- Erase step of `reverseBlock`'s `eraseUtxo` lambda applied to the `utxos`
table: delete the primary record under the output's id and filter the id out
of the owner list when the data carries a `publicKey`. -/
def eraseUtxoU (st : Store) (oid : Nat) (d : Doc) : Store :=
  let st1 := { st with utxos := terase st.utxos oid }
  match d.publicKey with
  | none => st1
  | some pk =>
    let l := (sget st1.utxoOwners pk).filter (fun x => x != oid)
    { st1 with utxoOwners := sput st1.utxoOwners pk l }

/-- Erase step of `reverseBlock`'s `eraseUtxo` lambda applied to the `stxos`
table. -/
def eraseUtxoS (st : Store) (oid : Nat) (d : Doc) : Store :=
  let st1 := { st with stxos := terase st.stxos oid }
  match d.publicKey with
  | none => st1
  | some pk =>
    let l := (sget st1.stxoOwners pk).filter (fun x => x != oid)
    { st1 with stxoOwners := sput st1.stxoOwners pk l }

/-- Per-input restore step of `reverseBlock`: erase the consumption record,
move the `stxos` record (whose absence would feed null JSON to the
`dbOutput` constructor) back to `utxos`, and re-append the id to the owner
list. -/
def unspendInput (e : Env) (st : Store) (inp : Input) : Option Store :=
  let st1 := { st with inputs := terase st.inputs (e.inId inp) }
  match tget st1.stxos inp.outputId with
  | none => none
  | some old =>
    let st2 := eraseUtxoS st1 old.id old.data
    let st3 := { st2 with utxos := tput st2.utxos inp.outputId old }
    match old.data.publicKey with
    | none => some st3
    | some pk =>
      let l := sget st3.utxoOwners pk ++ [inp.outputId]
      some { st3 with utxoOwners := sput st3.utxoOwners pk l }

/-- Per-transaction step of `reverseBlock`: erase the produced outputs from
`utxos`, restore every spent output, and erase the transaction record. -/
def reverseTx (e : Env) (st : Store) (tx : Transaction) : Option Store :=
  let st1 := tx.outputs.foldl (fun s o => eraseUtxoU s (e.outId o) o.data) st
  match tx.inputs.foldlM (unspendInput e) st1 with
  | none => none
  | some st2 => some { st2 with transactions := terase st2.transactions (e.txId tx) }

/-- Transaction-level submission (`Blockchain::submitTransaction` on an open
store transaction): verify, ask consensus, then insert into the mempool,
with a mempool conflict reported as `(false, false)`.  Only the mempool
changes; the store is read through only. -/
def submitTransaction (e : Env) (st : Store) (mp : Mempool) (tx : Transaction) :
    (Bool × Bool) × Mempool :=
  let v := verifyTransaction e st tx false
  if v.1 then
    if e.consSubmitTx st tx then
      match Mempool.insert e mp tx with
      | (true, mp1) => ((true, false), mp1)
      | (false, mp1) => ((false, false), mp1)
    else ((false, true), mp)
  else (v, mp)

/-- Reversal sequence of `reverseBlock` over a list of transactions. -/
def reverseTxList (e : Env) (st : Store) (txs : List Transaction) : Option Store :=
  txs.foldlM (reverseTx e) st

/-- Mutating prefix of `Blockchain::reverseBlock` over the UTXO state:
erase the rebuilt tip's coinbase outputs, erase the coinbase transaction
record, then undo every transaction of the tip. -/
def rbCoinErase (e : Env) (cb : Transaction) (st : Store) : Store :=
  let st1 := cb.outputs.foldl (fun s o => eraseUtxoU s (e.outId o) o.data) st
  { st1 with transactions := terase st1.transactions (e.txId cb) }

def reverseBlockCore (e : Env) (st : Store) (tip : Block) : Option Store :=
  reverseTxList e (rbCoinErase e tip.coinbaseTx st) tip.transactions

/-- Block-table state of `reverseBlock` after erasing the tip's height
subindex and id record, before the previous tip is looked up. -/
def rbMid (e : Env) (tip : Block) (st3 : Store) (tipDb2 : DbBlock) : Store :=
  let st4 := { st3 with heights := terase st3.heights tipDb2.height }
  { st4 with blocks := terase st4.blocks (e.blockId tip) }

/-- Final store of `reverseBlock`: previous tip restored and the reversed
block returned to `candidates`. -/
def rbFinal (e : Env) (tip : Block) (st3 : Store) (tipDb2 prevDb : DbBlock) : Store :=
  let st6 := { rbMid e tip st3 tipDb2 with tip := some prevDb }
  { st6 with candidates := tput st6.candidates (e.blockId tip) tip }

/-- Undo of the current tip (`Blockchain::reverseBlock`): rebuild the tip
block from the tables, run the reversal core, move the block tables back to
the previous tip, return the block to `candidates`, rescan the mempool and
replay the undone transactions through `submitTransaction`. -/
def reverseBlock (e : Env) (st : Store) (mp : Mempool) : Option (Store × Mempool) :=
  match st.tip with
  | none => none
  | some tipDb =>
    match buildBlock st tipDb with
    | none => none
    | some tip =>
      match reverseBlockCore e st tip with
      | none => none
      | some st3 =>
        match st3.tip with
        | none => none
        | some tipDb2 =>
          match getBlockDB e (rbMid e tip st3 tipDb2) tip.previousBlockId with
          | none => none
          | some prevDb =>
            let st7 := rbFinal e tip st3 tipDb2 prevDb
            let mp1 := rescanMempool e st7 mp
            let mp2 := tip.transactions.foldl (fun m t => (submitTransaction e st7 m t).2) mp1
            some (st7, mp2)

/-- Iterated `confirmTransaction` over the non-coinbase transactions of a
block being applied. -/
def confirmList (e : Env) (st : Store) (mp : Mempool) (txs : List Transaction)
    (confirmingBlock : Nat) : Option (Store × Mempool) :=
  txs.foldlM (fun sm t => confirmTransaction e sm.1 sm.2 t confirmingBlock false) (st, mp)

/-- Side-effect sequence of the full-apply path of `submitBlock`: confirm
the coinbase, confirm every transaction, erase the block from `candidates`,
write the block record under `"tip"`, the height subindex and its id, and
rescan the mempool. -/
def applyBlockOps (e : Env) (st : Store) (mp : Mempool) (b : Block) (blockHeight : Nat) :
    Option (Store × Mempool) :=
  match confirmTransaction e st mp b.coinbaseTx (e.blockId b) true with
  | none => none
  | some (st1, mp1) =>
    match confirmList e st1 mp1 b.transactions (e.blockId b) with
    | none => none
    | some (st2, mp2) =>
      let dbb : DbBlock := DbBlock.ofBlock e b blockHeight
      let st3 := { st2 with
        candidates := terase st2.candidates (e.blockId b)
        tip := some dbb
        heights := tput st2.heights blockHeight (e.blockId b)
        blocks := tput st2.blocks (e.blockId b) dbb }
      some (st3, rescanMempool e st3 mp2)

/-- Full-apply path of `Blockchain::submitBlock` (the `!onlySave` body):
verify every non-coinbase transaction against the unchanged store (the
worker fan-out is observably a serial validation, spec 4.6), accumulate the
wrapped fees, verify the coinbase, enforce the coinbase value bound, ask
consensus, then run the side-effect sequence `applyBlockOps`. -/
def applyBlockPath (e : Env) (st : Store) (mp : Mempool) (b : Block) (blockHeight : Nat) :
    Option ((Bool × Bool) × Store × Mempool) :=
  if !(b.transactions.all fun t => (verifyTransaction e st t false).1) then
    some ((false, true), st, mp)
  else
    match b.transactions.mapM (calculateTransactionFee e st) with
    | none => none
    | some feeList =>
      let fees := sum64 feeList
      if !(verifyTransaction e st b.coinbaseTx true).1 then some ((false, true), st, mp)
      else
        let outputTotal := sum64 (b.coinbaseTx.outputs.map (·.value))
        if outputTotal > (fees + e.blockReward blockHeight) % 2 ^ 64 then
          some ((false, true), st, mp)
        else if e.consSubmitBlock st b = false then some ((false, true), st, mp)
        else
          match applyBlockOps e st mp b blockHeight with
          | none => none
          | some (st3, mp3) => some ((true, false), st3, mp3)

/-- Backward walk of `reorgChain` through the `candidates` table: push each
block and follow its previous id until the chain leaves `candidates`.  The
head of the result is the top of the `std::stack` (the deepest candidate);
nothing in the source bounds the walk, so it carries fuel and a cyclic
candidate graph returns `none`. -/
def candidateWalk (st : Store) : Nat → Nat → List Block → Option (List Block)
  | 0, _, _ => none
  | fuel + 1, id, acc =>
    match tget st.candidates id with
    | none => some acc
    | some cb => candidateWalk st fuel cb.previousBlockId (cb :: acc)

/-- Reversal loop of `reorgChain`: call `reverseBlock` until the tip is the
fork block, with fuel for the unbounded loop. -/
def reverseToForkF (e : Env) : Nat → Store → Mempool → Nat → Option (Store × Mempool)
  | 0, _, _, _ => none
  | fuel + 1, st, mp, forkId =>
    match st.tip with
    | none => none
    | some tipDb =>
      if tipDb.id == forkId then some (st, mp)
      else
        match reverseBlock e st mp with
        | none => none
        | some (st1, mp1) => reverseToForkF e fuel st1 mp1 forkId

mutual

/-- Fueled translation of `Blockchain::submitBlock(Storage::Transaction*,
block, bool)`: already-known blocks are accepted silently; for a non-genesis
block the previous record is resolved through `blocks` then `candidates`
with a missing parent rejected `(false, true)`; consensus rules are checked;
a non-tip parent either triggers a reorg (when `isBlockBetter`) or stores
the block as a candidate with its height injected; otherwise the full-apply
path runs at `tip.height + 1` (height 1 for genesis). -/
def submitBlockF (e : Env) : Nat → Store → Mempool → Block → Bool →
    Option ((Bool × Bool) × Store × Mempool)
  | 0, _, _, _, _ => none
  | fuel + 1, st, mp, b, genesisBlock =>
    if (tget st.blocks (e.blockId b)).isSome then some ((true, false), st, mp)
    else if genesisBlock then applyBlockPath e st mp b 1
    else
      match getBlockDB e st b.previousBlockId with
      | none => some ((false, true), st, mp)
      | some prevDb =>
        if e.consCheckRules st b prevDb = false then some ((false, true), st, mp)
        else
          match st.tip with
          | none => none
          | some tip =>
            if prevDb.id != tip.id then
              if e.consIsBlockBetter st b tip then
                match reorgChainF e fuel st mp prevDb.id with
                | none => none
                | some (false, st1, mp1) => some ((false, true), st1, mp1)
                | some (true, st1, mp1) =>
                  match st1.tip with
                  | none => none
                  | some tip1 => applyBlockPath e st1 mp1 b (tip1.height + 1)
              else
                match getBlockDB e st b.previousBlockId with
                | none => none
                | some pb =>
                  let cands := tput st.candidates (e.blockId b) { b with height := pb.height + 1 }
                  some ((true, false), { st with candidates := cands }, mp)
            else applyBlockPath e st mp b (tip.height + 1)

/-- Fueled translation of `Blockchain::reorgChain`: walk the candidate chain
backward from the new tip.  When the walk yields an empty stack the source
reads `blockList.top()` of an empty `std::stack`, which is undefined
behaviour, modelled as `none`.  Otherwise reverse the main chain to the fork
point and submit the stacked blocks, aborting on the first failure. -/
def reorgChainF (e : Env) : Nat → Store → Mempool → Nat → Option (Bool × Store × Mempool)
  | 0, _, _, _ => none
  | fuel + 1, st, mp, newTipId =>
    match candidateWalk st (fuel + 1) newTipId [] with
    | none => none
    | some [] => none
    | some (top :: restStack) =>
      match reverseToForkF e (fuel + 1) st mp top.previousBlockId with
      | none => none
      | some (st1, mp1) => submitStackF e fuel st1 mp1 (top :: restStack)

/-- Submission loop at the end of `reorgChain`. -/
def submitStackF (e : Env) : Nat → Store → Mempool → List Block → Option (Bool × Store × Mempool)
  | _, st, mp, [] => some (true, st, mp)
  | 0, _, _, _ :: _ => none
  | fuel + 1, st, mp, blk :: rest =>
    match submitBlockF e fuel st mp blk false with
    | none => none
    | some (v, st1, mp1) =>
      if v.1 then submitStackF e fuel st1 mp1 rest else some (false, st1, mp1)

end

/-- Empty store (the state after `emptyDB`). -/
def emptyStore : Store :=
  { tip := none, blocks := [], heights := [], transactions := [], utxos := []
    utxoOwners := [], stxos := [], stxoOwners := [], inputs := [], candidates := [] }

/-- Empty mempool. -/
def emptyMempool : Mempool :=
  { txs := [], inputs := [], outputs := [], bytes := 0 }

/-- UTXO/STXO partition invariant: no id is live in both primary tables. -/
def UtxoPartition (st : Store) : Prop :=
  ∀ k, (tget st.utxos k).isSome → tget st.stxos k = none

/-- Confirmation sequence over a list of (transaction, coinbase-flag) pairs;
the apply path runs it on the coinbase (flagged) followed by the block's
transactions. -/
def confirmAll (e : Env) (blk : Nat) (sm : Store × Mempool)
    (txs : List (Transaction × Bool)) : Option (Store × Mempool) :=
  txs.foldlM (fun sm tb => confirmTransaction e sm.1 sm.2 tb.1 blk tb.2) sm

/-- Inputs of the non-coinbase transactions of a block, in confirmation
order. -/
def txInputsOf (b : Block) : List Input :=
  (b.transactions.map (·.inputs)).flatten

/-- Output ids spent by a block's non-coinbase transactions. -/
def spentIds (b : Block) : List Nat :=
  (txInputsOf b).map (·.outputId)

/-- Outputs created by a block paired with their creating transactions
(coinbase first), in confirmation order. -/
def createdPairs (b : Block) : List (Transaction × Output) :=
  ((b.coinbaseTx :: b.transactions).map (fun t => t.outputs.map (fun o => (t, o)))).flatten

/-- Ids of the outputs a block creates. -/
def createdIds (e : Env) (b : Block) : List Nat :=
  (createdPairs b).map (fun p => e.outId p.2)

/-- Spent output ids owned by `pk` among a list of inputs, judged by the
`utxos` records of the given store, in list order. -/
def spentFor (st : Store) (pk : String) (inps : List Input) : List Nat :=
  (inps.filter (fun i =>
    ((tget st.utxos i.outputId).map (fun u => u.data.publicKey)).getD none == some pk)).map
    (·.outputId)

/-- Created output ids owned by `pk` among a list of outputs, in list
order. -/
def createdFor (e : Env) (pk : String) (outs : List Output) : List Nat :=
  (outs.filter (fun o => o.data.publicKey == some pk)).map e.outId

/-! ## Concrete instances used by witnesses and counterexamples -/

/-- Concrete environment for witnesses: entity ids are read off simple
fields (injective on the concrete entities used), every external callback
accepts, and the block reward is the constant 10. -/
def eBase : Env :=
  { outId := fun o => o.nonce
    inId := fun i => 1000 + i.outputId
    txId := fun t => t.timestamp
    blockId := fun b => b.timestamp
    outputSetId := fun l => 2000 + l.sum
    txSize := fun _ => 100
    serSize := fun _ => 4
    verifySig := fun _ _ _ => true
    consVerifyTx := fun _ _ => true
    consCheckRules := fun _ _ _ => true
    consIsBlockBetter := fun _ _ _ => true
    consSubmitBlock := fun _ _ => true
    consSubmitTx := fun _ _ => true
    consConfirmTx := fun _ _ => true
    contractValid := fun _ _ => true
    blockReward := fun _ => 10 }

/-- Block with an unknown parent (id 77), for the missing-parent claim. -/
def bDetached : Block :=
  { transactions := []
    coinbaseTx := { inputs := [], outputs := [], timestamp := 1, coinbase := true }
    previousBlockId := 77, timestamp := 5, consensusData := 0, height := 1 }

/-- Transaction with one input and one output, for mempool witnesses. -/
def txW : Transaction :=
  { inputs := [{ outputId := 7, data := ⟨none, none, none⟩ }]
    outputs := [{ value := 3, nonce := 4, data := ⟨some "w", none, none⟩ }]
    timestamp := 42, coinbase := false }

/-- Second transaction for mempool witnesses. -/
def txW2 : Transaction :=
  { inputs := []
    outputs := [{ value := 5, nonce := 6, data := ⟨some "w", none, none⟩ }]
    timestamp := 43, coinbase := false }

/-- Two-member mempool with id-sorted keys, for the selection witness. -/
def mpW : Mempool :=
  { txs := [(1, txW), (2, txW2)], inputs := [], outputs := [], bytes := 200 }

/-- Store holding one unspent anonymous output of value 2100 under id 7. -/
def stC2 : Store :=
  { emptyStore with
    utxos := [(7, { id := 7, value := 2100, nonce := 0
                    data := ⟨none, none, none⟩, creationTx := 0 })] }

/-- Transaction whose outputs sum to 2^64 + 100 (wrapping to 100) while
spending only the 2100-valued output: the conservation check passes on the
wrapped totals. -/
def txC2 : Transaction :=
  { inputs := [{ outputId := 7, data := ⟨none, none, none⟩ }]
    outputs := [{ value := 2 ^ 63, nonce := 11, data := ⟨none, none, none⟩ },
                { value := 2 ^ 63 + 100, nonce := 12, data := ⟨none, none, none⟩ }]
    timestamp := 3, coinbase := false }

/-- Well-behaved transaction spending the same output without overflow. -/
def txV : Transaction :=
  { inputs := [{ outputId := 7, data := ⟨none, none, none⟩ }]
    outputs := [{ value := 100, nonce := 21, data := ⟨none, none, none⟩ }]
    timestamp := 4, coinbase := false }

/-- Store holding one unspent output owned by public key "a". -/
def stC5 : Store :=
  { emptyStore with
    utxos := [(7, { id := 7, value := 2100, nonce := 0
                    data := ⟨some "a", none, none⟩, creationTx := 0 })] }

/-- Transaction spending that output with a signature attached. -/
def txC5 : Transaction :=
  { inputs := [{ outputId := 7, data := ⟨none, none, some "s"⟩ }]
    outputs := [{ value := 50, nonce := 31, data := ⟨none, none, none⟩ }]
    timestamp := 8, coinbase := false }

/-- Genesis block whose coinbase outputs sum to 2^64 + 5 (wrapping to 5,
inside the reward bound of 10). -/
def bC3 : Block :=
  { transactions := []
    coinbaseTx :=
      { inputs := []
        outputs := [{ value := 2 ^ 63, nonce := 41, data := ⟨none, none, none⟩ },
                    { value := 2 ^ 63 + 5, nonce := 42, data := ⟨none, none, none⟩ }]
        timestamp := 6, coinbase := true }
    previousBlockId := 0, timestamp := 9, consensusData := 0, height := 1 }

/-- Well-behaved genesis block paying 5 of the 10 reward. -/
def bC3ok : Block :=
  { transactions := []
    coinbaseTx :=
      { inputs := []
        outputs := [{ value := 5, nonce := 43, data := ⟨none, none, none⟩ }]
        timestamp := 7, coinbase := true }
    previousBlockId := 0, timestamp := 19, consensusData := 0, height := 1 }

/-- Main-chain records for the reorg scenario: block 1 below block 2, the
tip. -/
def dbB1 : DbBlock :=
  { id := 1, transactionIds := [], coinbaseTxId := 100, previousBlockId := 0
    timestamp := 1, consensusData := 0, height := 1 }

/-- Tip record for the reorg scenario. -/
def dbB2 : DbBlock :=
  { id := 2, transactionIds := [], coinbaseTxId := 101, previousBlockId := 1
    timestamp := 2, consensusData := 0, height := 2 }

/-- Store with a two-block main chain and an empty candidates table. -/
def stC10 : Store :=
  { emptyStore with
    tip := some dbB2
    blocks := [(1, dbB1), (2, dbB2)]
    heights := [(1, 1), (2, 2)] }

/-- Block extending the old main-chain block 1 (not the tip). -/
def bC10 : Block :=
  { transactions := []
    coinbaseTx := { inputs := [], outputs := [], timestamp := 12, coinbase := true }
    previousBlockId := 1, timestamp := 55, consensusData := 0, height := 2 }

/-- Well-keyed `stxos` table: every stored record carries its key as id
(which `confirmTransaction` guarantees, copying `utxos` records written by
`createOutput`). -/
def StxKeyed (st : Store) : Prop :=
  ∀ k u, tget st.stxos k = some u → u.id = k

/-! ## Block confirmation data (for the apply/reverse round trip) -/

/-- Stored output record `confirmTransaction` writes for an output. -/
def dbOutputOf (e : Env) (txid : Nat) (o : Output) : DbOutput :=
  { id := e.outId o, value := o.value, nonce := o.nonce, data := o.data, creationTx := txid }

/-- Stored input record `spendInput` writes for an input. -/
def dbInputOf (e : Env) (i : Input) : DbInput :=
  { id := e.inId i, outputId := i.outputId, data := i.data }

/-- Stored transaction record `confirmTransaction` writes. -/
def dbTxOf (e : Env) (blk : Nat) (cb : Bool) (t : Transaction) : DbTransaction :=
  { id := e.txId t, inputIds := t.inputs.map e.inId, outputIds := t.outputs.map e.outId
    timestamp := t.timestamp, coinbase := cb, confirmingBlock := blk }

/-- Confirmation list of a block: the coinbase (flagged) followed by its
transactions, the order the apply path uses. -/
def blockPairs (b : Block) : List (Transaction × Bool) :=
  (b.coinbaseTx, true) :: b.transactions.map (fun t => (t, false))

/-- Inputs of a confirmation list, in confirmation order. -/
def pinps (L : List (Transaction × Bool)) : List Input :=
  (L.map (fun p => p.1.inputs)).flatten

/-- Created outputs of a confirmation list paired with their transactions,
in creation order. -/
def poutsL (L : List (Transaction × Bool)) : List (Transaction × Output) :=
  (L.map (fun p => p.1.outputs.map (fun o => (p.1, o)))).flatten

/-- `utxos` records a confirmation list creates, keyed by output id. -/
def ctabL (e : Env) (L : List (Transaction × Bool)) : List (Nat × DbOutput) :=
  (poutsL L).map (fun po => (e.outId po.2, dbOutputOf e (e.txId po.1) po.2))

/-- `inputs` records a list of spends creates, keyed by input id. -/
def itabL (e : Env) (inps : List Input) : List (Nat × DbInput) :=
  inps.map (fun i => (e.inId i, dbInputOf e i))

/-- `transactions` records a confirmation list creates, keyed by tx id. -/
def ttabL (e : Env) (blk : Nat) (L : List (Transaction × Bool)) :
    List (Nat × DbTransaction) :=
  L.map (fun p => (e.txId p.1, dbTxOf e blk p.2 p.1))

/-- Sequential owner-list filter, in the order the code applies the
per-output filters. -/
def filterOut (l : List Nat) (S : List Nat) : List Nat :=
  S.foldl (fun acc s => acc.filter (fun x => x != s)) l

/-- Public keys carried by the records a list of inputs spends. -/
def spentPks (st : Store) (inps : List Input) : List String :=
  inps.filterMap (fun i => (tget st.utxos i.outputId).bind (fun u => u.data.publicKey))

/-- Spent output ids owned by `pk` among a list of inputs, judged by the
`stxos` records of the given store (the reverse path reads `stxos`). -/
def spentForRev (st : Store) (pk : String) (inps : List Input) : List Nat :=
  (inps.filter (fun i =>
    ((tget st.stxos i.outputId).map (fun u => u.data.publicKey)).getD none == some pk)).map
    (·.outputId)

/-- State of the store after confirming a list, relative to the state the
fold started from: created records present, spent records moved to `stxos`,
input and transaction records written, owner lists filtered and extended in
order, block tables untouched. -/
def CharAfter (e : Env) (blk : Nat) (st0 : Store) (L : List (Transaction × Bool))
    (s : Store) : Prop :=
  (∀ k, tget s.utxos k =
    match tget (ctabL e L) k with
    | some r => some r
    | none => if k ∈ (pinps L).map (fun i => i.outputId) then none else tget st0.utxos k) ∧
  (∀ k, tget s.stxos k =
    if k ∈ (pinps L).map (fun i => i.outputId) then tget st0.utxos k else tget st0.stxos k) ∧
  (∀ k, tget s.inputs k =
    match tget (itabL e (pinps L)) k with
    | some r => some r
    | none => tget st0.inputs k) ∧
  (∀ k, tget s.transactions k =
    match tget (ttabL e blk L) k with
    | some r => some r
    | none => tget st0.transactions k) ∧
  (∀ pk, sget s.utxoOwners pk =
    filterOut (sget st0.utxoOwners pk) (spentFor st0 pk (pinps L)) ++
      createdFor e pk ((poutsL L).map (fun po => po.2))) ∧
  (∀ pk, sget s.stxoOwners pk = sget st0.stxoOwners pk ++ spentFor st0 pk (pinps L)) ∧
  s.blocks = st0.blocks ∧ s.heights = st0.heights ∧ s.tip = st0.tip ∧
  s.candidates = st0.candidates

/-- Side conditions under which the confirmation fold is characterized:
spent records present, the table keys the fold writes pairwise distinct, and
the spent and created id sets disjoint. -/
def ApplyPre (e : Env) (st0 : Store) (L : List (Transaction × Bool)) : Prop :=
  (∀ i ∈ pinps L, (tget st0.utxos i.outputId).isSome = true) ∧
  ((pinps L).map (fun i => i.outputId)).Nodup ∧
  ((pinps L).map e.inId).Nodup ∧
  (L.map (fun p => e.txId p.1)).Nodup ∧
  ((poutsL L).map (fun po => e.outId po.2)).Nodup ∧
  (∀ i ∈ pinps L, i.outputId ∉ (poutsL L).map (fun po => e.outId po.2))

/-- State of the store after reversing a list of transactions, relative to
the state the fold started from. -/
def RevRel (e : Env) (s : Store) (txs : List Transaction) (s2 : Store) : Prop :=
  (∀ k, tget s2.utxos k =
    if k ∈ (poutsL (txs.map (fun t => (t, false)))).map (fun po => e.outId po.2) then none
    else if k ∈ ((txs.map (fun t => t.inputs)).flatten.map (fun i => i.outputId)) then
      tget s.stxos k
    else tget s.utxos k) ∧
  (∀ k, tget s2.stxos k =
    if k ∈ ((txs.map (fun t => t.inputs)).flatten.map (fun i => i.outputId)) then none
    else tget s.stxos k) ∧
  (∀ k, tget s2.inputs k =
    if k ∈ ((txs.map (fun t => t.inputs)).flatten.map e.inId) then none
    else tget s.inputs k) ∧
  (∀ k, tget s2.transactions k =
    if k ∈ txs.map e.txId then none else tget s.transactions k) ∧
  (∀ pk, sget s2.utxoOwners pk =
    filterOut (sget s.utxoOwners pk)
        (createdFor e pk ((poutsL (txs.map (fun t => (t, false)))).map (fun po => po.2))) ++
      spentForRev s pk (txs.map (fun t => t.inputs)).flatten) ∧
  (∀ pk, sget s2.stxoOwners pk =
    filterOut (sget s.stxoOwners pk)
      (spentForRev s pk (txs.map (fun t => t.inputs)).flatten)) ∧
  s2.blocks = s.blocks ∧ s2.heights = s.heights ∧ s2.tip = s.tip ∧
  s2.candidates = s.candidates

/-- Side conditions for the reversal fold: the spent records live in `stxos`
keyed by their own id, spent ids pairwise distinct and disjoint from the
created ids being erased. -/
def RevPre (e : Env) (s : Store) (txs : List Transaction) : Prop :=
  (∀ i ∈ (txs.map (fun t => t.inputs)).flatten,
    (tget s.stxos i.outputId).map (fun u => u.id) = some i.outputId) ∧
  (((txs.map (fun t => t.inputs)).flatten.map (fun i => i.outputId)).Nodup) ∧
  (∀ i ∈ (txs.map (fun t => t.inputs)).flatten,
    i.outputId ∉ (poutsL (txs.map (fun t => (t, false)))).map (fun po => e.outId po.2))

/-- Block-table epilogue of `applyBlockOps`: drop the block from
`candidates`, set the new tip record, height subindex and id record. -/
def abFinal (e : Env) (b : Block) (h0 : Nat) (s2 : Store) : Store :=
  { s2 with
    candidates := terase s2.candidates (e.blockId b)
    tip := some (DbBlock.ofBlock e b h0)
    heights := tput s2.heights h0 (e.blockId b)
    blocks := tput s2.blocks (e.blockId b) (DbBlock.ofBlock e b h0) }

/-- Previous-tip record for the round-trip instances. -/
def dbPrev : DbBlock :=
  { id := 5, transactionIds := [], coinbaseTxId := 90, previousBlockId := 0
    timestamp := 5, consensusData := 0, height := 1 }

/-- Store with two outputs owned by "a" (owner list `[1, 2]`) and a stored
previous tip, for the apply/reverse round trip. -/
def stC4 : Store :=
  { emptyStore with
    tip := some dbPrev
    blocks := [(5, dbPrev)]
    utxos := [(1, { id := 1, value := 50, nonce := 1
                    data := ⟨some "a", none, none⟩, creationTx := 0 }),
              (2, { id := 2, value := 60, nonce := 2
                    data := ⟨some "a", none, none⟩, creationTx := 0 })]
    utxoOwners := [("a", [1, 2])] }

/-- Transaction of the round-trip block: spends output 1 of owner "a". -/
def txC4 : Transaction :=
  { inputs := [{ outputId := 1, data := ⟨none, none, none⟩ }]
    outputs := [{ value := 40, nonce := 10, data := ⟨none, none, none⟩ }]
    timestamp := 70, coinbase := false }

/-- Round-trip block: one transaction spending output 1 plus a coinbase. -/
def bC4 : Block :=
  { transactions := [txC4]
    coinbaseTx := { inputs := []
                    outputs := [{ value := 20, nonce := 11
                                  data := ⟨none, none, none⟩ }]
                    timestamp := 71, coinbase := true }
    previousBlockId := 5, timestamp := 100, consensusData := 0, height := 7 }

/-! ## Table primitive lemmas -/

theorem tget_terase_self {α : Type} (t : List (Nat × α)) (k : Nat) :
    tget (terase t k) k = none := by
  induction t with
  | nil => rfl
  | cons a t ih =>
    obtain ⟨a1, a2⟩ := a
    rw [terase]
    by_cases h : a1 = k
    · simpa [h] using ih
    · simpa [tget, h] using ih

theorem tget_terase_ne {α : Type} (t : List (Nat × α)) {k k' : Nat} (h : k' ≠ k) :
    tget (terase t k) k' = tget t k' := by
  induction t with
  | nil => rfl
  | cons a t ih =>
    obtain ⟨a1, a2⟩ := a
    rw [terase]
    by_cases ha : a1 = k
    · subst ha
      have : a1 ≠ k' := fun hh => h hh.symm
      simpa [tget, this] using ih
    · by_cases ha' : a1 = k'
      · simp [tget, terase, ha', ha, h]
      · simpa [tget, terase, ha, ha'] using ih

theorem tget_tput_self {α : Type} (t : List (Nat × α)) (k : Nat) (v : α) :
    tget (tput t k v) k = some v := by
  simp [tput, tget]

theorem tget_tput_ne {α : Type} (t : List (Nat × α)) {k k' : Nat} (v : α) (h : k' ≠ k) :
    tget (tput t k v) k' = tget t k' := by
  have : k ≠ k' := fun hh => h hh.symm
  simp [tput, tget, this, tget_terase_ne t h]

theorem sget_serase_self (t : List (String × List Nat)) (k : String) :
    sget (serase t k) k = [] := by
  induction t with
  | nil => rfl
  | cons a t ih =>
    obtain ⟨a1, a2⟩ := a
    rw [serase]
    by_cases h : a1 = k
    · simpa [h] using ih
    · simpa [sget, h] using ih

theorem sget_serase_ne (t : List (String × List Nat)) {k k' : String} (h : k' ≠ k) :
    sget (serase t k) k' = sget t k' := by
  induction t with
  | nil => rfl
  | cons a t ih =>
    obtain ⟨a1, a2⟩ := a
    rw [serase]
    by_cases ha : a1 = k
    · subst ha
      have : a1 ≠ k' := fun hh => h hh.symm
      simpa [sget, this] using ih
    · by_cases ha' : a1 = k'
      · simp [sget, serase, ha', ha, h]
      · simpa [sget, serase, ha, ha'] using ih

theorem sget_sput_self (t : List (String × List Nat)) (k : String) (v : List Nat) :
    sget (sput t k v) k = v := by
  simp [sput, sget]

theorem sget_sput_ne (t : List (String × List Nat)) {k k' : String} (v : List Nat)
    (h : k' ≠ k) :
    sget (sput t k v) k' = sget t k' := by
  have : k ≠ k' := fun hh => h hh.symm
  simp [sput, sget, this, sget_serase_ne t h]

theorem tget_mem {α : Type} {t : List (Nat × α)} {k : Nat} {v : α}
    (h : tget t k = some v) : (k, v) ∈ t := by
  induction t with
  | nil => simp [tget] at h
  | cons a t ih =>
    obtain ⟨a1, a2⟩ := a
    rw [tget] at h
    by_cases ha : a1 = k
    · simp [ha] at h
      subst ha
      subst h
      exact List.mem_cons_self _ _
    · simp [ha] at h
      exact List.mem_cons_of_mem _ (ih h)

/-! ## C9: verifyTransaction is effect-free -/

/-- C9: `verifyTransaction` never writes to any store table or to the
mempool: for every store transaction, transaction and coinbase flag, the
store (blocks, transactions, utxos, stxos, inputs, candidates tables) and
the mempool handed back are the arguments unchanged, whichever verdict is
returned. -/
theorem verifyTransaction_frame (e : Env) (st : Store) (mp : Mempool)
    (tx : Transaction) (cb : Bool) :
    (verifyTransactionST e st mp tx cb).2 = (st, mp) := by
  simp only [verifyTransactionST]
  repeat' split
  all_goals rfl

/-! ## C6: missing parent verdict -/

/-- C6 (amended): a non-genesis block that is not already known and whose
previous-block id is found in neither the `blocks` table nor the
`candidates` table is rejected by `submitBlock` with `ok = false` and
`permanent = true`, leaving the store and mempool unchanged. -/
theorem submitBlock_missing_parent (e : Env) (fuel : Nat) (st : Store) (mp : Mempool)
    (b : Block)
    (hknown : tget st.blocks (e.blockId b) = none)
    (hprevB : tget st.blocks b.previousBlockId = none)
    (hprevC : tget st.candidates b.previousBlockId = none) :
    submitBlockF e (fuel + 1) st mp b false = some ((false, true), st, mp) := by
  unfold submitBlockF
  simp [hknown, getBlockDB, hprevB, hprevC]

/-- Witness for the amended missing-parent claim at a concrete input. -/
theorem submitBlock_missing_parent_witness :
    tget emptyStore.blocks (eBase.blockId bDetached) = none ∧
    tget emptyStore.blocks bDetached.previousBlockId = none ∧
    tget emptyStore.candidates bDetached.previousBlockId = none ∧
    submitBlockF eBase 1 emptyStore emptyMempool bDetached false
      = some ((false, true), emptyStore, emptyMempool) :=
  ⟨rfl, rfl, rfl,
    submitBlock_missing_parent eBase 0 emptyStore emptyMempool bDetached rfl rfl rfl⟩

/-- Counterexample to C6 as stated: on a missing parent the code returns
`(false, true)`, not the benign `(false, false)` verdict the claim
asserts. -/
theorem submitBlock_missing_parent_cex :
    (submitBlockF eBase 1 emptyStore emptyMempool bDetached false).map (·.1)
      = some (false, true) ∧
    some ((false : Bool), (true : Bool)) ≠ some ((false : Bool), (false : Bool)) := by
  exact ⟨by decide, by decide⟩

/-! ## C7: mempool insertion -/

theorem tget_foldl_tput {α β : Type} (f : β → Nat) (v : α) (xs : List β)
    (t : List (Nat × α)) (k : Nat) :
    tget (xs.foldl (fun m x => tput m (f x) v) t) k =
      if k ∈ xs.map f then some v else tget t k := by
  induction xs generalizing t with
  | nil => simp
  | cons x xs ih =>
    rw [List.foldl_cons, ih]
    by_cases hk : k ∈ xs.map f
    · simp [hk]
    · rw [if_neg hk]
      by_cases hx : f x = k
      · rw [hx, tget_tput_self, if_pos]
        rw [List.map_cons, ← hx]
        exact List.mem_cons_self _ _
      · rw [tget_tput_ne _ _ (fun h => hx h.symm), if_neg]
        rw [List.map_cons]
        simp [hk]
        exact fun h => hx h.symm

/-- C7: `Mempool::insert` returns `false` and leaves the transaction map,
input index, output index and byte count unchanged exactly when the
transaction is already present, an input id collides with an indexed input,
a consumed output id is already referenced (as input or output of another
member, both held by the `outputs` index), or a produced output id
collides; otherwise it returns `true`, indexes every input and output under
the transaction id, and adds the canonical size to the byte count. -/
theorem mempool_insert_spec (e : Env) (mp : Mempool) (tx : Transaction) :
    ((Mempool.insert e mp tx).1 = false ↔
      ((tget mp.txs (e.txId tx)).isSome = true ∨
        (∃ i ∈ tx.inputs, (tget mp.inputs (e.inId i)).isSome = true) ∨
        (∃ i ∈ tx.inputs, (tget mp.outputs i.outputId).isSome = true) ∨
        (∃ o ∈ tx.outputs, (tget mp.outputs (e.outId o)).isSome = true))) ∧
    ((Mempool.insert e mp tx).1 = false → (Mempool.insert e mp tx).2 = mp) ∧
    ((Mempool.insert e mp tx).1 = true →
      ((Mempool.insert e mp tx).2.bytes = mp.bytes + e.txSize tx ∧
        tget (Mempool.insert e mp tx).2.txs (e.txId tx) = some tx ∧
        (∀ i ∈ tx.inputs,
          tget (Mempool.insert e mp tx).2.inputs (e.inId i) = some (e.txId tx) ∧
          tget (Mempool.insert e mp tx).2.outputs i.outputId = some (e.txId tx)) ∧
        (∀ o ∈ tx.outputs,
          tget (Mempool.insert e mp tx).2.outputs (e.outId o) = some (e.txId tx)))) := by
  by_cases h1 : (tget mp.txs (e.txId tx)).isSome = true
  · simp [Mempool.insert, h1]
  · by_cases h2 : (tx.inputs.any fun i =>
        (tget mp.inputs (e.inId i)).isSome || (tget mp.outputs i.outputId).isSome) = true
    · have hc := List.any_eq_true.mp h2
      obtain ⟨i, hi, hor⟩ := hc
      rw [Bool.or_eq_true] at hor
      have hins : Mempool.insert e mp tx = (false, mp) := by
        unfold Mempool.insert
        rw [if_neg h1, if_pos h2]
      rw [hins]
      refine ⟨?_, fun _ => rfl, by simp⟩
      simp only [true_iff]
      rcases hor with h | h
      · exact Or.inr (Or.inl ⟨i, hi, h⟩)
      · exact Or.inr (Or.inr (Or.inl ⟨i, hi, h⟩))
    · by_cases h3 : (tx.outputs.any fun o => (tget mp.outputs (e.outId o)).isSome) = true
      · have hc := List.any_eq_true.mp h3
        obtain ⟨o, ho, hs⟩ := hc
        have hins : Mempool.insert e mp tx = (false, mp) := by
          unfold Mempool.insert
          rw [if_neg h1, if_neg h2, if_pos h3]
        rw [hins]
        refine ⟨?_, fun _ => rfl, by simp⟩
        simp only [true_iff]
        exact Or.inr (Or.inr (Or.inr ⟨o, ho, hs⟩))
      · have hins : Mempool.insert e mp tx =
            (true,
              { txs := tput mp.txs (e.txId tx) tx
                bytes := mp.bytes + e.txSize tx
                inputs := tx.inputs.foldl (fun m i => tput m (e.inId i) (e.txId tx)) mp.inputs
                outputs := tx.outputs.foldl (fun m o => tput m (e.outId o) (e.txId tx))
                  (tx.inputs.foldl (fun m i => tput m i.outputId (e.txId tx)) mp.outputs) }) := by
          unfold Mempool.insert
          rw [if_neg h1, if_neg h2, if_neg h3]
        rw [hins]
        constructor
        · refine ⟨fun h => absurd h (by simp), ?_⟩
          rintro (h | ⟨i, hi, h⟩ | ⟨i, hi, h⟩ | ⟨o, ho, h⟩)
          · exact absurd (absurd h h1) id
          · exact absurd (List.any_eq_true.mpr ⟨i, hi, by simp [h]⟩) h2
          · exact absurd (List.any_eq_true.mpr ⟨i, hi, by simp [h]⟩) h2
          · exact absurd (List.any_eq_true.mpr ⟨o, ho, h⟩) h3
        refine ⟨by simp, fun _ => ⟨rfl, tget_tput_self _ _ _, ?_, ?_⟩⟩
        · intro i hi
          constructor
          · show tget (tx.inputs.foldl (fun m i => tput m (e.inId i) (e.txId tx)) mp.inputs)
              (e.inId i) = some (e.txId tx)
            rw [tget_foldl_tput, if_pos]
            exact List.mem_map_of_mem _ hi
          · show tget (tx.outputs.foldl (fun m o => tput m (e.outId o) (e.txId tx))
              (tx.inputs.foldl (fun m i => tput m i.outputId (e.txId tx)) mp.outputs))
              i.outputId = some (e.txId tx)
            rw [tget_foldl_tput]
            by_cases hmem : i.outputId ∈ tx.outputs.map e.outId
            · rw [if_pos hmem]
            · rw [if_neg hmem]
              show tget (tx.inputs.foldl (fun m j => tput m ((fun x => x.outputId) j) (e.txId tx))
                mp.outputs) i.outputId = some (e.txId tx)
              rw [tget_foldl_tput, if_pos]
              exact List.mem_map_of_mem _ hi
        · intro o ho
          show tget (tx.outputs.foldl (fun m o => tput m (e.outId o) (e.txId tx))
            (tx.inputs.foldl (fun m i => tput m i.outputId (e.txId tx)) mp.outputs))
            (e.outId o) = some (e.txId tx)
          rw [tget_foldl_tput, if_pos]
          exact List.mem_map_of_mem _ ho

/-- Witness for the mempool-insertion claim: a fresh transaction enters the
empty mempool, is indexed under its id, and adds its size to the count. -/
theorem mempool_insert_spec_witness :
    (Mempool.insert eBase emptyMempool txW).1 = true ∧
    (Mempool.insert eBase emptyMempool txW).2.bytes = emptyMempool.bytes + eBase.txSize txW ∧
    tget (Mempool.insert eBase emptyMempool txW).2.txs (eBase.txId txW) = some txW :=
  ⟨by decide,
    ((mempool_insert_spec eBase emptyMempool txW).2.2 (by decide)).1,
    ((mempool_insert_spec eBase emptyMempool txW).2.2 (by decide)).2.1⟩

/-! ## C8: mempool selection -/

theorem selectLoop_subset (e : Env) (l : List (Nat × Transaction)) (total : Nat) :
    ∀ t ∈ selectLoop e total l, ∃ k, (k, t) ∈ l := by
  induction l generalizing total with
  | nil => simp [selectLoop]
  | cons p l ih =>
    intro t ht
    rw [selectLoop] at ht
    by_cases hc : 10 * ((total + e.txSize p.2) % 2 ^ 64) < 40894464
    · rw [if_pos hc] at ht
      rcases List.mem_cons.mp ht with h | h
      · subst h
        exact ⟨p.1, by simp⟩
      · obtain ⟨k, hk⟩ := ih _ t h
        exact ⟨k, List.mem_cons_of_mem _ hk⟩
    · rw [if_neg hc] at ht
      simp at ht

theorem selectLoop_bound (e : Env) (l : List (Nat × Transaction)) (total : Nat)
    (hsz : ∀ p ∈ l, e.txSize p.2 < 2 ^ 32) (htot : 10 * total < 40894464) :
    10 * (total + ((selectLoop e total l).map e.txSize).sum) < 40894464 := by
  induction l generalizing total with
  | nil => simpa [selectLoop] using htot
  | cons p l ih =>
    rw [selectLoop]
    have hm : (total + e.txSize p.2) % 2 ^ 64 = total + e.txSize p.2 := by
      have h1 : e.txSize p.2 < 2 ^ 32 := hsz p (List.mem_cons_self _ _)
      have h2 : total < 4089447 := by omega
      exact Nat.mod_eq_of_lt (by omega)
    by_cases hc : 10 * ((total + e.txSize p.2) % 2 ^ 64) < 40894464
    · rw [if_pos hc]
      rw [hm] at hc ⊢
      have := ih (total + e.txSize p.2)
        (fun q hq => hsz q (List.mem_cons_of_mem _ hq)) hc
      simp only [List.map_cons, List.sum_cons]
      omega
    · rw [if_neg hc]
      simpa using htot

theorem selectLoop_take (e : Env) (l : List (Nat × Transaction)) (total : Nat)
    (hsz : ∀ p ∈ l, e.txSize p.2 < 2 ^ 32) (htot : 10 * total < 40894464) :
    ∃ n, n ≤ l.length ∧ selectLoop e total l = (l.take n).map (·.2) ∧
      (∀ p, (l.drop n).head? = some p →
        40894464 ≤ 10 * (total + ((l.take n).map (fun q => e.txSize q.2)).sum + e.txSize p.2)) := by
  induction l generalizing total with
  | nil =>
    refine ⟨0, by simp, by simp [selectLoop], ?_⟩
    intro p hp
    simp at hp
  | cons p l ih =>
    rw [selectLoop]
    have hm : (total + e.txSize p.2) % 2 ^ 64 = total + e.txSize p.2 := by
      have h1 : e.txSize p.2 < 2 ^ 32 := hsz p (List.mem_cons_self _ _)
      have h2 : total < 4089447 := by omega
      exact Nat.mod_eq_of_lt (by omega)
    by_cases hc : 10 * ((total + e.txSize p.2) % 2 ^ 64) < 40894464
    · rw [if_pos hc]
      rw [hm] at hc
      obtain ⟨n, hn, hsel, hstop⟩ := ih (total + e.txSize p.2)
        (fun q hq => hsz q (List.mem_cons_of_mem _ hq)) hc
      refine ⟨n + 1, by simpa using hn, ?_, ?_⟩
      · simp only [List.take_succ_cons, List.map_cons]
        rw [hm, hsel]
      · intro q hq
        simp only [List.drop_succ_cons] at hq
        have := hstop q hq
        simp only [List.take_succ_cons, List.map_cons, List.sum_cons]
        omega
    · rw [if_neg hc]
      rw [hm] at hc
      refine ⟨0, by simp, by simp, ?_⟩
      intro q hq
      simp only [List.drop_zero, List.head?_cons] at hq
      cases hq
      simp only [List.take_zero, List.map_nil, List.sum_nil]
      omega

theorem sorted_keys_perm_eq (l1 l2 : List (Nat × Transaction)) (hp : l1.Perm l2)
    (h1 : l1.Pairwise (fun p q => p.1 < q.1)) (h2 : l2.Pairwise (fun p q => p.1 < q.1)) :
    l1 = l2 := by
  haveI : IsAntisymm (Nat × Transaction) (fun p q => p.1 < q.1) :=
    ⟨fun a b hab hba => absurd hab (by omega)⟩
  exact List.eq_of_perm_of_sorted hp h1 h2

/-- C8: mempool selection returns a subset of the member transactions whose
cumulative byte size stays strictly below 3.9 * 1024 * 1024 bytes, obtained
by walking the members in order and stopping at the first transaction whose
inclusion would reach the bound; on id-sorted member lists the result is
determined by the set of members.  Sizes below 2^32 reflect the unsigned
size type. -/
theorem mempool_selection_spec (e : Env) (mp : Mempool)
    (hsz : ∀ p ∈ mp.txs, e.txSize p.2 < 2 ^ 32) :
    (∀ t ∈ Mempool.getTransactions e mp, ∃ k, (k, t) ∈ mp.txs) ∧
    10 * ((Mempool.getTransactions e mp).map e.txSize).sum < 40894464 ∧
    (∃ n, n ≤ mp.txs.length ∧
      Mempool.getTransactions e mp = (mp.txs.take n).map (·.2) ∧
      (∀ p, (mp.txs.drop n).head? = some p →
        40894464 ≤ 10 * (((mp.txs.take n).map (fun q => e.txSize q.2)).sum + e.txSize p.2))) ∧
    (∀ mp2 : Mempool, mp.txs.Perm mp2.txs →
      mp.txs.Pairwise (fun p q => p.1 < q.1) → mp2.txs.Pairwise (fun p q => p.1 < q.1) →
      Mempool.getTransactions e mp = Mempool.getTransactions e mp2) := by
  refine ⟨selectLoop_subset e mp.txs 0, ?_, ?_, ?_⟩
  · have := selectLoop_bound e mp.txs 0 hsz (by omega)
    simpa [Mempool.getTransactions] using this
  · obtain ⟨n, hn, hsel, hstop⟩ := selectLoop_take e mp.txs 0 hsz (by omega)
    exact ⟨n, hn, hsel, fun p hp => by simpa using hstop p hp⟩
  · intro mp2 hperm hs1 hs2
    have : mp.txs = mp2.txs := sorted_keys_perm_eq _ _ hperm hs1 hs2
    simp [Mempool.getTransactions, this]

/-- Witness for the mempool-selection claim at a concrete two-member
mempool. -/
theorem mempool_selection_spec_witness :
    10 * ((Mempool.getTransactions eBase mpW).map eBase.txSize).sum < 40894464 :=
  (mempool_selection_spec eBase mpW (by decide)).2.1

/-! ## C2: value conservation in verifyTransaction -/

theorem foldl_wadd_le (l : List Nat) (acc : Nat) :
    l.foldl (fun a v => (a + v) % 2 ^ 64) acc ≤ acc + l.sum := by
  induction l generalizing acc with
  | nil => simp
  | cons v l ih =>
    rw [List.foldl_cons]
    have h1 := ih ((acc + v) % 2 ^ 64)
    have h2 : (acc + v) % 2 ^ 64 ≤ acc + v := Nat.mod_le _ _
    simp only [List.sum_cons]
    omega

theorem foldl_wadd_eq (l : List Nat) (acc : Nat) (h : acc + l.sum < 2 ^ 64) :
    l.foldl (fun a v => (a + v) % 2 ^ 64) acc = acc + l.sum := by
  induction l generalizing acc with
  | nil => simp
  | cons v l ih =>
    simp only [List.sum_cons] at h
    rw [List.foldl_cons, Nat.mod_eq_of_lt (by omega), ih _ (by omega)]
    simp only [List.sum_cons]
    omega

theorem outputsPass_error_val (e : Env) (st : Store) (outs : List Output) (acc : Nat)
    (v : Bool × Bool) (h : outputsPass e st outs acc = .error v) : v = (false, false) := by
  induction outs generalizing acc with
  | nil => rw [outputsPass] at h; cases h
  | cons o outs ih =>
    rw [outputsPass] at h
    by_cases hc : ((tget st.utxos (e.outId o)).isSome || (tget st.stxos (e.outId o)).isSome) = true
    · rw [if_pos hc] at h
      cases h
      rfl
    · rw [if_neg hc] at h
      exact ih _ h

theorem outputsPass_ok_spec (e : Env) (st : Store) (outs : List Output) (acc tot : Nat)
    (h : outputsPass e st outs acc = .ok tot) :
    tot = (outs.map (·.value)).foldl (fun a v => (a + v) % 2 ^ 64) acc ∧
    ∀ o ∈ outs, tget st.utxos (e.outId o) = none ∧ tget st.stxos (e.outId o) = none := by
  induction outs generalizing acc with
  | nil =>
    rw [outputsPass] at h
    cases h
    exact ⟨rfl, by simp⟩
  | cons o outs ih =>
    rw [outputsPass] at h
    by_cases hc : ((tget st.utxos (e.outId o)).isSome || (tget st.stxos (e.outId o)).isSome) = true
    · rw [if_pos hc] at h
      cases h
    · rw [if_neg hc] at h
      obtain ⟨h1, h2⟩ := ih _ h
      simp only [Bool.or_eq_true, not_or, Bool.not_eq_true] at hc
      refine ⟨by simpa using h1, ?_⟩
      intro o2 ho2
      rcases List.mem_cons.mp ho2 with rfl | ho2
      · constructor
        · cases htt : tget st.utxos (e.outId o2) with
          | none => rfl
          | some u =>
            rw [htt] at hc
            simp at hc
        · cases htt : tget st.stxos (e.outId o2) with
          | none => rfl
          | some u =>
            rw [htt] at hc
            simp at hc
      · exact h2 o2 ho2

theorem inputsPass_error_fst (e : Env) (st : Store) (hash : Nat) (inps : List Input)
    (acc : Nat) (v : Bool × Bool) (h : inputsPass e st hash inps acc = .error v) :
    v.1 = false := by
  induction inps generalizing acc with
  | nil => rw [inputsPass] at h; cases h
  | cons i inps ih =>
    rw [inputsPass] at h
    split at h
    · cases h
      rfl
    · split at h
      · split at h
        · cases h
          rfl
        · split at h
          · exact ih _ h
          · cases h
            rfl
      · exact ih _ h

theorem inputsPass_ok_spec (e : Env) (st : Store) (hash : Nat) (inps : List Input)
    (acc tot : Nat) (h : inputsPass e st hash inps acc = .ok tot) :
    tot = (inps.map (fun i => ((tget st.utxos i.outputId).map (·.value)).getD 0)).foldl
        (fun a v => (a + v) % 2 ^ 64) acc ∧
    ∀ i ∈ inps, ∃ u, tget st.utxos i.outputId = some u ∧
      (∀ pk, u.data.publicKey = some pk → u.data.contract = none →
        ∃ sig, i.data.signature = some sig ∧ e.verifySig pk (u.id, hash) sig = true) := by
  induction inps generalizing acc with
  | nil =>
    rw [inputsPass] at h
    cases h
    exact ⟨rfl, by simp⟩
  | cons i inps ih =>
    rw [inputsPass] at h
    split at h
    · cases h
    · next u hu =>
      have hcons : ∀ (hh : inputsPass e st hash inps ((acc + u.value) % 2 ^ 64) = .ok tot)
          (hsig : ∀ pk, u.data.publicKey = some pk → u.data.contract = none →
            ∃ sig, i.data.signature = some sig ∧ e.verifySig pk (u.id, hash) sig = true),
          tot = ((i :: inps).map
              (fun j => ((tget st.utxos j.outputId).map (·.value)).getD 0)).foldl
              (fun a v => (a + v) % 2 ^ 64) acc ∧
          ∀ j ∈ i :: inps, ∃ u2, tget st.utxos j.outputId = some u2 ∧
            (∀ pk, u2.data.publicKey = some pk → u2.data.contract = none →
              ∃ sig, j.data.signature = some sig ∧ e.verifySig pk (u2.id, hash) sig = true) := by
        intro hh hsig
        obtain ⟨h1, h2⟩ := ih _ hh
        refine ⟨by rw [h1]; simp [hu], ?_⟩
        intro j hj
        rcases List.mem_cons.mp hj with rfl | hj
        · exact ⟨u, hu, hsig⟩
        · exact h2 j hj
      split at h
      · next pk hpk hct =>
        split at h
        · cases h
        · next sig hsig =>
          split at h
          · next hver =>
            exact hcons h (fun pk2 hpk2 _ => by
              rw [hpk] at hpk2
              cases hpk2
              exact ⟨sig, hsig, hver⟩)
          · cases h
      · next hcatch =>
        refine hcons h ?_
        intro pk hpk hct
        exact (hcatch pk hpk hct).elim

theorem sum64_def (l : List Nat) :
    sum64 l = l.foldl (fun a v => (a + v) % 2 ^ 64) 0 := rfl

theorem verifyTransaction_ok_inv (e : Env) (st : Store) (tx : Transaction) (cb : Bool)
    (h : (verifyTransaction e st tx cb).1 = true) :
    tget st.transactions (e.txId tx) = none ∧
    ∃ ot it, outputsPass e st tx.outputs 0 = .ok ot ∧
      inputsPass e st (e.outputSetId (tx.outputs.map e.outId)) tx.inputs 0 = .ok it ∧
      (cb = false → ot ≤ it ∧ getTransactionFee e tx ≤ 2 * (it - ot)) := by
  simp only [verifyTransaction, verifyTransactionST] at h
  by_cases hknown : (tget st.transactions (e.txId tx)).isSome = true
  · rw [if_pos hknown] at h
    simp at h
  · rw [if_neg hknown] at h
    have hknown2 : tget st.transactions (e.txId tx) = none := by
      simpa using hknown
    cases hop : outputsPass e st tx.outputs 0 with
    | error v =>
      simp only [hop] at h
      have hv := outputsPass_error_val e st tx.outputs 0 v hop
      subst hv
      simp at h
    | ok ot =>
      simp only [hop] at h
      cases hip : inputsPass e st (e.outputSetId (tx.outputs.map e.outId)) tx.inputs 0 with
      | error v =>
        simp only [hip] at h
        have hv := inputsPass_error_fst e st _ tx.inputs 0 v hip
        rw [h] at hv
        cases hv
      | ok it =>
        simp only [hip] at h
        by_cases hc1 : (cb = false ∧ ot > it)
        · rw [if_pos hc1] at h
          simp at h
        · rw [if_neg hc1] at h
          by_cases hc2 : (cb = false ∧ 2 * (it - ot) < getTransactionFee e tx)
          · rw [if_pos hc2] at h
            simp at h
          · rw [if_neg hc2] at h
            by_cases hc3 : e.contractValid st tx = false
            · rw [if_pos hc3] at h
              simp at h
            · rw [if_neg hc3] at h
              by_cases hc4 : e.consVerifyTx st tx = false
              · rw [if_pos hc4] at h
                simp at h
              · refine ⟨hknown2, ot, it, rfl, rfl, ?_⟩
                intro hcb
                subst hcb
                constructor
                · by_contra hgt
                  exact hc1 ⟨by trivial, by omega⟩
                · by_contra hfee
                  exact hc2 ⟨by trivial, by omega⟩

/-- C2: for a non-coinbase transaction `verifyTransaction` enforces output
total at most input total and fee at least half the size fee, but on the
64-bit wrapped sums the `uint64_t` accumulators compute; a violation of
either wrapped condition returns `(false, true)`.  Conservation of the true
(unwrapped) sums therefore holds whenever the output total does not
overflow 2^64, and only then. -/
theorem verifyTransaction_conservation (e : Env) (st : Store) (tx : Transaction) :
    ((verifyTransaction e st tx false).1 = true →
      (sum64 (tx.outputs.map (·.value)) ≤
          sum64 (tx.inputs.map (fun i => ((tget st.utxos i.outputId).map (·.value)).getD 0)) ∧
        getTransactionFee e tx ≤
          2 * (sum64 (tx.inputs.map (fun i => ((tget st.utxos i.outputId).map (·.value)).getD 0)) -
            sum64 (tx.outputs.map (·.value))) ∧
        ((tx.outputs.map (·.value)).sum < 2 ^ 64 →
          (tx.outputs.map (·.value)).sum ≤
            (tx.inputs.map (fun i => ((tget st.utxos i.outputId).map (·.value)).getD 0)).sum))) ∧
    (∀ ot it, tget st.transactions (e.txId tx) = none →
      outputsPass e st tx.outputs 0 = .ok ot →
      inputsPass e st (e.outputSetId (tx.outputs.map e.outId)) tx.inputs 0 = .ok it →
      ((it < ot → verifyTransaction e st tx false = (false, true)) ∧
        (ot ≤ it → 2 * (it - ot) < getTransactionFee e tx →
          verifyTransaction e st tx false = (false, true)))) := by
  constructor
  · intro hok
    obtain ⟨hknown, ot, it, hop, hip, hcond⟩ := verifyTransaction_ok_inv e st tx false hok
    obtain ⟨hcle, hfee⟩ := hcond rfl
    have hot := (outputsPass_ok_spec e st tx.outputs 0 ot hop).1
    have hit := (inputsPass_ok_spec e st _ tx.inputs 0 it hip).1
    rw [sum64_def, sum64_def, ← hot, ← hit]
    refine ⟨hcle, hfee, ?_⟩
    intro hlt
    have h1 : ot = (tx.outputs.map (·.value)).sum := by
      rw [hot, foldl_wadd_eq _ 0 (by omega)]
      omega
    have h2 : it ≤ (tx.inputs.map (fun i => ((tget st.utxos i.outputId).map (·.value)).getD 0)).sum := by
      rw [hit]
      have := foldl_wadd_le (tx.inputs.map (fun i => ((tget st.utxos i.outputId).map (·.value)).getD 0)) 0
      omega
    omega
  · intro ot it hknown hop hip
    constructor
    · intro hlt
      unfold verifyTransaction verifyTransactionST
      rw [hknown]
      simp only [Option.isSome_none, Bool.false_eq_true, if_false, hop, hip]
      rw [if_pos ⟨by trivial, hlt⟩]
    · intro hle hfee
      unfold verifyTransaction verifyTransactionST
      rw [hknown]
      simp only [Option.isSome_none, Bool.false_eq_true, if_false, hop, hip]
      rw [if_neg (fun hc => by omega), if_pos ⟨by trivial, hfee⟩]

/-- Counterexample to C2 as stated: the transaction `txC2` spends a single
2100-valued output while its outputs sum to 2^64 + 100; the `uint64_t`
output total wraps to 100, so `verifyTransaction` accepts although the true
output sum exceeds the input sum. -/
theorem verifyTransaction_conservation_cex :
    verifyTransaction eBase stC2 txC2 false = (true, false) ∧
    (txC2.inputs.map (fun i => ((tget stC2.utxos i.outputId).map (·.value)).getD 0)).sum = 2100 ∧
    (txC2.outputs.map (·.value)).sum = 2 ^ 64 + 100 ∧
    ¬((txC2.outputs.map (·.value)).sum ≤
        (txC2.inputs.map (fun i => ((tget stC2.utxos i.outputId).map (·.value)).getD 0)).sum) := by
  exact ⟨by decide, by decide, by decide, by decide⟩

/-- Witness for the amended conservation claim on a non-overflowing
transaction. -/
theorem verifyTransaction_conservation_witness :
    (txV.outputs.map (·.value)).sum ≤
      (txV.inputs.map (fun i => ((tget stC2.utxos i.outputId).map (·.value)).getD 0)).sum :=
  (((verifyTransaction_conservation eBase stC2 txV).1 (by decide)).2.2 (by decide))

/-! ## C5: signature binding to the output set -/

theorem inputsPass_cons_none (e : Env) (st : Store) (hash : Nat) (i : Input)
    (inps : List Input) (acc : Nat) (hu : tget st.utxos i.outputId = none) :
    inputsPass e st hash (i :: inps) acc = .error (false, false) := by
  rw [inputsPass, hu]

theorem inputsPass_cons_some (e : Env) (st : Store) (hash : Nat) (i : Input)
    (inps : List Input) (acc : Nat) (u : DbOutput)
    (hu : tget st.utxos i.outputId = some u) :
    inputsPass e st hash (i :: inps) acc =
      match u.data.publicKey, u.data.contract with
      | some pk, none =>
        match i.data.signature with
        | none => .error (false, true)
        | some sig =>
          if e.verifySig pk (u.id, hash) sig = true
          then inputsPass e st hash inps ((acc + u.value) % 2 ^ 64)
          else .error (false, true)
      | _, _ => inputsPass e st hash inps ((acc + u.value) % 2 ^ 64) := by
  rw [inputsPass, hu]

theorem inputsPass_cons_sig (e : Env) (st : Store) (hash : Nat) (i : Input)
    (inps : List Input) (acc : Nat) (u : DbOutput) (pk : String)
    (hu : tget st.utxos i.outputId = some u)
    (hpk : u.data.publicKey = some pk) (hct : u.data.contract = none) :
    inputsPass e st hash (i :: inps) acc =
      match i.data.signature with
      | none => .error (false, true)
      | some sig =>
        if e.verifySig pk (u.id, hash) sig = true
        then inputsPass e st hash inps ((acc + u.value) % 2 ^ 64)
        else .error (false, true) := by
  obtain ⟨uid, uval, unon, udata, uctx⟩ := u
  obtain ⟨upk, uctr, usg⟩ := udata
  cases hpk
  cases hct
  rw [inputsPass_cons_some e st hash i inps acc _ hu]

theorem inputsPass_cons_skip (e : Env) (st : Store) (hash : Nat) (i : Input)
    (inps : List Input) (acc : Nat) (u : DbOutput)
    (hu : tget st.utxos i.outputId = some u)
    (hnot : u.data.publicKey = none ∨ ∃ c, u.data.contract = some c) :
    inputsPass e st hash (i :: inps) acc =
      inputsPass e st hash inps ((acc + u.value) % 2 ^ 64) := by
  rw [inputsPass_cons_some e st hash i inps acc u hu]
  rcases hnot with h | ⟨c, hc⟩
  · rw [h]
  · rw [hc]
    cases u.data.publicKey <;> rfl

theorem inputsPass_badsig (e : Env) (st : Store) (hash : Nat) (inps : List Input) (acc : Nat)
    (hall : ∀ j ∈ inps, (tget st.utxos j.outputId).isSome = true)
    (hbad : ∃ i ∈ inps, ∃ u, tget st.utxos i.outputId = some u ∧
      ∃ pk, u.data.publicKey = some pk ∧ u.data.contract = none ∧
        (∀ sig, i.data.signature = some sig → e.verifySig pk (u.id, hash) sig = false)) :
    inputsPass e st hash inps acc = .error (false, true) := by
  induction inps generalizing acc with
  | nil =>
    obtain ⟨i, hi, _⟩ := hbad
    simp at hi
  | cons j inps ih =>
    have hj := hall j (List.mem_cons_self _ _)
    obtain ⟨u, hu⟩ := Option.isSome_iff_exists.mp hj
    obtain ⟨i, hi, ubad, hubad, pk, hpk, hct, hsig⟩ := hbad
    rcases List.mem_cons.mp hi with rfl | hitail
    · rw [hu] at hubad
      cases hubad
      rw [inputsPass_cons_sig e st hash i inps acc u pk hu hpk hct]
      cases hs : i.data.signature with
      | none => rfl
      | some sig =>
        show (if e.verifySig pk (u.id, hash) sig = true
            then inputsPass e st hash inps ((acc + u.value) % 2 ^ 64)
            else .error (false, true)) = .error (false, true)
        rw [hsig sig hs]
        simp
    · have htail : inputsPass e st hash inps ((acc + u.value) % 2 ^ 64) = .error (false, true) :=
        ih _ (fun q hq => hall q (List.mem_cons_of_mem _ hq))
          ⟨i, hitail, ubad, hubad, pk, hpk, hct, hsig⟩
      cases hupk : u.data.publicKey with
      | none =>
        rw [inputsPass_cons_skip e st hash j inps acc u hu (Or.inl hupk)]
        exact htail
      | some pk2 =>
        cases huct : u.data.contract with
        | some c =>
          rw [inputsPass_cons_skip e st hash j inps acc u hu (Or.inr ⟨c, huct⟩)]
          exact htail
        | none =>
          rw [inputsPass_cons_sig e st hash j inps acc u pk2 hu hupk huct]
          cases hs : j.data.signature with
          | none => rfl
          | some sig =>
            show (if e.verifySig pk2 (u.id, hash) sig = true
                then inputsPass e st hash inps ((acc + u.value) % 2 ^ 64)
                else .error (false, true)) = .error (false, true)
            by_cases hv : e.verifySig pk2 (u.id, hash) sig = true
            · rw [if_pos hv]
              exact htail
            · rw [if_neg hv]

/-- C5: when an input's referenced unspent output carries a `publicKey` and
no `contract`, a successful `verifyTransaction` guarantees the input data
holds a signature verifying the message (output id, output-set id of the
transaction's ordered output ids) under that key; and whenever such an
input's signature is missing or fails to verify that message (in
particular, after any output alteration changing the output-set id the old
signature no longer verifies), `verifyTransaction` returns
`(false, true)`. -/
theorem verifyTransaction_signature_binding (e : Env) (st : Store) (tx : Transaction)
    (cb : Bool) :
    ((verifyTransaction e st tx cb).1 = true →
      ∀ i ∈ tx.inputs, ∀ u, tget st.utxos i.outputId = some u →
        ∀ pk, u.data.publicKey = some pk → u.data.contract = none →
          ∃ sig, i.data.signature = some sig ∧
            e.verifySig pk (u.id, e.outputSetId (tx.outputs.map e.outId)) sig = true) ∧
    (∀ i ∈ tx.inputs, ∀ u, tget st.utxos i.outputId = some u →
      ∀ pk, u.data.publicKey = some pk → u.data.contract = none →
      (∀ sig, i.data.signature = some sig →
        e.verifySig pk (u.id, e.outputSetId (tx.outputs.map e.outId)) sig = false) →
      tget st.transactions (e.txId tx) = none →
      (∃ ot, outputsPass e st tx.outputs 0 = .ok ot) →
      (∀ j ∈ tx.inputs, (tget st.utxos j.outputId).isSome = true) →
      verifyTransaction e st tx cb = (false, true)) := by
  constructor
  · intro hok i hi u hu pk hpk hct
    obtain ⟨_, ot, it, hop, hip, _⟩ := verifyTransaction_ok_inv e st tx cb hok
    obtain ⟨_, h2⟩ := inputsPass_ok_spec e st _ tx.inputs 0 it hip
    obtain ⟨u2, hu2, hsig⟩ := h2 i hi
    rw [hu] at hu2
    cases hu2
    exact hsig pk hpk hct
  · intro i hi u hu pk hpk hct hbadsig hknown hop hall
    obtain ⟨ot, hopv⟩ := hop
    have hbad : inputsPass e st (e.outputSetId (tx.outputs.map e.outId)) tx.inputs 0
        = .error (false, true) :=
      inputsPass_badsig e st _ tx.inputs 0 hall
        ⟨i, hi, u, hu, pk, hpk, hct, hbadsig⟩
    unfold verifyTransaction verifyTransactionST
    rw [hknown]
    simp only [Option.isSome_none, Bool.false_eq_true, if_false, hopv, hbad]

/-- Witness for the signature-binding claim: with a signature-rejecting
verifier the spend of the key-guarded output is rejected `(false, true)`. -/
theorem verifyTransaction_signature_binding_witness :
    verifyTransaction { eBase with verifySig := fun _ _ _ => false } stC5 txC5 false
      = (false, true) :=
  (verifyTransaction_signature_binding { eBase with verifySig := fun _ _ _ => false }
      stC5 txC5 false).2
    { outputId := 7, data := ⟨none, none, some "s"⟩ } (by simp [txC5])
    { id := 7, value := 2100, nonce := 0, data := ⟨some "a", none, none⟩, creationTx := 0 }
    (by decide) "a" rfl rfl
    (fun sig h => by cases h; rfl)
    (by decide) ⟨50, rfl⟩ (by decide)

/-! ## C3: coinbase value bound -/

/-- C3 (amended): on the full-apply path of `submitBlock`, acceptance
implies that the wrapped coinbase output total is at most the wrapped sum
of the transaction fees plus the block reward (hence at most the true
fees-plus-reward whenever the coinbase total does not overflow 2^64), and a
block whose wrapped coinbase total exceeds that bound is rejected
`(false, true)` with the store and mempool returned untouched. -/
theorem submitBlock_coinbase_bound (e : Env) (st : Store) (mp : Mempool) (b : Block)
    (h : Nat) :
    ((applyBlockPath e st mp b h).map (·.1) = some (true, false) →
      ∀ fl, b.transactions.mapM (calculateTransactionFee e st) = some fl →
        (sum64 (b.coinbaseTx.outputs.map (·.value)) ≤ (sum64 fl + e.blockReward h) % 2 ^ 64 ∧
          ((b.coinbaseTx.outputs.map (·.value)).sum < 2 ^ 64 →
            (b.coinbaseTx.outputs.map (·.value)).sum ≤ sum64 fl + e.blockReward h))) ∧
    ((b.transactions.all fun t => (verifyTransaction e st t false).1) = true →
      ∀ fl, b.transactions.mapM (calculateTransactionFee e st) = some fl →
      (verifyTransaction e st b.coinbaseTx true).1 = true →
      (sum64 fl + e.blockReward h) % 2 ^ 64 < sum64 (b.coinbaseTx.outputs.map (·.value)) →
      applyBlockPath e st mp b h = some ((false, true), st, mp)) := by
  constructor
  · intro hacc fl hfl
    unfold applyBlockPath at hacc
    by_cases hall : (b.transactions.all fun t => (verifyTransaction e st t false).1) = true
    · rw [if_neg (by simp [hall])] at hacc
      simp only [hfl] at hacc
      by_cases hcb : (verifyTransaction e st b.coinbaseTx true).1 = true
      · rw [if_neg (by simp [hcb])] at hacc
        by_cases hbound : sum64 (b.coinbaseTx.outputs.map (·.value)) >
            (sum64 fl + e.blockReward h) % 2 ^ 64
        · rw [if_pos hbound] at hacc
          simp at hacc
        · refine ⟨by omega, ?_⟩
          intro hov
          have h1 : sum64 (b.coinbaseTx.outputs.map (·.value))
              = (b.coinbaseTx.outputs.map (·.value)).sum := by
            rw [sum64_def, foldl_wadd_eq _ 0 (by omega)]
            omega
          have h2 : (sum64 fl + e.blockReward h) % 2 ^ 64 ≤ sum64 fl + e.blockReward h :=
            Nat.mod_le _ _
          omega
      · rw [if_pos (by simp [hcb])] at hacc
        simp at hacc
    · rw [if_pos (by simp [hall])] at hacc
      simp at hacc
  · intro hall fl hfl hcb hbound
    unfold applyBlockPath
    rw [if_neg (by simp [hall])]
    simp only [hfl]
    rw [if_neg (by simp [hcb]), if_pos (by omega)]

/-- Counterexample to C3 as stated: the genesis block `bC3` is accepted on
the full-apply path although its true coinbase output sum, 2^64 + 5,
exceeds fees + blockReward = 10; the `uint64_t` total wraps to 5. -/
theorem submitBlock_coinbase_bound_cex :
    (submitBlockF eBase 1 emptyStore emptyMempool bC3 true).map (·.1) = some (true, false) ∧
    (bC3.coinbaseTx.outputs.map (·.value)).sum = 2 ^ 64 + 5 ∧
    ¬((bC3.coinbaseTx.outputs.map (·.value)).sum ≤ 0 + eBase.blockReward 1) := by
  exact ⟨by decide, by decide, by decide⟩

/-- Witness for the amended coinbase-bound claim at a concrete accepted
genesis block. -/
theorem submitBlock_coinbase_bound_witness :
    sum64 (bC3ok.coinbaseTx.outputs.map (·.value)) ≤
      (sum64 [] + eBase.blockReward 1) % 2 ^ 64 :=
  (((submitBlock_coinbase_bound eBase emptyStore emptyMempool bC3ok 1).1
    (by decide) [] rfl)).1

/-! ## C10: reorgChain on an empty candidate walk -/

/-- C10 evaluated at its failing input: the submitted block's parent is the
old main-chain block 1, present in `blocks` but not in `candidates`, the
tip is block 2 and consensus prefers the newcomer, so `submitBlock` invokes
`reorgChain(1)`; the backward walk through `candidates` pushes nothing and
the source reads `blockList.top()` of an empty `std::stack`, modelled here
as the stuck outcome `none`. -/
theorem reorg_empty_stack_bug :
    tget stC10.blocks bC10.previousBlockId = some dbB1 ∧
    tget stC10.candidates bC10.previousBlockId = none ∧
    stC10.tip = some dbB2 ∧ dbB1.id ≠ dbB2.id ∧
    eBase.consIsBlockBetter stC10 bC10 dbB2 = true ∧
    candidateWalk stC10 3 bC10.previousBlockId [] = some [] ∧
    reorgChainF eBase 2 stC10 emptyMempool bC10.previousBlockId = none ∧
    submitBlockF eBase 3 stC10 emptyMempool bC10 false = none := by
  exact ⟨by decide, by decide, by decide, by decide, by decide, by decide, by decide, by decide⟩

/-! ## Spend/create step characterizations -/

theorem spendInput_inv (e : Env) (st : Store) (inp : Input) (st1 : Store)
    (h : spendInput e st inp = some st1) :
    ∃ u, tget st.utxos inp.outputId = some u ∧
      st1.utxos = terase st.utxos inp.outputId ∧
      st1.stxos = tput st.stxos inp.outputId u ∧
      st1.inputs = tput st.inputs (e.inId inp)
        { id := e.inId inp, outputId := inp.outputId, data := inp.data } ∧
      st1.transactions = st.transactions ∧ st1.blocks = st.blocks ∧
      st1.heights = st.heights ∧ st1.tip = st.tip ∧ st1.candidates = st.candidates ∧
      ((u.data.publicKey = none →
        st1.utxoOwners = st.utxoOwners ∧ st1.stxoOwners = st.stxoOwners) ∧
       (∀ pk, u.data.publicKey = some pk →
        st1.utxoOwners = sput st.utxoOwners pk
          ((sget st.utxoOwners pk).filter (fun x => x != inp.outputId)) ∧
        st1.stxoOwners = sput st.stxoOwners pk (sget st.stxoOwners pk ++ [inp.outputId]))) := by
  unfold spendInput at h
  cases hu : tget st.utxos inp.outputId with
  | none => rw [hu] at h; cases h
  | some u =>
    rw [hu] at h
    cases hpk : u.data.publicKey with
    | none =>
      simp only [hpk] at h
      cases h
      refine ⟨u, rfl, ?_⟩
      simp [hpk]
    | some pk =>
      simp only [hpk] at h
      cases h
      refine ⟨u, rfl, ?_⟩
      simp [hpk]

theorem spend_fold_utxos (e : Env) (inps : List Input) (st st1 : Store)
    (h : inps.foldlM (spendInput e) st = some st1) (k : Nat) :
    tget st1.utxos k =
      if k ∈ inps.map (·.outputId) then none else tget st.utxos k := by
  induction inps generalizing st with
  | nil =>
    cases h
    simp
  | cons i inps ih =>
    rw [List.foldlM_cons] at h
    cases hs : spendInput e st i with
    | none => rw [hs] at h; cases h
    | some stA =>
      rw [hs] at h
      obtain ⟨u, hu, hux, _⟩ := spendInput_inv e st i stA hs
      have := ih stA h
      rw [this]
      by_cases hk : k ∈ inps.map (·.outputId)
      · simp [hk]
      · rw [if_neg hk, hux]
        by_cases hki : k = i.outputId
        · subst hki
          rw [tget_terase_self]
          rw [if_pos (by simp)]
        · rw [tget_terase_ne _ hki, if_neg]
          simp only [List.map_cons, List.mem_cons]
          rintro (hc | hc)
          · exact hki hc
          · exact hk hc

theorem spend_fold_pre_some (e : Env) (inps : List Input) (st st1 : Store)
    (h : inps.foldlM (spendInput e) st = some st1) :
    ∀ i ∈ inps, (tget st.utxos i.outputId).isSome = true := by
  induction inps generalizing st with
  | nil => simp
  | cons j inps ih =>
    rw [List.foldlM_cons] at h
    cases hs : spendInput e st j with
    | none => rw [hs] at h; cases h
    | some stA =>
      rw [hs] at h
      obtain ⟨u, hu, hux, _⟩ := spendInput_inv e st j stA hs
      intro i hi
      rcases List.mem_cons.mp hi with rfl | hi
      · simp [hu]
      · have := ih stA h i hi
        rw [hux] at this
        by_cases hk : i.outputId = j.outputId
        · simp [hk, hu]
        · rwa [tget_terase_ne _ hk] at this

theorem spend_fold_nodup (e : Env) (inps : List Input) (st st1 : Store)
    (h : inps.foldlM (spendInput e) st = some st1) :
    (inps.map (·.outputId)).Nodup := by
  induction inps generalizing st with
  | nil => simp
  | cons i inps ih =>
    rw [List.foldlM_cons] at h
    cases hs : spendInput e st i with
    | none => rw [hs] at h; cases h
    | some stA =>
      rw [hs] at h
      obtain ⟨u, hu, hux, _⟩ := spendInput_inv e st i stA hs
      rw [List.map_cons, List.nodup_cons]
      refine ⟨?_, ih stA h⟩
      intro hmem
      obtain ⟨j, hj, hje⟩ := List.mem_map.mp hmem
      have hjs := spend_fold_pre_some e inps stA st1 h j hj
      rw [hux, hje, tget_terase_self] at hjs
      cases hjs

theorem spend_fold_stxos (e : Env) (inps : List Input) (st st1 : Store)
    (h : inps.foldlM (spendInput e) st = some st1) (k : Nat) :
    tget st1.stxos k =
      if k ∈ inps.map (·.outputId) then tget st.utxos k else tget st.stxos k := by
  induction inps generalizing st with
  | nil =>
    cases h
    simp
  | cons i inps ih =>
    have hnd := spend_fold_nodup e (i :: inps) st st1 h
    rw [List.map_cons, List.nodup_cons] at hnd
    rw [List.foldlM_cons] at h
    cases hs : spendInput e st i with
    | none => rw [hs] at h; cases h
    | some stA =>
      rw [hs] at h
      obtain ⟨u, hu, hux, hsx, _⟩ := spendInput_inv e st i stA hs
      rw [ih stA h, hux, hsx]
      by_cases hk : k ∈ inps.map (·.outputId)
      · rw [if_pos hk, if_pos (by simp [hk])]
        have hne : k ≠ i.outputId := fun hc => hnd.1 (hc ▸ hk)
        rw [tget_terase_ne _ hne]
      · rw [if_neg hk]
        by_cases hki : k = i.outputId
        · subst hki
          rw [tget_tput_self, if_pos (by simp), hu]
        · rw [tget_tput_ne _ _ hki, if_neg]
          simp only [List.map_cons, List.mem_cons]
          rintro (hc | hc)
          · exact hki hc
          · exact hk hc

theorem spend_fold_frame (e : Env) (inps : List Input) (st st1 : Store)
    (h : inps.foldlM (spendInput e) st = some st1) :
    st1.transactions = st.transactions ∧ st1.blocks = st.blocks ∧
    st1.heights = st.heights ∧ st1.tip = st.tip ∧ st1.candidates = st.candidates := by
  induction inps generalizing st with
  | nil =>
    cases h
    exact ⟨rfl, rfl, rfl, rfl, rfl⟩
  | cons i inps ih =>
    rw [List.foldlM_cons] at h
    cases hs : spendInput e st i with
    | none => rw [hs] at h; cases h
    | some stA =>
      rw [hs] at h
      obtain ⟨u, hu, _, _, _, htx, hbl, hhe, hti, hca, _⟩ := spendInput_inv e st i stA hs
      obtain ⟨h1, h2, h3, h4, h5⟩ := ih stA h
      exact ⟨h1.trans htx, h2.trans hbl, h3.trans hhe, h4.trans hti, h5.trans hca⟩

theorem createOutput_inv (e : Env) (txid : Nat) (st : Store) (o : Output) :
    (createOutput e txid st o).utxos = tput st.utxos (e.outId o)
      { id := e.outId o, value := o.value, nonce := o.nonce, data := o.data
        creationTx := txid } ∧
    (createOutput e txid st o).stxos = st.stxos ∧
    (createOutput e txid st o).stxoOwners = st.stxoOwners ∧
    (createOutput e txid st o).inputs = st.inputs ∧
    (createOutput e txid st o).transactions = st.transactions ∧
    (createOutput e txid st o).blocks = st.blocks ∧
    (createOutput e txid st o).heights = st.heights ∧
    (createOutput e txid st o).tip = st.tip ∧
    (createOutput e txid st o).candidates = st.candidates ∧
    ((o.data.publicKey = none → (createOutput e txid st o).utxoOwners = st.utxoOwners) ∧
     (∀ pk, o.data.publicKey = some pk →
      (createOutput e txid st o).utxoOwners =
        sput st.utxoOwners pk (sget st.utxoOwners pk ++ [e.outId o]))) := by
  cases hpk : o.data.publicKey with
  | none =>
    simp [createOutput, hpk]
  | some pk =>
    simp [createOutput, hpk]

theorem create_fold_utxos_ne (e : Env) (txid : Nat) (outs : List Output) (st : Store)
    (k : Nat) (hk : k ∉ outs.map e.outId) :
    tget (outs.foldl (createOutput e txid) st).utxos k = tget st.utxos k := by
  induction outs generalizing st with
  | nil => rfl
  | cons o outs ih =>
    rw [List.foldl_cons]
    have hk2 : k ∉ outs.map e.outId := fun hc => hk (by simp [hc])
    rw [ih _ hk2, (createOutput_inv e txid st o).1]
    rw [tget_tput_ne _ _ (fun hc => hk (by simp [hc]))]

theorem create_fold_utxos_mem (e : Env) (txid : Nat) (outs : List Output) (st : Store)
    (hnd : (outs.map e.outId).Nodup) :
    ∀ o ∈ outs, tget (outs.foldl (createOutput e txid) st).utxos (e.outId o) =
      some { id := e.outId o, value := o.value, nonce := o.nonce, data := o.data
             creationTx := txid } := by
  induction outs generalizing st with
  | nil => simp
  | cons o2 outs ih =>
    rw [List.map_cons, List.nodup_cons] at hnd
    intro o ho
    rw [List.foldl_cons]
    rcases List.mem_cons.mp ho with rfl | ho
    · rw [create_fold_utxos_ne e txid outs _ _ hnd.1, (createOutput_inv e txid st o).1,
        tget_tput_self]
    · exact ih _ hnd.2 o ho

theorem create_fold_frame (e : Env) (txid : Nat) (outs : List Output) (st : Store) :
    (outs.foldl (createOutput e txid) st).stxos = st.stxos ∧
    (outs.foldl (createOutput e txid) st).stxoOwners = st.stxoOwners ∧
    (outs.foldl (createOutput e txid) st).inputs = st.inputs ∧
    (outs.foldl (createOutput e txid) st).transactions = st.transactions ∧
    (outs.foldl (createOutput e txid) st).blocks = st.blocks ∧
    (outs.foldl (createOutput e txid) st).heights = st.heights ∧
    (outs.foldl (createOutput e txid) st).tip = st.tip ∧
    (outs.foldl (createOutput e txid) st).candidates = st.candidates := by
  induction outs generalizing st with
  | nil => exact ⟨rfl, rfl, rfl, rfl, rfl, rfl, rfl, rfl⟩
  | cons o outs ih =>
    rw [List.foldl_cons]
    obtain ⟨_, h2, h3, h4, h5, h6, h7, h8, h9, _⟩ := createOutput_inv e txid st o
    obtain ⟨g1, g2, g3, g4, g5, g6, g7, g8⟩ := ih (createOutput e txid st o)
    exact ⟨g1.trans h2, g2.trans h3, g3.trans h4, g4.trans h5, g5.trans h6,
      g6.trans h7, g7.trans h8, g8.trans h9⟩

theorem confirmTransaction_inv (e : Env) (st : Store) (mp : Mempool) (tx : Transaction)
    (blk : Nat) (cb : Bool) (st2 : Store) (mp2 : Mempool)
    (h : confirmTransaction e st mp tx blk cb = some (st2, mp2)) :
    ∃ st1, tx.inputs.foldlM (spendInput e) st = some st1 ∧
      st2.utxos = (tx.outputs.foldl (createOutput e (e.txId tx)) st1).utxos ∧
      st2.utxoOwners = (tx.outputs.foldl (createOutput e (e.txId tx)) st1).utxoOwners ∧
      st2.stxos = st1.stxos ∧ st2.stxoOwners = st1.stxoOwners ∧
      st2.inputs = st1.inputs ∧
      st2.transactions = tput st1.transactions (e.txId tx)
        { id := e.txId tx, inputIds := tx.inputs.map e.inId
          outputIds := tx.outputs.map e.outId, timestamp := tx.timestamp
          coinbase := cb, confirmingBlock := blk } ∧
      st2.blocks = st1.blocks ∧ st2.heights = st1.heights ∧ st2.tip = st1.tip ∧
      st2.candidates = st1.candidates ∧
      mp2 = Mempool.remove e mp tx := by
  unfold confirmTransaction at h
  cases hf : tx.inputs.foldlM (spendInput e) st with
  | none => rw [hf] at h; cases h
  | some st1 =>
    rw [hf] at h
    cases h
    obtain ⟨c1, c2, c3, c4, c5, c6, c7, c8⟩ := create_fold_frame e (e.txId tx) tx.outputs st1
    exact ⟨st1, rfl, rfl, rfl, c1, c2, c3, by rw [c4], c5, c6, c7, c8, rfl⟩

/-! ## Reverse step characterizations -/

theorem tget_terase_some {α : Type} {t : List (Nat × α)} {k0 k : Nat} {v : α}
    (h : tget (terase t k0) k = some v) : tget t k = some v := by
  by_cases hk : k = k0
  · subst hk
    rw [tget_terase_self] at h
    cases h
  · rwa [tget_terase_ne _ hk] at h

theorem eraseUtxoU_inv (st : Store) (oid : Nat) (d : Doc) :
    (eraseUtxoU st oid d).utxos = terase st.utxos oid ∧
    (eraseUtxoU st oid d).stxos = st.stxos ∧
    (eraseUtxoU st oid d).stxoOwners = st.stxoOwners ∧
    (eraseUtxoU st oid d).inputs = st.inputs ∧
    (eraseUtxoU st oid d).transactions = st.transactions ∧
    (eraseUtxoU st oid d).blocks = st.blocks ∧
    (eraseUtxoU st oid d).heights = st.heights ∧
    (eraseUtxoU st oid d).tip = st.tip ∧
    (eraseUtxoU st oid d).candidates = st.candidates ∧
    ((d.publicKey = none → (eraseUtxoU st oid d).utxoOwners = st.utxoOwners) ∧
     (∀ pk, d.publicKey = some pk → (eraseUtxoU st oid d).utxoOwners =
        sput st.utxoOwners pk ((sget st.utxoOwners pk).filter (fun x => x != oid)))) := by
  cases hpk : d.publicKey <;> simp [eraseUtxoU, hpk]

theorem eraseUtxoS_inv (st : Store) (oid : Nat) (d : Doc) :
    (eraseUtxoS st oid d).stxos = terase st.stxos oid ∧
    (eraseUtxoS st oid d).utxos = st.utxos ∧
    (eraseUtxoS st oid d).utxoOwners = st.utxoOwners ∧
    (eraseUtxoS st oid d).inputs = st.inputs ∧
    (eraseUtxoS st oid d).transactions = st.transactions ∧
    (eraseUtxoS st oid d).blocks = st.blocks ∧
    (eraseUtxoS st oid d).heights = st.heights ∧
    (eraseUtxoS st oid d).tip = st.tip ∧
    (eraseUtxoS st oid d).candidates = st.candidates ∧
    ((d.publicKey = none → (eraseUtxoS st oid d).stxoOwners = st.stxoOwners) ∧
     (∀ pk, d.publicKey = some pk → (eraseUtxoS st oid d).stxoOwners =
        sput st.stxoOwners pk ((sget st.stxoOwners pk).filter (fun x => x != oid)))) := by
  cases hpk : d.publicKey <;> simp [eraseUtxoS, hpk]

theorem unspendInput_inv (e : Env) (st : Store) (inp : Input) (st3 : Store)
    (h : unspendInput e st inp = some st3) :
    ∃ old, tget st.stxos inp.outputId = some old ∧
      st3.utxos = tput st.utxos inp.outputId old ∧
      st3.stxos = terase st.stxos old.id ∧
      st3.inputs = terase st.inputs (e.inId inp) ∧
      st3.transactions = st.transactions ∧ st3.blocks = st.blocks ∧
      st3.heights = st.heights ∧ st3.tip = st.tip ∧ st3.candidates = st.candidates ∧
      ((old.data.publicKey = none →
        st3.utxoOwners = st.utxoOwners ∧ st3.stxoOwners = st.stxoOwners) ∧
       (∀ pk, old.data.publicKey = some pk →
        st3.utxoOwners = sput st.utxoOwners pk (sget st.utxoOwners pk ++ [inp.outputId]) ∧
        st3.stxoOwners = sput st.stxoOwners pk
          ((sget st.stxoOwners pk).filter (fun x => x != old.id)))) := by
  unfold unspendInput at h
  cases hold : tget st.stxos inp.outputId with
  | none =>
    simp only [show tget ({ st with inputs := terase st.inputs (e.inId inp) } : Store).stxos
        inp.outputId = tget st.stxos inp.outputId from rfl] at h
    rw [hold] at h
    cases h
  | some old =>
    simp only [show tget ({ st with inputs := terase st.inputs (e.inId inp) } : Store).stxos
        inp.outputId = tget st.stxos inp.outputId from rfl] at h
    rw [hold] at h
    refine ⟨old, rfl, ?_⟩
    cases hpk : old.data.publicKey with
    | none =>
      simp only [hpk, eraseUtxoS] at h
      cases h
      simp [hpk]
    | some pk =>
      simp only [hpk, eraseUtxoS] at h
      cases h
      simp [hpk]

theorem foldl_preserve {α : Type} {P : Store → Prop} (f : Store → α → Store) (l : List α)
    (st : Store) (hstep : ∀ s x, x ∈ l → P s → P (f s x)) (h0 : P st) :
    P (l.foldl f st) := by
  induction l generalizing st with
  | nil => exact h0
  | cons x l ih =>
    rw [List.foldl_cons]
    exact ih _ (fun s y hy => hstep s y (List.mem_cons_of_mem _ hy))
      (hstep st x (List.mem_cons_self _ _) h0)

theorem foldlM_preserve {α : Type} {P : Store → Prop} (f : Store → α → Option Store)
    (l : List α) (st st' : Store) (h : l.foldlM f st = some st')
    (hstep : ∀ s x s2, x ∈ l → f s x = some s2 → P s → P s2) (h0 : P st) : P st' := by
  induction l generalizing st with
  | nil =>
    cases h
    exact h0
  | cons x l ih =>
    rw [List.foldlM_cons] at h
    cases hs : f st x with
    | none => rw [hs] at h; cases h
    | some stA =>
      rw [hs] at h
      exact ih stA h (fun s y s2 hy => hstep s y s2 (List.mem_cons_of_mem _ hy))
        (hstep st x stA (List.mem_cons_self _ _) hs h0)

/-! ## C1: the UTXO/STXO partition -/

theorem pk_eraseUtxoU (st : Store) (oid : Nat) (d : Doc)
    (hp : UtxoPartition st ∧ StxKeyed st) :
    UtxoPartition (eraseUtxoU st oid d) ∧ StxKeyed (eraseUtxoU st oid d) := by
  obtain ⟨hux, hsx, _⟩ := eraseUtxoU_inv st oid d
  constructor
  · intro k hk
    rw [hsx]
    rw [hux] at hk
    obtain ⟨v, hv⟩ := Option.isSome_iff_exists.mp hk
    exact hp.1 k (by simp [tget_terase_some hv])
  · intro k u hu
    rw [hsx] at hu
    exact hp.2 k u hu

theorem pk_unspendInput (e : Env) (s : Store) (inp : Input) (s2 : Store)
    (h : unspendInput e s inp = some s2)
    (hp : UtxoPartition s ∧ StxKeyed s) :
    UtxoPartition s2 ∧ StxKeyed s2 := by
  obtain ⟨old, hold, hux, hsx, _⟩ := unspendInput_inv e s inp s2 h
  have hkey : old.id = inp.outputId := hp.2 _ _ hold
  rw [hkey] at hsx
  constructor
  · intro k hk
    rw [hsx]
    by_cases hki : k = inp.outputId
    · subst hki
      exact tget_terase_self _ _
    · rw [tget_terase_ne _ hki]
      rw [hux, tget_tput_ne _ _ hki] at hk
      exact hp.1 k hk
  · intro k u hu
    rw [hsx] at hu
    exact hp.2 k u (tget_terase_some hu)

theorem pk_reverseTx (e : Env) (s : Store) (tx : Transaction) (s2 : Store)
    (h : reverseTx e s tx = some s2)
    (hp : UtxoPartition s ∧ StxKeyed s) :
    UtxoPartition s2 ∧ StxKeyed s2 := by
  simp only [reverseTx] at h
  cases hf : tx.inputs.foldlM (unspendInput e)
      (tx.outputs.foldl (fun s o => eraseUtxoU s (e.outId o) o.data) s) with
  | none => rw [hf] at h; cases h
  | some sf =>
    rw [hf] at h
    cases h
    have h1 : UtxoPartition (tx.outputs.foldl (fun s o => eraseUtxoU s (e.outId o) o.data) s) ∧
        StxKeyed (tx.outputs.foldl (fun s o => eraseUtxoU s (e.outId o) o.data) s) :=
      foldl_preserve _ tx.outputs s (fun s3 o _ hp3 => pk_eraseUtxoU s3 (e.outId o) o.data hp3) hp
    have h2 := foldlM_preserve (unspendInput e) tx.inputs _ sf hf
      (fun s3 i s4 _ hs hp3 => pk_unspendInput e s3 i s4 hs hp3) h1
    exact ⟨fun k hk => h2.1 k hk, fun k u hu => h2.2 k u hu⟩


theorem reverseBlock_inv (e : Env) (st : Store) (mp : Mempool) (st2 : Store) (mp2 : Mempool)
    (h : reverseBlock e st mp = some (st2, mp2)) :
    ∃ tipDb tip st3 tipDb2 prevDb,
      st.tip = some tipDb ∧
      buildBlock st tipDb = some tip ∧
      reverseBlockCore e st tip = some st3 ∧
      st3.tip = some tipDb2 ∧
      getBlockDB e (rbMid e tip st3 tipDb2) tip.previousBlockId = some prevDb ∧
      st2 = rbFinal e tip st3 tipDb2 prevDb ∧
      mp2 = tip.transactions.foldl (fun m t => (submitTransaction e st2 m t).2)
        (rescanMempool e st2 mp) := by
  simp only [reverseBlock] at h
  cases htip : st.tip with
  | none => simp only [htip] at h; exact Option.noConfusion h
  | some tipDb =>
    simp only [htip] at h
    cases hbb : buildBlock st tipDb with
    | none => simp only [hbb] at h; exact Option.noConfusion h
    | some tip =>
      simp only [hbb] at h
      cases hcore : reverseBlockCore e st tip with
      | none => simp only [hcore] at h; exact Option.noConfusion h
      | some st3 =>
        simp only [hcore] at h
        cases htip3 : st3.tip with
        | none => simp only [htip3] at h; exact Option.noConfusion h
        | some tipDb2 =>
          simp only [htip3] at h
          cases hprev : getBlockDB e (rbMid e tip st3 tipDb2) tip.previousBlockId with
          | none => simp only [hprev] at h; exact Option.noConfusion h
          | some prevDb =>
            simp only [hprev, Option.some.injEq, Prod.mk.injEq] at h
            obtain ⟨h1, h2⟩ := h
            subst h1
            subst h2
            exact ⟨tipDb, tip, st3, tipDb2, prevDb, rfl, hbb, hcore, htip3, hprev, rfl, rfl⟩

theorem reverseBlockCore_preserve {P : Store → Prop} (e : Env) (tip : Block)
    (st st3 : Store) (h : reverseBlockCore e st tip = some st3)
    (h1 : ∀ s oid d, P s → P (eraseUtxoU s oid d))
    (h2 : ∀ s l, P s → P { s with transactions := l })
    (h3 : ∀ s tx s4, reverseTx e s tx = some s4 → P s → P s4)
    (h0 : P st) : P st3 := by
  simp only [reverseBlockCore, rbCoinErase, reverseTxList] at h
  refine foldlM_preserve (reverseTx e) tip.transactions _ st3 h
    (fun s tx s4 _ hs hp => h3 s tx s4 hs hp) ?_
  exact h2 _ _ (foldl_preserve _ tip.coinbaseTx.outputs st
    (fun s o _ hp => h1 s (e.outId o) o.data hp) h0)

theorem partition_reverseBlock (e : Env) (st : Store) (mp : Mempool)
    (st2 : Store) (mp2 : Mempool) (h : reverseBlock e st mp = some (st2, mp2))
    (hp : UtxoPartition st) (hk : StxKeyed st) : UtxoPartition st2 := by
  obtain ⟨tipDb, tip, st3, tipDb2, prevDb, _, _, hcore, _, _, hst2, _⟩ :=
    reverseBlock_inv e st mp st2 mp2 h
  have h3 : UtxoPartition st3 ∧ StxKeyed st3 :=
    reverseBlockCore_preserve e tip st st3 hcore
      (fun s oid d hp2 => pk_eraseUtxoU s oid d hp2)
      (fun s l hp2 => ⟨fun k hk2 => hp2.1 k hk2, fun k u hu => hp2.2 k u hu⟩)
      (fun s tx s4 hs hp2 => pk_reverseTx e s tx s4 hs hp2)
      ⟨hp, hk⟩
  subst hst2
  exact fun k hk2 => h3.1 k hk2

/-- C1: for every output id at most one of `utxos[id]` and `stxos[id]` is
live, and the mutating operations preserve the partition:
`confirmTransaction` moves each spent output's record from `utxos` to
`stxos` (erasing it from `utxos`) and — provided the produced outputs are
fresh, as `verifyTransaction` checks — never leaves an id in both tables;
`reverseBlock` moves records back and also preserves the partition. -/
theorem utxo_stxo_partition (e : Env) :
    (∀ st mp tx blk cb st2 mp2,
      confirmTransaction e st mp tx blk cb = some (st2, mp2) →
      UtxoPartition st →
      (∀ o ∈ tx.outputs, tget st.utxos (e.outId o) = none ∧
        tget st.stxos (e.outId o) = none) →
      ((∀ i ∈ tx.inputs, tget st2.utxos i.outputId = none ∧
          tget st2.stxos i.outputId = tget st.utxos i.outputId) ∧
        UtxoPartition st2)) ∧
    (∀ st mp st2 mp2, reverseBlock e st mp = some (st2, mp2) →
      UtxoPartition st → StxKeyed st → UtxoPartition st2) := by
  constructor
  · intro st mp tx blk cb st2 mp2 hconf hp hfresh
    obtain ⟨st1, hfold, hux2, huo2, hsx2, hso2, hin2, htx2, hbl2, hhe2, hti2, hca2, hmp⟩ :=
      confirmTransaction_inv e st mp tx blk cb st2 mp2 hconf
    have hspent_pre := spend_fold_pre_some e tx.inputs st st1 hfold
    have hdisj : ∀ o ∈ tx.outputs, (e.outId o) ∉ tx.inputs.map (·.outputId) := by
      intro o ho hmem
      obtain ⟨i, hi, hie⟩ := List.mem_map.mp hmem
      have hsome := hspent_pre i hi
      rw [hie, (hfresh o ho).1] at hsome
      cases hsome
    constructor
    · intro i hi
      constructor
      · rw [hux2, create_fold_utxos_ne e (e.txId tx) tx.outputs st1 _ ?_]
        · rw [spend_fold_utxos e tx.inputs st st1 hfold]
          rw [if_pos (List.mem_map_of_mem _ hi)]
        · intro hmem
          obtain ⟨o, ho, hoe⟩ := List.mem_map.mp hmem
          exact hdisj o ho (hoe ▸ List.mem_map_of_mem _ hi)
      · rw [hsx2, spend_fold_stxos e tx.inputs st st1 hfold,
          if_pos (List.mem_map_of_mem _ hi)]
    · intro k hk
      rw [hsx2, spend_fold_stxos e tx.inputs st st1 hfold]
      rw [hux2] at hk
      by_cases hkc : k ∈ tx.outputs.map e.outId
      · obtain ⟨o, ho, hoe⟩ := List.mem_map.mp hkc
        have hknotspent : k ∉ tx.inputs.map (·.outputId) := hoe ▸ hdisj o ho
        rw [if_neg hknotspent]
        exact hoe ▸ (hfresh o ho).2
      · rw [create_fold_utxos_ne _ _ _ _ _ hkc] at hk
        rw [spend_fold_utxos e tx.inputs st st1 hfold] at hk
        by_cases hks : k ∈ tx.inputs.map (·.outputId)
        · rw [if_pos hks] at hk
          cases hk
        · rw [if_neg hks] at hk
          rw [if_neg hks]
          exact hp k hk
  · intro st mp st2 mp2 h hp hk
    exact partition_reverseBlock e st mp st2 mp2 h hp hk

/-- Witness for the partition claim: confirming the concrete spend `txV`
moves the record of output 7 from `utxos` to `stxos`. -/
theorem utxo_stxo_partition_witness :
    (confirmTransaction eBase stC2 emptyMempool txV 99 false).map
      (fun sm => (tget sm.1.utxos 7, tget sm.1.stxos 7))
      = some (none, tget stC2.utxos 7) := by
  cases hconf : confirmTransaction eBase stC2 emptyMempool txV 99 false with
  | none => exact absurd hconf (by decide)
  | some sm =>
    have hmain := (utxo_stxo_partition eBase).1 stC2 emptyMempool txV 99 false sm.1 sm.2
      (by rw [hconf]) (fun k hk => rfl) (by decide)
    have h7 := hmain.1 { outputId := 7, data := ⟨none, none, none⟩ } (by simp [txV])
    show some (tget sm.1.utxos 7, tget sm.1.stxos 7) = some (none, tget stC2.utxos 7)
    rw [show tget sm.1.utxos 7 = none from h7.1,
      show tget sm.1.stxos 7 = tget stC2.utxos 7 from h7.2]

/-! ## List and table helpers for the round-trip development -/

theorem tget_append {α : Type} (t1 t2 : List (Nat × α)) (k : Nat) :
    tget (t1 ++ t2) k =
      match tget t1 k with
      | some v => some v
      | none => tget t2 k := by
  induction t1 with
  | nil => rfl
  | cons p t ih =>
    obtain ⟨a, v⟩ := p
    by_cases h : a = k
    · simp [tget, h]
    · simp [tget, h, ih]

theorem tget_eq_none_of_not_mem {α : Type} (t : List (Nat × α)) (k : Nat)
    (h : k ∉ t.map Prod.fst) : tget t k = none := by
  induction t with
  | nil => rfl
  | cons p t ih =>
    obtain ⟨a, v⟩ := p
    simp only [List.map_cons, List.mem_cons] at h
    push_neg at h
    rw [show tget ((a, v) :: t) k = if a = k then some v else tget t k from rfl,
      if_neg (fun hc => h.1 hc.symm), ih h.2]

theorem filterOut_nil (l : List Nat) : filterOut l [] = l := rfl

theorem filterOut_cons (l : List Nat) (s : Nat) (S : List Nat) :
    filterOut l (s :: S) = filterOut (l.filter (fun x => x != s)) S := rfl

theorem filterOut_append_right (l S1 S2 : List Nat) :
    filterOut l (S1 ++ S2) = filterOut (filterOut l S1) S2 := by
  simp [filterOut, List.foldl_append]

theorem filterOut_append_left (l1 l2 S : List Nat) :
    filterOut (l1 ++ l2) S = filterOut l1 S ++ filterOut l2 S := by
  induction S generalizing l1 l2 with
  | nil => rfl
  | cons s S ih => simp [filterOut_cons, List.filter_append, ih]

theorem filterOut_of_disjoint (l S : List Nat) (h : ∀ s ∈ S, s ∉ l) :
    filterOut l S = l := by
  induction S with
  | nil => rfl
  | cons s S ih =>
    rw [filterOut_cons, List.filter_eq_self.mpr, ih]
    · intro s2 hs2
      exact h s2 (List.mem_cons_of_mem _ hs2)
    · intro x hx
      simp only [bne_iff_ne, ne_eq]
      intro hc
      exact h s (List.mem_cons_self _ _) (hc ▸ hx)

theorem filterOut_eq_nil (l S : List Nat) (h : ∀ x ∈ l, x ∈ S) :
    filterOut l S = [] := by
  induction S generalizing l with
  | nil =>
    cases l with
    | nil => rfl
    | cons x l => exact absurd (h x (List.mem_cons_self _ _)) (List.not_mem_nil x)
  | cons s S ih =>
    rw [filterOut_cons]
    refine ih _ ?_
    intro x hx
    rw [List.mem_filter] at hx
    rcases List.mem_cons.mp (h x hx.1) with rfl | hm
    · simp at hx
    · exact hm

theorem mem_of_mem_filterOut {l S : List Nat} {x : Nat}
    (h : x ∈ filterOut l S) : x ∈ l := by
  induction S generalizing l with
  | nil => exact h
  | cons s S ih =>
    rw [filterOut_cons] at h
    exact (List.mem_filter.mp (ih h)).1

theorem perm_cons_filter_of_mem (l : List Nat) (s : Nat) (hl : l.Nodup) (hs : s ∈ l) :
    l.Perm (s :: l.filter (fun x => x != s)) := by
  induction l with
  | nil => cases hs
  | cons a l ih =>
    rw [List.nodup_cons] at hl
    by_cases hsa : s = a
    · subst hsa
      have hself : List.filter (fun x => x != s) l = l := by
        refine List.filter_eq_self.mpr ?_
        intro x hx
        simp only [bne_iff_ne, ne_eq]
        exact fun hc => hl.1 (hc ▸ hx)
      rw [List.filter_cons_of_neg (by simp), hself]
    · have hm : s ∈ l := by
        rcases List.mem_cons.mp hs with h1 | h1
        · exact absurd h1 hsa
        · exact h1
      have hne : (a != s) = true := by
        simp only [bne_iff_ne, ne_eq]
        exact fun hc => hsa hc.symm
      have hfc : List.filter (fun x => x != s) (a :: l) =
          a :: List.filter (fun x => x != s) l := by
        simp [List.filter_cons, hne]
      rw [hfc]
      exact ((ih hl.2 hm).cons a).trans (List.Perm.swap s a _)

theorem filterOut_append_perm (S l : List Nat) (hl : l.Nodup) (hS : S.Nodup)
    (hsub : ∀ s ∈ S, s ∈ l) : (filterOut l S ++ S).Perm l := by
  induction S generalizing l with
  | nil =>
    rw [filterOut_nil, List.append_nil]
  | cons s S ih =>
    rw [List.nodup_cons] at hS
    have hsmem : s ∈ l := hsub s (List.mem_cons_self _ _)
    have hperm := perm_cons_filter_of_mem l s hl hsmem
    have hfl : (l.filter (fun x => x != s)).Nodup := hl.filter _
    have hsub2 : ∀ x ∈ S, x ∈ l.filter (fun x => x != s) := by
      intro x hx
      rw [List.mem_filter]
      refine ⟨hsub x (List.mem_cons_of_mem _ hx), ?_⟩
      simp only [bne_iff_ne, ne_eq]
      intro hc
      exact hS.1 (hc ▸ hx)
    rw [filterOut_cons]
    exact List.perm_middle.trans (((ih _ hfl hS.2 hsub2).cons s).trans hperm.symm)

theorem mapM_map_eq_some {α β γ : Type} (f : β → Option γ) (g : α → β) (r : α → γ)
    (l : List α) (h : ∀ a ∈ l, f (g a) = some (r a)) :
    (l.map g).mapM f = some (l.map r) := by
  induction l with
  | nil => rfl
  | cons a l ih =>
    rw [List.map_cons, List.mapM_cons, h a (List.mem_cons_self _ _),
      ih (fun a2 ha2 => h a2 (List.mem_cons_of_mem _ ha2))]
    rfl

theorem pinps_cons (p : Transaction × Bool) (L : List (Transaction × Bool)) :
    pinps (p :: L) = p.1.inputs ++ pinps L := by
  simp [pinps]

theorem poutsL_cons (p : Transaction × Bool) (L : List (Transaction × Bool)) :
    poutsL (p :: L) = p.1.outputs.map (fun o => (p.1, o)) ++ poutsL L := by
  simp [poutsL]

theorem ctabL_cons (e : Env) (p : Transaction × Bool) (L : List (Transaction × Bool)) :
    ctabL e (p :: L) =
      p.1.outputs.map (fun o => (e.outId o, dbOutputOf e (e.txId p.1) o)) ++ ctabL e L := by
  simp [ctabL, poutsL_cons, List.map_map]

theorem itabL_append (e : Env) (l1 l2 : List Input) :
    itabL e (l1 ++ l2) = itabL e l1 ++ itabL e l2 := by
  simp [itabL]

theorem ttabL_cons (e : Env) (blk : Nat) (p : Transaction × Bool)
    (L : List (Transaction × Bool)) :
    ttabL e blk (p :: L) = (e.txId p.1, dbTxOf e blk p.2 p.1) :: ttabL e blk L := rfl

theorem spentFor_append (st : Store) (pk : String) (l1 l2 : List Input) :
    spentFor st pk (l1 ++ l2) = spentFor st pk l1 ++ spentFor st pk l2 := by
  simp [spentFor, List.filter_append]

theorem createdFor_append (e : Env) (pk : String) (l1 l2 : List Output) :
    createdFor e pk (l1 ++ l2) = createdFor e pk l1 ++ createdFor e pk l2 := by
  simp [createdFor, List.filter_append]

theorem spentForRev_append (st : Store) (pk : String) (l1 l2 : List Input) :
    spentForRev st pk (l1 ++ l2) = spentForRev st pk l1 ++ spentForRev st pk l2 := by
  simp [spentForRev, List.filter_append]

theorem spentFor_sub (st : Store) (pk : String) (inps : List Input) :
    ∀ x ∈ spentFor st pk inps, x ∈ inps.map (fun i => i.outputId) := by
  intro x hx
  obtain ⟨i, hi, hie⟩ := List.mem_map.mp hx
  exact hie ▸ List.mem_map_of_mem _ (List.mem_of_mem_filter hi)

theorem createdFor_sub (e : Env) (pk : String) (outs : List Output) :
    ∀ x ∈ createdFor e pk outs, x ∈ outs.map e.outId := by
  intro x hx
  obtain ⟨o, ho, hoe⟩ := List.mem_map.mp hx
  exact hoe ▸ List.mem_map_of_mem _ (List.mem_of_mem_filter ho)

theorem spentForRev_sub (st : Store) (pk : String) (inps : List Input) :
    ∀ x ∈ spentForRev st pk inps, x ∈ inps.map (fun i => i.outputId) := by
  intro x hx
  obtain ⟨i, hi, hie⟩ := List.mem_map.mp hx
  exact hie ▸ List.mem_map_of_mem _ (List.mem_of_mem_filter hi)

/-! ## Spend/create fold characterizations for the round trip -/

theorem itabL_keys (e : Env) (inps : List Input) :
    (itabL e inps).map Prod.fst = inps.map e.inId := by
  simp [itabL, List.map_map]

theorem spentFor_cons_pos (st : Store) (pk : String) (i : Input) (inps : List Input)
    (hc : (((tget st.utxos i.outputId).map (fun u => u.data.publicKey)).getD none ==
      some pk) = true) :
    spentFor st pk (i :: inps) = i.outputId :: spentFor st pk inps := by
  simp [spentFor, List.filter_cons, hc]

theorem spentFor_cons_neg (st : Store) (pk : String) (i : Input) (inps : List Input)
    (hc : (((tget st.utxos i.outputId).map (fun u => u.data.publicKey)).getD none ==
      some pk) = false) :
    spentFor st pk (i :: inps) = spentFor st pk inps := by
  simp [spentFor, List.filter_cons, hc]

theorem spentFor_congr (s1 s2 : Store) (pk : String) (inps : List Input)
    (h : ∀ i ∈ inps, tget s1.utxos i.outputId = tget s2.utxos i.outputId) :
    spentFor s1 pk inps = spentFor s2 pk inps := by
  unfold spentFor
  congr 1
  refine List.filter_congr ?_
  intro i hi
  rw [h i hi]

theorem spend_fold_inputs (e : Env) (inps : List Input) (st st1 : Store)
    (h : inps.foldlM (spendInput e) st = some st1)
    (hnd : (inps.map e.inId).Nodup) (k : Nat) :
    tget st1.inputs k =
      match tget (itabL e inps) k with
      | some r => some r
      | none => tget st.inputs k := by
  induction inps generalizing st with
  | nil =>
    cases h
    rfl
  | cons i inps ih =>
    rw [List.map_cons, List.nodup_cons] at hnd
    rw [List.foldlM_cons] at h
    cases hs : spendInput e st i with
    | none => rw [hs] at h; cases h
    | some stA =>
      rw [hs] at h
      obtain ⟨u, hu, hux, hsx, hin, _⟩ := spendInput_inv e st i stA hs
      rw [ih stA h hnd.2]
      by_cases hk : k = e.inId i
      · subst hk
        rw [tget_eq_none_of_not_mem (itabL e inps) _ (by rw [itabL_keys]; exact hnd.1)]
        have hself : tget (itabL e (i :: inps)) (e.inId i) = some (dbInputOf e i) := by
          show (if e.inId i = e.inId i then some (dbInputOf e i)
            else tget (itabL e inps) (e.inId i)) = some (dbInputOf e i)
          rw [if_pos rfl]
        rw [hself, hin, tget_tput_self]
        rfl
      · have hstep : tget (itabL e (i :: inps)) k = tget (itabL e inps) k := by
          show (if e.inId i = k then some (dbInputOf e i) else tget (itabL e inps) k) =
            tget (itabL e inps) k
          rw [if_neg (fun hc => hk hc.symm)]
        rw [hstep]
        cases hres : tget (itabL e inps) k with
        | some r => rfl
        | none =>
          show tget stA.inputs k = tget st.inputs k
          rw [hin, tget_tput_ne _ _ hk]

theorem spend_fold_owners (e : Env) (inps : List Input) (st st1 : Store)
    (h : inps.foldlM (spendInput e) st = some st1)
    (hnd : (inps.map (fun i => i.outputId)).Nodup) (pk : String) :
    sget st1.utxoOwners pk = filterOut (sget st.utxoOwners pk) (spentFor st pk inps) ∧
    sget st1.stxoOwners pk = sget st.stxoOwners pk ++ spentFor st pk inps := by
  induction inps generalizing st with
  | nil =>
    cases h
    exact ⟨rfl, by simp [spentFor]⟩
  | cons i inps ih =>
    rw [List.map_cons, List.nodup_cons] at hnd
    rw [List.foldlM_cons] at h
    cases hs : spendInput e st i with
    | none => rw [hs] at h; cases h
    | some stA =>
      rw [hs] at h
      obtain ⟨u, hu, hux, hsx, hin, htx, hbl, hhe, hti, hca, hnone, hsome⟩ :=
        spendInput_inv e st i stA hs
      have hcongr : spentFor stA pk inps = spentFor st pk inps := by
        refine spentFor_congr stA st pk inps ?_
        intro j hj
        rw [hux, tget_terase_ne]
        intro hc
        exact hnd.1 (hc ▸ List.mem_map_of_mem _ hj)
      have hih := ih stA h hnd.2
      rw [hcongr] at hih
      cases hpk : u.data.publicKey with
      | none =>
        have hcond : (((tget st.utxos i.outputId).map
            (fun u => u.data.publicKey)).getD none == some pk) = false := by
          rw [hu]
          show (u.data.publicKey == some pk) = false
          rw [hpk]
          rfl
        rw [spentFor_cons_neg st pk i inps hcond]
        obtain ⟨ho1, ho2⟩ := hnone hpk
        rw [ho1, ho2] at hih
        exact hih
      | some pk0 =>
        obtain ⟨ho1, ho2⟩ := hsome pk0 hpk
        by_cases hpkeq : pk0 = pk
        · subst hpkeq
          have hcond : (((tget st.utxos i.outputId).map
              (fun u => u.data.publicKey)).getD none == some pk0) = true := by
            rw [hu]
            show (u.data.publicKey == some pk0) = true
            rw [hpk]
            exact beq_self_eq_true _
          rw [spentFor_cons_pos st pk0 i inps hcond]
          rw [ho1, ho2, sget_sput_self, sget_sput_self] at hih
          rw [filterOut_cons, hih.1, hih.2, List.append_assoc]
          exact ⟨rfl, rfl⟩
        · have hcond : (((tget st.utxos i.outputId).map
              (fun u => u.data.publicKey)).getD none == some pk) = false := by
            rw [hu]
            show (u.data.publicKey == some pk) = false
            rw [hpk, beq_eq_false_iff_ne]
            intro hc
            exact hpkeq (Option.some.inj hc)
          rw [spentFor_cons_neg st pk i inps hcond]
          rw [ho1, ho2, sget_sput_ne _ _ (fun hc => hpkeq hc.symm),
            sget_sput_ne _ _ (fun hc => hpkeq hc.symm)] at hih
          exact hih

theorem createdFor_cons_pos (e : Env) (pk : String) (o : Output) (outs : List Output)
    (hc : (o.data.publicKey == some pk) = true) :
    createdFor e pk (o :: outs) = e.outId o :: createdFor e pk outs := by
  simp [createdFor, List.filter_cons, hc]

theorem createdFor_cons_neg (e : Env) (pk : String) (o : Output) (outs : List Output)
    (hc : (o.data.publicKey == some pk) = false) :
    createdFor e pk (o :: outs) = createdFor e pk outs := by
  simp [createdFor, List.filter_cons, hc]

theorem create_fold_owners (e : Env) (txid : Nat) (outs : List Output) (st : Store)
    (pk : String) :
    sget ((outs.foldl (createOutput e txid) st).utxoOwners) pk =
      sget st.utxoOwners pk ++ createdFor e pk outs := by
  induction outs generalizing st with
  | nil => simp [createdFor]
  | cons o outs ih =>
    rw [List.foldl_cons, ih]
    obtain ⟨_, _, _, _, _, _, _, _, _, hnone, hsome⟩ := createOutput_inv e txid st o
    cases hpk : o.data.publicKey with
    | none =>
      rw [hnone hpk, createdFor_cons_neg e pk o outs (by simp [hpk])]
    | some pk0 =>
      by_cases hpkeq : pk0 = pk
      · subst hpkeq
        rw [hsome pk0 hpk, sget_sput_self,
          createdFor_cons_pos e pk0 o outs (by rw [hpk]; exact beq_self_eq_true _),
          List.append_assoc, List.singleton_append]
      · rw [hsome pk0 hpk, sget_sput_ne _ _ (fun hc => hpkeq hc.symm),
          createdFor_cons_neg e pk o outs ?_]
        rw [hpk, beq_eq_false_iff_ne]
        intro hc
        exact hpkeq (Option.some.inj hc)

theorem tget_isSome_of_mem_keys {α : Type} {t : List (Nat × α)} {k : Nat}
    (h : k ∈ t.map Prod.fst) : ∃ v, tget t k = some v := by
  induction t with
  | nil => cases h
  | cons p t ih =>
    obtain ⟨a, v⟩ := p
    by_cases hk : a = k
    · exact ⟨v, by simp [tget, hk]⟩
    · rcases List.mem_cons.mp h with h1 | h1
      · exact absurd h1.symm hk
      · obtain ⟨w, hw⟩ := ih h1
        exact ⟨w, by simp [tget, hk, hw]⟩

theorem tget_map_mk {α β : Type} (key : α → Nat) (f : α → β) (l : List α) (o : α)
    (ho : o ∈ l) (hnd : (l.map key).Nodup) :
    tget (l.map (fun a => (key a, f a))) (key o) = some (f o) := by
  induction l with
  | nil => cases ho
  | cons a l ih =>
    rw [List.map_cons, List.nodup_cons] at hnd
    rcases List.mem_cons.mp ho with rfl | hm
    · show (if key o = key o then some (f o) else _) = some (f o)
      rw [if_pos rfl]
    · show (if key a = key o then some (f a)
        else tget (l.map (fun a => (key a, f a))) (key o)) = some (f o)
      refine Eq.trans (if_neg ?_) (ih hm hnd.2)
      intro hc
      exact hnd.1 (hc ▸ List.mem_map_of_mem _ hm)

theorem tget_map_mk_inv {α β : Type} (key : α → Nat) (f : α → β) (l : List α)
    (k : Nat) (r : β) (h : tget (l.map (fun a => (key a, f a))) k = some r) :
    ∃ o ∈ l, key o = k ∧ r = f o := by
  induction l with
  | nil => cases h
  | cons a l ih =>
    by_cases hk : key a = k
    · refine ⟨a, List.mem_cons_self _ _, hk, ?_⟩
      rw [show tget ((a :: l).map (fun a => (key a, f a))) k =
        (if key a = k then some (f a) else tget (l.map (fun a => (key a, f a))) k)
        from rfl, if_pos hk] at h
      exact (Option.some.inj h).symm
    · rw [show tget ((a :: l).map (fun a => (key a, f a))) k =
        (if key a = k then some (f a) else tget (l.map (fun a => (key a, f a))) k)
        from rfl, if_neg hk] at h
      obtain ⟨o, ho, hko, hr⟩ := ih h
      exact ⟨o, List.mem_cons_of_mem _ ho, hko, hr⟩

theorem ctabL_keys (e : Env) (L : List (Transaction × Bool)) :
    (ctabL e L).map Prod.fst = (poutsL L).map (fun po => e.outId po.2) := by
  simp [ctabL, List.map_map]

theorem ttabL_keys (e : Env) (blk : Nat) (L : List (Transaction × Bool)) :
    (ttabL e blk L).map Prod.fst = L.map (fun p => e.txId p.1) := by
  simp [ttabL, List.map_map]

theorem poutsL_snd_cons (p : Transaction × Bool) (L : List (Transaction × Bool)) :
    (poutsL (p :: L)).map (fun po => po.2) =
      p.1.outputs ++ (poutsL L).map (fun po => po.2) := by
  rw [poutsL_cons, List.map_append, List.map_map]
  simp

theorem poutsL_keys_cons (e : Env) (p : Transaction × Bool) (L : List (Transaction × Bool)) :
    (poutsL (p :: L)).map (fun po => e.outId po.2) =
      p.1.outputs.map e.outId ++ (poutsL L).map (fun po => e.outId po.2) := by
  rw [poutsL_cons, List.map_append, List.map_map]
  simp

theorem spent_keys_cons (p : Transaction × Bool) (L : List (Transaction × Bool)) :
    (pinps (p :: L)).map (fun i => i.outputId) =
      p.1.inputs.map (fun i => i.outputId) ++ (pinps L).map (fun i => i.outputId) := by
  rw [pinps_cons, List.map_append]

theorem inid_keys_cons (e : Env) (p : Transaction × Bool) (L : List (Transaction × Bool)) :
    (pinps (p :: L)).map e.inId = p.1.inputs.map e.inId ++ (pinps L).map e.inId := by
  rw [pinps_cons, List.map_append]

theorem confirm_step_char (e : Env) (blk : Nat) (s : Store) (m : Mempool)
    (t : Transaction) (cb : Bool) (sA : Store) (mA : Mempool)
    (h : confirmTransaction e s m t blk cb = some (sA, mA))
    (hndIn : (t.inputs.map e.inId).Nodup)
    (hndOut : (t.outputs.map e.outId).Nodup) :
    (∀ k, tget sA.utxos k =
      match tget (t.outputs.map (fun o => (e.outId o, dbOutputOf e (e.txId t) o))) k with
      | some r => some r
      | none => if k ∈ t.inputs.map (fun i => i.outputId) then none
        else tget s.utxos k) ∧
    (∀ k, tget sA.stxos k =
      if k ∈ t.inputs.map (fun i => i.outputId) then tget s.utxos k
      else tget s.stxos k) ∧
    (∀ k, tget sA.inputs k =
      match tget (itabL e t.inputs) k with
      | some r => some r
      | none => tget s.inputs k) ∧
    (∀ k, tget sA.transactions k =
      if e.txId t = k then some (dbTxOf e blk cb t) else tget s.transactions k) ∧
    (∀ pk, sget sA.utxoOwners pk =
      filterOut (sget s.utxoOwners pk) (spentFor s pk t.inputs) ++
        createdFor e pk t.outputs) ∧
    (∀ pk, sget sA.stxoOwners pk = sget s.stxoOwners pk ++ spentFor s pk t.inputs) ∧
    sA.blocks = s.blocks ∧ sA.heights = s.heights ∧ sA.tip = s.tip ∧
    sA.candidates = s.candidates ∧
    (t.inputs.map (fun i => i.outputId)).Nodup ∧
    (∀ i ∈ t.inputs, (tget s.utxos i.outputId).isSome = true) := by
  obtain ⟨st1, hfold, hux, huo, hsx, hso, hin, htx, hbl, hhe, hti, hca, hmp⟩ :=
    confirmTransaction_inv e s m t blk cb sA mA h
  have hndSp := spend_fold_nodup e t.inputs s st1 hfold
  obtain ⟨hf1, hf2, hf3, hf4, hf5⟩ := spend_fold_frame e t.inputs s st1 hfold
  obtain ⟨hc2, hc3, hc4, hc5, hc6, hc7, hc8⟩ :=
    create_fold_frame e (e.txId t) t.outputs st1
  refine ⟨?_, ?_, ?_, ?_, ?_, ?_, ?_, ?_, ?_, ?_, hndSp,
    spend_fold_pre_some e t.inputs s st1 hfold⟩
  · intro k
    rw [hux]
    cases hc : tget (t.outputs.map (fun o => (e.outId o, dbOutputOf e (e.txId t) o))) k with
    | some r =>
      obtain ⟨o, ho, hko, hr⟩ := tget_map_mk_inv e.outId (dbOutputOf e (e.txId t))
        t.outputs k r hc
      subst hko
      rw [create_fold_utxos_mem e (e.txId t) t.outputs st1 hndOut o ho, hr]
      rfl
    | none =>
      have hknot : k ∉ t.outputs.map e.outId := by
        intro hmem
        obtain ⟨o, ho, hoe⟩ := List.mem_map.mp hmem
        rw [← hoe, tget_map_mk e.outId (dbOutputOf e (e.txId t)) t.outputs o ho hndOut]
          at hc
        cases hc
      rw [create_fold_utxos_ne e (e.txId t) t.outputs st1 k hknot,
        spend_fold_utxos e t.inputs s st1 hfold k]
  · intro k
    rw [hsx, spend_fold_stxos e t.inputs s st1 hfold k]
  · intro k
    rw [hin, spend_fold_inputs e t.inputs s st1 hfold hndIn k]
  · intro k
    rw [htx]
    by_cases hk : e.txId t = k
    · subst hk
      rw [tget_tput_self, if_pos rfl]
      rfl
    · rw [tget_tput_ne _ _ (fun hc => hk hc.symm), if_neg hk, hf1]
  · intro pk
    rw [huo, create_fold_owners e (e.txId t) t.outputs st1 pk,
      (spend_fold_owners e t.inputs s st1 hfold hndSp pk).1]
  · intro pk
    rw [hso, (spend_fold_owners e t.inputs s st1 hfold hndSp pk).2]
  · rw [hbl, hf2]
  · rw [hhe, hf3]
  · rw [hti, hf4]
  · rw [hca, hf5]

theorem map_mk_keys {α β : Type} (key : α → Nat) (f : α → β) (l : List α) :
    (l.map (fun a => (key a, f a))).map Prod.fst = l.map key := by
  simp [List.map_map]

theorem confirmAll_char (e : Env) (blk : Nat) (L : List (Transaction × Bool)) :
    ∀ s m s2 m2, confirmAll e blk (s, m) L = some (s2, m2) →
      ApplyPre e s L → CharAfter e blk s L s2 := by
  induction L with
  | nil =>
    intro s m s2 m2 h hpre
    cases h
    refine ⟨?_, ?_, ?_, ?_, ?_, ?_, rfl, rfl, rfl, rfl⟩
    · intro k
      simp [ctabL, poutsL, pinps, tget]
    · intro k
      simp [pinps]
    · intro k
      simp [pinps, itabL, tget]
    · intro k
      simp [ttabL, tget]
    · intro pk
      simp [pinps, poutsL, spentFor, createdFor, filterOut]
    · intro pk
      simp [pinps, spentFor]
  | cons p L ih =>
    intro s m s2 m2 h hpre
    simp only [confirmAll, List.foldlM_cons] at h
    cases hstep : confirmTransaction e s m p.1 blk p.2 with
    | none => rw [hstep] at h; cases h
    | some sm1 =>
      rw [hstep] at h
      obtain ⟨sA, mA⟩ := sm1
      obtain ⟨hp1, hp2, hp3, hp4, hp5, hp6⟩ := hpre
      rw [spent_keys_cons, List.nodup_append] at hp2
      rw [inid_keys_cons, List.nodup_append] at hp3
      rw [List.map_cons, List.nodup_cons] at hp4
      rw [poutsL_keys_cons, List.nodup_append] at hp5
      obtain ⟨su, ss, si, st, suo, sso, sbl, she, sti, sca, hndSp, hpres⟩ :=
        confirm_step_char e blk s m p.1 p.2 sA mA hstep hp3.1 hp5.1
      have hnotc : ∀ k, k ∉ p.1.outputs.map e.outId →
          tget (p.1.outputs.map (fun o => (e.outId o, dbOutputOf e (e.txId p.1) o))) k
            = none := by
        intro k hk
        refine tget_eq_none_of_not_mem _ _ ?_
        rw [map_mk_keys]
        exact hk
      have hLnotc : ∀ i, i ∈ pinps L → i.outputId ∉ p.1.outputs.map e.outId := by
        intro i hi hmem
        refine hp6 i (by rw [pinps_cons]; exact List.mem_append_right _ hi) ?_
        rw [poutsL_keys_cons]
        exact List.mem_append_left _ hmem
      have hLnots : ∀ i, i ∈ pinps L →
          i.outputId ∉ p.1.inputs.map (fun i => i.outputId) := by
        intro i hi hmem
        exact hp2.2.2 hmem (List.mem_map_of_mem _ hi)
      have hpreA : ApplyPre e sA L := by
        refine ⟨?_, hp2.2.1, hp3.2.1, hp4.2, hp5.2.1, ?_⟩
        · intro i hi
          rw [su i.outputId, hnotc _ (hLnotc i hi)]
          show (if i.outputId ∈ p.1.inputs.map (fun i => i.outputId) then none
            else tget s.utxos i.outputId).isSome = true
          rw [if_neg (hLnots i hi)]
          exact hp1 i (by rw [pinps_cons]; exact List.mem_append_right _ hi)
        · intro i hi hmem
          refine hp6 i (by rw [pinps_cons]; exact List.mem_append_right _ hi) ?_
          rw [poutsL_keys_cons]
          exact List.mem_append_right _ hmem
      obtain ⟨cu, cs, ci, ct, cuo, cso, cbl, che, cti, cca⟩ :=
        ih sA mA s2 m2 h hpreA
      have hcongr : ∀ pk, spentFor sA pk (pinps L) = spentFor s pk (pinps L) := by
        intro pk
        refine spentFor_congr _ _ _ _ ?_
        intro i hi
        rw [su i.outputId, hnotc _ (hLnotc i hi)]
        show (if i.outputId ∈ p.1.inputs.map (fun i => i.outputId) then none
          else tget s.utxos i.outputId) = tget s.utxos i.outputId
        rw [if_neg (hLnots i hi)]
      refine ⟨?_, ?_, ?_, ?_, ?_, ?_, ?_, ?_, ?_, ?_⟩
      · intro k
        have hrhs : tget (ctabL e (p :: L)) k =
            match tget (p.1.outputs.map
                (fun o => (e.outId o, dbOutputOf e (e.txId p.1) o))) k with
            | some r => some r
            | none => tget (ctabL e L) k := by
          rw [ctabL_cons, tget_append]
          cases tget (p.1.outputs.map
            (fun o => (e.outId o, dbOutputOf e (e.txId p.1) o))) k <;> rfl
        rw [cu k, hrhs]
        cases hc1 : tget (p.1.outputs.map
            (fun o => (e.outId o, dbOutputOf e (e.txId p.1) o))) k with
        | some r =>
          have hkmem : k ∈ p.1.outputs.map e.outId := by
            obtain ⟨o, ho, hko, hr⟩ := tget_map_mk_inv _ _ _ _ _ hc1
            exact hko ▸ List.mem_map_of_mem _ ho
          have hcL : tget (ctabL e L) k = none := by
            refine tget_eq_none_of_not_mem _ _ ?_
            rw [ctabL_keys]
            intro hmem
            exact hp5.2.2 hkmem hmem
          have hspL : k ∉ (pinps L).map (fun i => i.outputId) := by
            intro hmem
            obtain ⟨i, hi, hie⟩ := List.mem_map.mp hmem
            exact hLnotc i hi (hie ▸ hkmem)
          rw [hcL]
          show (if k ∈ (pinps L).map (fun i => i.outputId) then none
            else tget sA.utxos k) = some r
          rw [if_neg hspL, su k, hc1]
        | none =>
          cases hc2 : tget (ctabL e L) k with
          | some r => rfl
          | none =>
            show (if k ∈ (pinps L).map (fun i => i.outputId) then none
                else tget sA.utxos k) =
              (if k ∈ (pinps (p :: L)).map (fun i => i.outputId) then none
                else tget s.utxos k)
            by_cases hkL : k ∈ (pinps L).map (fun i => i.outputId)
            · rw [if_pos hkL, if_pos (by
                rw [spent_keys_cons]
                exact List.mem_append_right _ hkL)]
            · rw [if_neg hkL, su k, hc1]
              show (if k ∈ p.1.inputs.map (fun i => i.outputId) then none
                  else tget s.utxos k) = _
              by_cases hkt : k ∈ p.1.inputs.map (fun i => i.outputId)
              · rw [if_pos hkt, if_pos (by
                  rw [spent_keys_cons]
                  exact List.mem_append_left _ hkt)]
              · rw [if_neg hkt, if_neg (by
                  rw [spent_keys_cons]
                  intro hmem
                  rcases List.mem_append.mp hmem with hmm | hmm
                  exacts [hkt hmm, hkL hmm])]
      · intro k
        rw [cs k]
        by_cases hkL : k ∈ (pinps L).map (fun i => i.outputId)
        · rw [if_pos hkL, if_pos (by
            rw [spent_keys_cons]
            exact List.mem_append_right _ hkL)]
          obtain ⟨i, hi, hie⟩ := List.mem_map.mp hkL
          rw [su k, hnotc _ (hie ▸ hLnotc i hi)]
          show (if k ∈ p.1.inputs.map (fun i => i.outputId) then none
            else tget s.utxos k) = tget s.utxos k
          rw [if_neg (hie ▸ hLnots i hi)]
        · rw [if_neg hkL, ss k]
          by_cases hkt : k ∈ p.1.inputs.map (fun i => i.outputId)
          · rw [if_pos hkt, if_pos (by
              rw [spent_keys_cons]
              exact List.mem_append_left _ hkt)]
          · rw [if_neg hkt, if_neg (by
              rw [spent_keys_cons]
              intro hmem
              rcases List.mem_append.mp hmem with hmm | hmm
              exacts [hkt hmm, hkL hmm])]
      · intro k
        have hrhs : tget (itabL e (pinps (p :: L))) k =
            match tget (itabL e p.1.inputs) k with
            | some r => some r
            | none => tget (itabL e (pinps L)) k := by
          rw [pinps_cons, itabL_append, tget_append]
          cases tget (itabL e p.1.inputs) k <;> rfl
        rw [ci k, hrhs]
        cases hc1 : tget (itabL e p.1.inputs) k with
        | some r =>
          have hkmem : k ∈ p.1.inputs.map e.inId := by
            obtain ⟨i, hi, hki, hr⟩ := tget_map_mk_inv e.inId (dbInputOf e) _ _ _ hc1
            exact hki ▸ List.mem_map_of_mem _ hi
          have hcL : tget (itabL e (pinps L)) k = none := by
            refine tget_eq_none_of_not_mem _ _ ?_
            rw [itabL_keys]
            intro hmem
            exact hp3.2.2 hkmem hmem
          rw [hcL]
          show tget sA.inputs k = some r
          rw [si k, hc1]
        | none =>
          cases hc2 : tget (itabL e (pinps L)) k with
          | some r => rfl
          | none =>
            show tget sA.inputs k = tget s.inputs k
            rw [si k, hc1]
      · intro k
        rw [ct k]
        by_cases hk : e.txId p.1 = k
        · have hLnone : tget (ttabL e blk L) k = none := by
            refine tget_eq_none_of_not_mem _ _ ?_
            rw [ttabL_keys]
            intro hmem
            exact hp4.1 (hk ▸ hmem)
          have hcons : tget (ttabL e blk (p :: L)) k = some (dbTxOf e blk p.2 p.1) := by
            show (if e.txId p.1 = k then some (dbTxOf e blk p.2 p.1)
              else tget (ttabL e blk L) k) = _
            rw [if_pos hk]
          rw [hLnone, hcons]
          show tget sA.transactions k = some (dbTxOf e blk p.2 p.1)
          rw [st k, if_pos hk]
        · have hcons : tget (ttabL e blk (p :: L)) k = tget (ttabL e blk L) k := by
            show (if e.txId p.1 = k then some (dbTxOf e blk p.2 p.1)
              else tget (ttabL e blk L) k) = _
            rw [if_neg hk]
          rw [hcons]
          cases hc2 : tget (ttabL e blk L) k with
          | some r => rfl
          | none =>
            show tget sA.transactions k = tget s.transactions k
            rw [st k, if_neg hk]
      · intro pk
        rw [cuo pk, hcongr pk, suo pk, filterOut_append_left, ← filterOut_append_right]
        have hct : filterOut (createdFor e pk p.1.outputs) (spentFor s pk (pinps L)) =
            createdFor e pk p.1.outputs := by
          refine filterOut_of_disjoint _ _ ?_
          intro x hx hxc
          obtain ⟨i, hi, hie⟩ := List.mem_map.mp (spentFor_sub s pk (pinps L) x hx)
          exact hLnotc i hi (hie ▸ createdFor_sub e pk p.1.outputs x hxc)
        rw [hct, pinps_cons, spentFor_append, poutsL_snd_cons, createdFor_append,
          List.append_assoc]
      · intro pk
        rw [cso pk, hcongr pk, sso pk, pinps_cons, spentFor_append, List.append_assoc]
      · rw [cbl, sbl]
      · rw [che, she]
      · rw [cti, sti]
      · rw [cca, sca]

theorem mem_pinps {L : List (Transaction × Bool)} {p : Transaction × Bool} {i : Input}
    (hp : p ∈ L) (hi : i ∈ p.1.inputs) : i ∈ pinps L := by
  unfold pinps
  rw [List.mem_flatten]
  exact ⟨p.1.inputs, List.mem_map_of_mem _ hp, hi⟩

theorem mem_poutsL {L : List (Transaction × Bool)} {p : Transaction × Bool} {o : Output}
    (hp : p ∈ L) (ho : o ∈ p.1.outputs) : (p.1, o) ∈ poutsL L := by
  unfold poutsL
  rw [List.mem_flatten]
  exact ⟨p.1.outputs.map (fun o => (p.1, o)),
    List.mem_map_of_mem _ hp, List.mem_map_of_mem _ ho⟩

theorem confirmAll_map_false (e : Env) (blk : Nat) (txs : List Transaction) :
    ∀ sm, confirmAll e blk sm (txs.map (fun t => (t, false))) =
      txs.foldlM (fun sm t => confirmTransaction e sm.1 sm.2 t blk false) sm := by
  induction txs with
  | nil => intro sm; rfl
  | cons t txs ih =>
    intro sm
    simp only [List.map_cons, confirmAll, List.foldlM_cons]
    cases hc : confirmTransaction e sm.1 sm.2 t blk false with
    | none => rfl
    | some sm2 => exact ih sm2

theorem applyBlockOps_inv (e : Env) (st : Store) (mp : Mempool) (b : Block) (h0 : Nat)
    (stA : Store) (mpA : Mempool)
    (h : applyBlockOps e st mp b h0 = some (stA, mpA)) :
    ∃ s2 m2, confirmAll e (e.blockId b) (st, mp) (blockPairs b) = some (s2, m2) ∧
      stA = abFinal e b h0 s2 ∧ mpA = rescanMempool e stA m2 := by
  simp only [applyBlockOps] at h
  cases hcb : confirmTransaction e st mp b.coinbaseTx (e.blockId b) true with
  | none => simp only [hcb] at h; exact Option.noConfusion h
  | some sm1 =>
    obtain ⟨st1, mp1⟩ := sm1
    simp only [hcb] at h
    cases hcl : confirmList e st1 mp1 b.transactions (e.blockId b) with
    | none => simp only [hcl] at h; exact Option.noConfusion h
    | some sm2 =>
      obtain ⟨s2, m2⟩ := sm2
      simp only [hcl] at h
      simp only [Option.some.injEq, Prod.mk.injEq] at h
      obtain ⟨h1, h2⟩ := h
      refine ⟨s2, m2, ?_, h1.symm, ?_⟩
      · show (confirmTransaction e st mp b.coinbaseTx (e.blockId b) true >>=
          fun sm => confirmAll e (e.blockId b) sm
            (b.transactions.map (fun t => (t, false)))) = some (s2, m2)
        rw [hcb]
        show confirmAll e (e.blockId b) (st1, mp1)
          (b.transactions.map (fun t => (t, false))) = some (s2, m2)
        rw [confirmAll_map_false]
        exact hcl
      · rw [← h2, h1]

theorem map_inputOfDb (e : Env) (l : List Input) :
    (l.map (dbInputOf e)).map inputOfDb = l := by
  induction l with
  | nil => rfl
  | cons i l ih =>
    rw [List.map_cons, List.map_cons, ih]
    rfl

theorem map_outputOfDb (e : Env) (txid : Nat) (l : List Output) :
    (l.map (dbOutputOf e txid)).map outputOfDb = l := by
  induction l with
  | nil => rfl
  | cons o l ih =>
    rw [List.map_cons, List.map_cons, ih]
    rfl

theorem list_map_self {α : Type} (l : List α) : l.map (fun a => a) = l := by
  induction l with
  | nil => rfl
  | cons a l ih => rw [List.map_cons, ih]

theorem getTx_reconstruct (e : Env) (blk : Nat) (st0 sB : Store)
    (L : List (Transaction × Bool)) (p : Transaction × Bool) (hp : p ∈ L)
    (htr : ∀ k, tget sB.transactions k =
      match tget (ttabL e blk L) k with
      | some r => some r
      | none => tget st0.transactions k)
    (hux : ∀ k, tget sB.utxos k =
      match tget (ctabL e L) k with
      | some r => some r
      | none => if k ∈ (pinps L).map (fun i => i.outputId) then none
        else tget st0.utxos k)
    (hin : ∀ k, tget sB.inputs k =
      match tget (itabL e (pinps L)) k with
      | some r => some r
      | none => tget st0.inputs k)
    (hndTx : (L.map (fun p => e.txId p.1)).Nodup)
    (hndOut : ((poutsL L).map (fun po => e.outId po.2)).Nodup)
    (hndIn : ((pinps L).map e.inId).Nodup) :
    getTransactionFromDb sB (e.txId p.1) = some { p.1 with coinbase := p.2 } := by
  have htrec : tget sB.transactions (e.txId p.1) = some (dbTxOf e blk p.2 p.1) := by
    have hmk : tget (L.map (fun q => (e.txId q.1, dbTxOf e blk q.2 q.1)))
        (e.txId p.1) = some (dbTxOf e blk p.2 p.1) :=
      tget_map_mk (fun q => e.txId q.1) (fun q => dbTxOf e blk q.2 q.1) L p hp hndTx
    rw [htr (e.txId p.1)]
    simp only [ttabL]
    rw [hmk]
  have houtrec : ∀ o ∈ p.1.outputs, getOutputRec sB (e.outId o) =
      some (dbOutputOf e (e.txId p.1) o) := by
    intro o ho
    have hmk : tget ((poutsL L).map
        (fun po => (e.outId po.2, dbOutputOf e (e.txId po.1) po.2))) (e.outId o) =
        some (dbOutputOf e (e.txId p.1) o) :=
      tget_map_mk (fun po => e.outId po.2)
        (fun po => dbOutputOf e (e.txId po.1) po.2) (poutsL L) (p.1, o)
        (mem_poutsL hp ho) hndOut
    have hu : tget sB.utxos (e.outId o) = some (dbOutputOf e (e.txId p.1) o) := by
      rw [hux (e.outId o)]
      simp only [ctabL]
      rw [hmk]
    show (match tget sB.utxos (e.outId o) with
      | some u => some u
      | none => tget sB.stxos (e.outId o)) = some (dbOutputOf e (e.txId p.1) o)
    rw [hu]
  have hinrec : ∀ i ∈ p.1.inputs, tget sB.inputs (e.inId i) =
      some (dbInputOf e i) := by
    intro i hi
    have hmk : tget ((pinps L).map (fun i => (e.inId i, dbInputOf e i)))
        (e.inId i) = some (dbInputOf e i) :=
      tget_map_mk e.inId (dbInputOf e) (pinps L) i (mem_pinps hp hi) hndIn
    rw [hin (e.inId i)]
    simp only [itabL]
    rw [hmk]
  have hmapo : ((dbTxOf e blk p.2 p.1).outputIds).mapM (getOutputRec sB) =
      some (p.1.outputs.map (dbOutputOf e (e.txId p.1))) := by
    show (p.1.outputs.map e.outId).mapM (getOutputRec sB) = _
    exact mapM_map_eq_some _ _ _ _ houtrec
  have hmapi : ((dbTxOf e blk p.2 p.1).inputIds).mapM (tget sB.inputs) =
      some (p.1.inputs.map (dbInputOf e)) := by
    show (p.1.inputs.map e.inId).mapM (tget sB.inputs) = _
    exact mapM_map_eq_some _ _ _ _ hinrec
  show (match tget sB.transactions (e.txId p.1) with
    | none => none
    | some dtx =>
      match dtx.outputIds.mapM (getOutputRec sB), dtx.inputIds.mapM (tget sB.inputs) with
      | some outRecs, some inRecs =>
        some ({ inputs := inRecs.map inputOfDb
                outputs := outRecs.map outputOfDb
                timestamp := dtx.timestamp
                coinbase := dtx.coinbase } : Transaction)
      | _, _ => none) = some { p.1 with coinbase := p.2 }
  rw [htrec]
  show (match ((dbTxOf e blk p.2 p.1).outputIds).mapM (getOutputRec sB),
      ((dbTxOf e blk p.2 p.1).inputIds).mapM (tget sB.inputs) with
    | some outRecs, some inRecs =>
      some ({ inputs := inRecs.map inputOfDb
              outputs := outRecs.map outputOfDb
              timestamp := (dbTxOf e blk p.2 p.1).timestamp
              coinbase := (dbTxOf e blk p.2 p.1).coinbase } : Transaction)
    | _, _ => none) = some { p.1 with coinbase := p.2 }
  rw [hmapo, hmapi]
  show some { inputs := (p.1.inputs.map (dbInputOf e)).map inputOfDb
              outputs := (p.1.outputs.map (dbOutputOf e (e.txId p.1))).map outputOfDb
              timestamp := p.1.timestamp
              coinbase := p.2 } = some { p.1 with coinbase := p.2 }
  rw [map_inputOfDb, map_outputOfDb]

theorem buildBlock_reconstruct (e : Env) (st0 sB : Store) (b : Block) (h0 : Nat)
    (htr : ∀ k, tget sB.transactions k =
      match tget (ttabL e (e.blockId b) (blockPairs b)) k with
      | some r => some r
      | none => tget st0.transactions k)
    (hux : ∀ k, tget sB.utxos k =
      match tget (ctabL e (blockPairs b)) k with
      | some r => some r
      | none => if k ∈ (pinps (blockPairs b)).map (fun i => i.outputId) then none
        else tget st0.utxos k)
    (hin : ∀ k, tget sB.inputs k =
      match tget (itabL e (pinps (blockPairs b))) k with
      | some r => some r
      | none => tget st0.inputs k)
    (hndTx : ((blockPairs b).map (fun p => e.txId p.1)).Nodup)
    (hndOut : ((poutsL (blockPairs b)).map (fun po => e.outId po.2)).Nodup)
    (hndIn : ((pinps (blockPairs b)).map e.inId).Nodup)
    (hcb : b.coinbaseTx.coinbase = true)
    (htxf : ∀ t ∈ b.transactions, t.coinbase = false) :
    buildBlock sB (DbBlock.ofBlock e b h0) = some { b with height := h0 } := by
  have hcbrec : getTransactionFromDb sB (e.txId b.coinbaseTx) = some b.coinbaseTx := by
    have hg := getTx_reconstruct e (e.blockId b) st0 sB (blockPairs b)
      (b.coinbaseTx, true) (List.mem_cons_self _ _) htr hux hin hndTx hndOut hndIn
    rw [hg, ← hcb]
  have htxrec : ∀ t ∈ b.transactions, getTransactionFromDb sB (e.txId t) = some t := by
    intro t ht
    have hg := getTx_reconstruct e (e.blockId b) st0 sB (blockPairs b) (t, false)
      (List.mem_cons_of_mem _ (List.mem_map_of_mem _ ht)) htr hux hin hndTx hndOut hndIn
    rw [hg, ← htxf t ht]
  have hmtx : (b.transactions.map e.txId).mapM (getTransactionFromDb sB) =
      some b.transactions := by
    rw [mapM_map_eq_some (getTransactionFromDb sB) e.txId (fun t => t)
      b.transactions htxrec, list_map_self]
  show (match ((DbBlock.ofBlock e b h0).transactionIds).mapM (getTransactionFromDb sB),
      getTransactionFromDb sB (DbBlock.ofBlock e b h0).coinbaseTxId with
    | some txs, some cb =>
      some ({ transactions := txs
              coinbaseTx := cb
              previousBlockId := (DbBlock.ofBlock e b h0).previousBlockId
              timestamp := (DbBlock.ofBlock e b h0).timestamp
              consensusData := (DbBlock.ofBlock e b h0).consensusData
              height := (DbBlock.ofBlock e b h0).height } : Block)
    | _, _ => tget sB.candidates (DbBlock.ofBlock e b h0).id) =
    some { b with height := h0 }
  show (match (b.transactions.map e.txId).mapM (getTransactionFromDb sB),
      getTransactionFromDb sB (e.txId b.coinbaseTx) with
    | some txs, some cb =>
      some ({ transactions := txs
              coinbaseTx := cb
              previousBlockId := b.previousBlockId
              timestamp := b.timestamp
              consensusData := b.consensusData
              height := h0 } : Block)
    | _, _ => tget sB.candidates (e.blockId b)) =
    some { b with height := h0 }
  rw [hmtx, hcbrec]

/-! ## Reverse fold characterizations -/

theorem spentForRev_cons_pos (st : Store) (pk : String) (i : Input) (inps : List Input)
    (hc : (((tget st.stxos i.outputId).map (fun u => u.data.publicKey)).getD none ==
      some pk) = true) :
    spentForRev st pk (i :: inps) = i.outputId :: spentForRev st pk inps := by
  simp [spentForRev, List.filter_cons, hc]

theorem spentForRev_cons_neg (st : Store) (pk : String) (i : Input) (inps : List Input)
    (hc : (((tget st.stxos i.outputId).map (fun u => u.data.publicKey)).getD none ==
      some pk) = false) :
    spentForRev st pk (i :: inps) = spentForRev st pk inps := by
  simp [spentForRev, List.filter_cons, hc]

theorem spentForRev_congr (s1 s2 : Store) (pk : String) (inps : List Input)
    (h : ∀ i ∈ inps, tget s1.stxos i.outputId = tget s2.stxos i.outputId) :
    spentForRev s1 pk inps = spentForRev s2 pk inps := by
  unfold spentForRev
  congr 1
  refine List.filter_congr ?_
  intro i hi
  rw [h i hi]

theorem eraseU_fold_char (e : Env) (outs : List Output) (s : Store) :
    (∀ k, tget ((outs.foldl (fun s2 o => eraseUtxoU s2 (e.outId o) o.data) s).utxos) k =
      if k ∈ outs.map e.outId then none else tget s.utxos k) ∧
    (∀ pk, sget ((outs.foldl (fun s2 o =>
        eraseUtxoU s2 (e.outId o) o.data) s).utxoOwners) pk =
      filterOut (sget s.utxoOwners pk) (createdFor e pk outs)) ∧
    (outs.foldl (fun s2 o => eraseUtxoU s2 (e.outId o) o.data) s).stxos = s.stxos ∧
    (outs.foldl (fun s2 o => eraseUtxoU s2 (e.outId o) o.data) s).stxoOwners =
      s.stxoOwners ∧
    (outs.foldl (fun s2 o => eraseUtxoU s2 (e.outId o) o.data) s).inputs = s.inputs ∧
    (outs.foldl (fun s2 o => eraseUtxoU s2 (e.outId o) o.data) s).transactions =
      s.transactions ∧
    (outs.foldl (fun s2 o => eraseUtxoU s2 (e.outId o) o.data) s).blocks = s.blocks ∧
    (outs.foldl (fun s2 o => eraseUtxoU s2 (e.outId o) o.data) s).heights = s.heights ∧
    (outs.foldl (fun s2 o => eraseUtxoU s2 (e.outId o) o.data) s).tip = s.tip ∧
    (outs.foldl (fun s2 o => eraseUtxoU s2 (e.outId o) o.data) s).candidates =
      s.candidates := by
  induction outs generalizing s with
  | nil =>
    refine ⟨?_, ?_, rfl, rfl, rfl, rfl, rfl, rfl, rfl, rfl⟩
    · intro k
      simp
    · intro pk
      simp [createdFor, filterOut]
  | cons o outs ih =>
    rw [List.foldl_cons]
    obtain ⟨hu1, hu2, hu3, hu4, hu5, hu6, hu7, hu8, hu9, hown⟩ :=
      eraseUtxoU_inv s (e.outId o) o.data
    obtain ⟨iu, iuo, is1, is2, is3, is4, is5, is6, is7, is8⟩ :=
      ih (eraseUtxoU s (e.outId o) o.data)
    refine ⟨?_, ?_, is1.trans hu2, is2.trans hu3, is3.trans hu4, is4.trans hu5,
      is5.trans hu6, is6.trans hu7, is7.trans hu8, is8.trans hu9⟩
    · intro k
      rw [iu k, hu1]
      by_cases hk1 : k ∈ outs.map e.outId
      · rw [if_pos hk1, if_pos (by
          rw [List.map_cons]
          exact List.mem_cons_of_mem _ hk1)]
      · rw [if_neg hk1]
        by_cases hk2 : k = e.outId o
        · subst hk2
          rw [tget_terase_self, if_pos (by
            rw [List.map_cons]
            exact List.mem_cons_self _ _)]
        · rw [tget_terase_ne _ (fun hc => hk2 hc), if_neg (by
            rw [List.map_cons]
            intro hmem
            rcases List.mem_cons.mp hmem with hmm | hmm
            exacts [hk2 hmm, hk1 hmm])]
    · intro pk
      rw [iuo pk]
      cases hpk : o.data.publicKey with
      | none =>
        rw [hown.1 hpk, createdFor_cons_neg e pk o outs (by rw [hpk]; rfl)]
      | some pk0 =>
        by_cases hpkeq : pk0 = pk
        · subst hpkeq
          rw [hown.2 pk0 hpk, sget_sput_self,
            createdFor_cons_pos e pk0 o outs (by rw [hpk]; exact beq_self_eq_true _),
            filterOut_cons]
        · rw [hown.2 pk0 hpk, sget_sput_ne _ _ (fun hc => hpkeq hc.symm),
            createdFor_cons_neg e pk o outs ?_]
          rw [hpk, beq_eq_false_iff_ne]
          intro hc
          exact hpkeq (Option.some.inj hc)

theorem unspend_fold_char (e : Env) (inps : List Input) (s s2 : Store)
    (h : inps.foldlM (unspendInput e) s = some s2)
    (hrec : ∀ i ∈ inps, (tget s.stxos i.outputId).map (fun u => u.id) = some i.outputId)
    (hnd : (inps.map (fun i => i.outputId)).Nodup) :
    (∀ k, tget s2.utxos k =
      if k ∈ inps.map (fun i => i.outputId) then tget s.stxos k else tget s.utxos k) ∧
    (∀ k, tget s2.stxos k =
      if k ∈ inps.map (fun i => i.outputId) then none else tget s.stxos k) ∧
    (∀ k, tget s2.inputs k =
      if k ∈ inps.map e.inId then none else tget s.inputs k) ∧
    (∀ pk, sget s2.utxoOwners pk = sget s.utxoOwners pk ++ spentForRev s pk inps) ∧
    (∀ pk, sget s2.stxoOwners pk =
      filterOut (sget s.stxoOwners pk) (spentForRev s pk inps)) ∧
    s2.transactions = s.transactions ∧ s2.blocks = s.blocks ∧
    s2.heights = s.heights ∧ s2.tip = s.tip ∧ s2.candidates = s.candidates := by
  induction inps generalizing s with
  | nil =>
    cases h
    refine ⟨?_, ?_, ?_, ?_, ?_, rfl, rfl, rfl, rfl, rfl⟩
    · intro k
      simp
    · intro k
      simp
    · intro k
      simp
    · intro pk
      simp [spentForRev]
    · intro pk
      simp [spentForRev, filterOut]
  | cons i inps ih =>
    rw [List.map_cons, List.nodup_cons] at hnd
    rw [List.foldlM_cons] at h
    cases hs : unspendInput e s i with
    | none => rw [hs] at h; cases h
    | some sA =>
      rw [hs] at h
      obtain ⟨old, hold, hux, hsx, hin, htr, hbl, hhe, hti, hca, hnone, hsome⟩ :=
        unspendInput_inv e s i sA hs
      have holdid : old.id = i.outputId := by
        have hh := hrec i (List.mem_cons_self _ _)
        rw [hold] at hh
        exact Option.some.inj hh
      have hstxeq : ∀ j, j ∈ inps → tget sA.stxos j.outputId = tget s.stxos j.outputId := by
        intro j hj
        rw [hsx, holdid]
        refine tget_terase_ne _ ?_
        intro hc
        exact hnd.1 (hc ▸ List.mem_map_of_mem _ hj)
      have hrecA : ∀ j ∈ inps, (tget sA.stxos j.outputId).map (fun u => u.id) =
          some j.outputId := by
        intro j hj
        rw [hstxeq j hj]
        exact hrec j (List.mem_cons_of_mem _ hj)
      obtain ⟨iu, is1, ii, iuo, iso, itr, ibl, ihe, iti, ica⟩ := ih sA h hrecA hnd.2
      have hrevcongr : ∀ pk, spentForRev sA pk inps = spentForRev s pk inps := by
        intro pk
        exact spentForRev_congr sA s pk inps (fun j hj => hstxeq j hj)
      refine ⟨?_, ?_, ?_, ?_, ?_, itr.trans htr, ibl.trans hbl, ihe.trans hhe,
        iti.trans hti, ica.trans hca⟩
      · intro k
        rw [iu k]
        by_cases hk1 : k ∈ inps.map (fun i => i.outputId)
        · have hksx : tget sA.stxos k = tget s.stxos k := by
            rw [hsx, holdid]
            refine tget_terase_ne _ ?_
            intro hc
            exact hnd.1 (hc ▸ hk1)
          rw [if_pos hk1, hksx, if_pos (by
            rw [List.map_cons]
            exact List.mem_cons_of_mem _ hk1)]
        · rw [if_neg hk1, hux]
          by_cases hk2 : k = i.outputId
          · subst hk2
            rw [tget_tput_self, if_pos (by
              rw [List.map_cons]
              exact List.mem_cons_self _ _), hold]
          · rw [tget_tput_ne _ _ hk2, if_neg (by
              rw [List.map_cons]
              intro hm
              rcases List.mem_cons.mp hm with hmm | hmm
              exacts [hk2 hmm, hk1 hmm])]
      · intro k
        rw [is1 k]
        by_cases hk1 : k ∈ inps.map (fun i => i.outputId)
        · rw [if_pos hk1, if_pos (by
            rw [List.map_cons]
            exact List.mem_cons_of_mem _ hk1)]
        · rw [if_neg hk1, hsx, holdid]
          by_cases hk2 : k = i.outputId
          · subst hk2
            rw [tget_terase_self, if_pos (by
              rw [List.map_cons]
              exact List.mem_cons_self _ _)]
          · rw [tget_terase_ne _ (fun hc => hk2 hc), if_neg (by
              rw [List.map_cons]
              intro hm
              rcases List.mem_cons.mp hm with hmm | hmm
              exacts [hk2 hmm, hk1 hmm])]
      · intro k
        rw [ii k]
        by_cases hk1 : k ∈ inps.map e.inId
        · rw [if_pos hk1, if_pos (by
            rw [List.map_cons]
            exact List.mem_cons_of_mem _ hk1)]
        · rw [if_neg hk1, hin]
          by_cases hk2 : k = e.inId i
          · subst hk2
            rw [tget_terase_self, if_pos (by
              rw [List.map_cons]
              exact List.mem_cons_self _ _)]
          · rw [tget_terase_ne _ (fun hc => hk2 hc), if_neg (by
              rw [List.map_cons]
              intro hm
              rcases List.mem_cons.mp hm with hmm | hmm
              exacts [hk2 hmm, hk1 hmm])]
      · intro pk
        rw [iuo pk, hrevcongr pk]
        cases hpk : old.data.publicKey with
        | none =>
          obtain ⟨ho1, ho2⟩ := hnone hpk
          rw [ho1, spentForRev_cons_neg s pk i inps (by
            rw [hold]
            show (old.data.publicKey == some pk) = false
            rw [hpk]
            rfl)]
        | some pk0 =>
          obtain ⟨ho1, ho2⟩ := hsome pk0 hpk
          by_cases hpkeq : pk0 = pk
          · subst hpkeq
            rw [ho1, sget_sput_self,
              spentForRev_cons_pos s pk0 i inps (by
                rw [hold]
                show (old.data.publicKey == some pk0) = true
                rw [hpk]
                exact beq_self_eq_true _),
              List.append_assoc, List.singleton_append]
          · rw [ho1, sget_sput_ne _ _ (fun hc => hpkeq hc.symm),
              spentForRev_cons_neg s pk i inps (by
                rw [hold]
                show (old.data.publicKey == some pk) = false
                rw [hpk, beq_eq_false_iff_ne]
                intro hc
                exact hpkeq (Option.some.inj hc))]
      · intro pk
        rw [iso pk, hrevcongr pk]
        cases hpk : old.data.publicKey with
        | none =>
          obtain ⟨ho1, ho2⟩ := hnone hpk
          rw [ho2, spentForRev_cons_neg s pk i inps (by
            rw [hold]
            show (old.data.publicKey == some pk) = false
            rw [hpk]
            rfl)]
        | some pk0 =>
          obtain ⟨ho1, ho2⟩ := hsome pk0 hpk
          by_cases hpkeq : pk0 = pk
          · subst hpkeq
            rw [ho2, sget_sput_self, holdid,
              spentForRev_cons_pos s pk0 i inps (by
                rw [hold]
                show (old.data.publicKey == some pk0) = true
                rw [hpk]
                exact beq_self_eq_true _),
              filterOut_cons]
          · rw [ho2, sget_sput_ne _ _ (fun hc => hpkeq hc.symm),
              spentForRev_cons_neg s pk i inps (by
                rw [hold]
                show (old.data.publicKey == some pk) = false
                rw [hpk, beq_eq_false_iff_ne]
                intro hc
                exact hpkeq (Option.some.inj hc))]

theorem reverseTx_char (e : Env) (t : Transaction) (s s2 : Store)
    (h : reverseTx e s t = some s2)
    (hrec : ∀ i ∈ t.inputs,
      (tget s.stxos i.outputId).map (fun u => u.id) = some i.outputId)
    (hnd : (t.inputs.map (fun i => i.outputId)).Nodup)
    (hdisj : ∀ i ∈ t.inputs, i.outputId ∉ t.outputs.map e.outId) :
    (∀ k, tget s2.utxos k =
      if k ∈ t.outputs.map e.outId then none
      else if k ∈ t.inputs.map (fun i => i.outputId) then tget s.stxos k
      else tget s.utxos k) ∧
    (∀ k, tget s2.stxos k =
      if k ∈ t.inputs.map (fun i => i.outputId) then none else tget s.stxos k) ∧
    (∀ k, tget s2.inputs k =
      if k ∈ t.inputs.map e.inId then none else tget s.inputs k) ∧
    (∀ k, tget s2.transactions k =
      if e.txId t = k then none else tget s.transactions k) ∧
    (∀ pk, sget s2.utxoOwners pk =
      filterOut (sget s.utxoOwners pk) (createdFor e pk t.outputs) ++
        spentForRev s pk t.inputs) ∧
    (∀ pk, sget s2.stxoOwners pk =
      filterOut (sget s.stxoOwners pk) (spentForRev s pk t.inputs)) ∧
    s2.blocks = s.blocks ∧ s2.heights = s.heights ∧ s2.tip = s.tip ∧
    s2.candidates = s.candidates := by
  obtain ⟨hm1, hm2, hm3, hm4, hm5, hm6, hm7, hm8, hm9, hm10⟩ :=
    eraseU_fold_char e t.outputs s
  simp only [reverseTx] at h
  cases hfold : t.inputs.foldlM (unspendInput e)
      (t.outputs.foldl (fun s2 o => eraseUtxoU s2 (e.outId o) o.data) s) with
  | none => rw [hfold] at h; cases h
  | some stM =>
    rw [hfold] at h
    have hrecM : ∀ i ∈ t.inputs,
        (tget (t.outputs.foldl (fun s2 o =>
          eraseUtxoU s2 (e.outId o) o.data) s).stxos i.outputId).map (fun u => u.id) =
        some i.outputId := by
      intro i hi
      rw [hm3]
      exact hrec i hi
    obtain ⟨uf1, uf2, uf3, uf4, uf5, uf6, uf7, uf8, uf9, uf10⟩ :=
      unspend_fold_char e t.inputs _ stM hfold hrecM hnd
    cases h
    have hrevc : ∀ pk, spentForRev (t.outputs.foldl (fun s2 o =>
        eraseUtxoU s2 (e.outId o) o.data) s) pk t.inputs = spentForRev s pk t.inputs := by
      intro pk
      refine spentForRev_congr _ _ _ _ ?_
      intro i hi
      rw [hm3]
    refine ⟨?_, ?_, ?_, ?_, ?_, ?_, ?_, ?_, ?_, ?_⟩
    · intro k
      show tget stM.utxos k = _
      rw [uf1 k]
      by_cases hsp : k ∈ t.inputs.map (fun i => i.outputId)
      · have hkc : k ∉ t.outputs.map e.outId := by
          obtain ⟨i, hi, hie⟩ := List.mem_map.mp hsp
          exact hie ▸ hdisj i hi
        rw [if_pos hsp, hm3, if_neg hkc, if_pos hsp]
      · rw [if_neg hsp, hm1 k]
        by_cases hkc : k ∈ t.outputs.map e.outId
        · rw [if_pos hkc, if_pos hkc]
        · rw [if_neg hkc, if_neg hkc, if_neg hsp]
    · intro k
      show tget stM.stxos k = _
      rw [uf2 k, hm3]
    · intro k
      show tget stM.inputs k = _
      rw [uf3 k, hm5]
    · intro k
      show tget (terase stM.transactions (e.txId t)) k = _
      by_cases hk : e.txId t = k
      · subst hk
        rw [tget_terase_self, if_pos rfl]
      · rw [tget_terase_ne _ (fun hc => hk hc.symm), if_neg hk, uf6, hm6]
    · intro pk
      show sget stM.utxoOwners pk = _
      rw [uf4 pk, hm2 pk, hrevc pk]
    · intro pk
      show sget stM.stxoOwners pk = _
      rw [uf5 pk, hm4, hrevc pk]
    · show stM.blocks = s.blocks
      rw [uf7, hm7]
    · show stM.heights = s.heights
      rw [uf8, hm8]
    · show stM.tip = s.tip
      rw [uf9, hm9]
    · show stM.candidates = s.candidates
      rw [uf10, hm10]

theorem inpsT_cons (t : Transaction) (txs : List Transaction) :
    ((t :: txs).map (fun t => t.inputs)).flatten =
      t.inputs ++ (txs.map (fun t => t.inputs)).flatten := by
  simp

theorem inpsT_keys_cons (t : Transaction) (txs : List Transaction) :
    ((t :: txs).map (fun t => t.inputs)).flatten.map (fun i => i.outputId) =
      t.inputs.map (fun i => i.outputId) ++
        (txs.map (fun t => t.inputs)).flatten.map (fun i => i.outputId) := by
  rw [inpsT_cons, List.map_append]

theorem inpsT_inIds_cons (e : Env) (t : Transaction) (txs : List Transaction) :
    ((t :: txs).map (fun t => t.inputs)).flatten.map e.inId =
      t.inputs.map e.inId ++ (txs.map (fun t => t.inputs)).flatten.map e.inId := by
  rw [inpsT_cons, List.map_append]

theorem poutsT_keys_cons (e : Env) (t : Transaction) (txs : List Transaction) :
    (poutsL ((t :: txs).map (fun t => (t, false)))).map (fun po => e.outId po.2) =
      t.outputs.map e.outId ++
        (poutsL (txs.map (fun t => (t, false)))).map (fun po => e.outId po.2) := by
  rw [List.map_cons, poutsL_keys_cons]

theorem poutsT_snd_cons (t : Transaction) (txs : List Transaction) :
    (poutsL ((t :: txs).map (fun t => (t, false)))).map (fun po => po.2) =
      t.outputs ++ (poutsL (txs.map (fun t => (t, false)))).map (fun po => po.2) := by
  rw [List.map_cons, poutsL_snd_cons]

theorem reverseTxList_char (e : Env) (txs : List Transaction) :
    ∀ s s2, reverseTxList e s txs = some s2 → RevPre e s txs → RevRel e s txs s2 := by
  induction txs with
  | nil =>
    intro s s2 h hpre
    cases h
    refine ⟨?_, ?_, ?_, ?_, ?_, ?_, rfl, rfl, rfl, rfl⟩
    · intro k
      simp [poutsL]
    · intro k
      simp
    · intro k
      simp
    · intro k
      simp
    · intro pk
      simp [poutsL, createdFor, filterOut, spentForRev]
    · intro pk
      simp [filterOut, spentForRev]
  | cons t txs ih =>
    intro s s2 h hpre
    obtain ⟨r1, r2, r3⟩ := hpre
    rw [inpsT_keys_cons, List.nodup_append] at r2
    have r1h : ∀ i ∈ t.inputs,
        (tget s.stxos i.outputId).map (fun u => u.id) = some i.outputId := by
      intro i hi
      exact r1 i (by rw [inpsT_cons]; exact List.mem_append_left _ hi)
    have r3h : ∀ i ∈ t.inputs, i.outputId ∉ t.outputs.map e.outId := by
      intro i hi hmem
      refine r3 i (by rw [inpsT_cons]; exact List.mem_append_left _ hi) ?_
      rw [poutsT_keys_cons]
      exact List.mem_append_left _ hmem
    show RevRel e s (t :: txs) s2
    rw [reverseTxList, List.foldlM_cons] at h
    cases hs : reverseTx e s t with
    | none => rw [hs] at h; cases h
    | some sA =>
      rw [hs] at h
      obtain ⟨c1, c2, c3, c4, c5, c6, c7, c8, c9, c10⟩ :=
        reverseTx_char e t s sA hs r1h r2.1 r3h
      have hso : ∀ j ∈ (txs.map (fun t => t.inputs)).flatten,
          tget sA.stxos j.outputId = tget s.stxos j.outputId := by
        intro j hj
        rw [c2 j.outputId, if_neg (fun hkt => r2.2.2 hkt (List.mem_map_of_mem _ hj))]
      have hpreA : RevPre e sA txs := by
        refine ⟨?_, r2.2.1, ?_⟩
        · intro j hj
          rw [hso j hj]
          exact r1 j (by rw [inpsT_cons]; exact List.mem_append_right _ hj)
        · intro j hj hmem
          refine r3 j (by rw [inpsT_cons]; exact List.mem_append_right _ hj) ?_
          rw [poutsT_keys_cons]
          exact List.mem_append_right _ hmem
      obtain ⟨v1, v2, v3, v4, v5, v6, v7, v8, v9, v10⟩ := ih sA s2 h hpreA
      have hrestspent_notc : ∀ k, k ∈ (txs.map (fun t =>
          t.inputs)).flatten.map (fun i => i.outputId) →
          k ∉ (poutsL ((t :: txs).map (fun t => (t, false)))).map
            (fun po => e.outId po.2) := by
        intro k hk hmem
        obtain ⟨j, hj, hje⟩ := List.mem_map.mp hk
        exact r3 j (by rw [inpsT_cons]; exact List.mem_append_right _ hj) (hje ▸ hmem)
      have htspent_notc : ∀ k, k ∈ t.inputs.map (fun i => i.outputId) →
          k ∉ (poutsL ((t :: txs).map (fun t => (t, false)))).map
            (fun po => e.outId po.2) := by
        intro k hk hmem
        obtain ⟨j, hj, hje⟩ := List.mem_map.mp hk
        exact r3 j (by rw [inpsT_cons]; exact List.mem_append_left _ hj) (hje ▸ hmem)
      refine ⟨?_, ?_, ?_, ?_, ?_, ?_, v7.trans c7, v8.trans c8, v9.trans c9,
        v10.trans c10⟩
      · intro k
        rw [v1 k]
        by_cases hc1 : k ∈ (poutsL (txs.map (fun t => (t, false)))).map
            (fun po => e.outId po.2)
        · rw [if_pos hc1, if_pos (by
            rw [poutsT_keys_cons]
            exact List.mem_append_right _ hc1)]
        · rw [if_neg hc1]
          by_cases hc2 : k ∈ (txs.map (fun t =>
              t.inputs)).flatten.map (fun i => i.outputId)
          · rw [if_pos hc2, c2 k,
              if_neg (fun hkt => r2.2.2 hkt hc2),
              if_neg (hrestspent_notc k hc2),
              if_pos (by
                rw [inpsT_keys_cons]
                exact List.mem_append_right _ hc2)]
          · rw [if_neg hc2, c1 k]
            by_cases hkt : k ∈ t.outputs.map e.outId
            · rw [if_pos hkt, if_pos (by
                rw [poutsT_keys_cons]
                exact List.mem_append_left _ hkt)]
            · rw [if_neg hkt]
              by_cases hks : k ∈ t.inputs.map (fun i => i.outputId)
              · rw [if_pos hks, if_neg (htspent_notc k hks), if_pos (by
                  rw [inpsT_keys_cons]
                  exact List.mem_append_left _ hks)]
              · rw [if_neg hks, if_neg (by
                  rw [poutsT_keys_cons]
                  intro hm
                  rcases List.mem_append.mp hm with hmm | hmm
                  exacts [hkt hmm, hc1 hmm]), if_neg (by
                  rw [inpsT_keys_cons]
                  intro hm
                  rcases List.mem_append.mp hm with hmm | hmm
                  exacts [hks hmm, hc2 hmm])]
      · intro k
        rw [v2 k]
        by_cases hc2 : k ∈ (txs.map (fun t =>
            t.inputs)).flatten.map (fun i => i.outputId)
        · rw [if_pos hc2, if_pos (by
            rw [inpsT_keys_cons]
            exact List.mem_append_right _ hc2)]
        · rw [if_neg hc2, c2 k]
          by_cases hks : k ∈ t.inputs.map (fun i => i.outputId)
          · rw [if_pos hks, if_pos (by
              rw [inpsT_keys_cons]
              exact List.mem_append_left _ hks)]
          · rw [if_neg hks, if_neg (by
              rw [inpsT_keys_cons]
              intro hm
              rcases List.mem_append.mp hm with hmm | hmm
              exacts [hks hmm, hc2 hmm])]
      · intro k
        rw [v3 k]
        by_cases hc2 : k ∈ (txs.map (fun t => t.inputs)).flatten.map e.inId
        · rw [if_pos hc2, if_pos (by
            rw [inpsT_inIds_cons]
            exact List.mem_append_right _ hc2)]
        · rw [if_neg hc2, c3 k]
          by_cases hks : k ∈ t.inputs.map e.inId
          · rw [if_pos hks, if_pos (by
              rw [inpsT_inIds_cons]
              exact List.mem_append_left _ hks)]
          · rw [if_neg hks, if_neg (by
              rw [inpsT_inIds_cons]
              intro hm
              rcases List.mem_append.mp hm with hmm | hmm
              exacts [hks hmm, hc2 hmm])]
      · intro k
        rw [v4 k]
        by_cases hc2 : k ∈ txs.map e.txId
        · rw [if_pos hc2, if_pos (by
            rw [List.map_cons]
            exact List.mem_cons_of_mem _ hc2)]
        · rw [if_neg hc2, c4 k]
          by_cases hk : e.txId t = k
          · rw [if_pos hk, if_pos (by
              rw [List.map_cons]
              exact hk ▸ List.mem_cons_self _ _)]
          · rw [if_neg hk, if_neg (by
              rw [List.map_cons]
              intro hm
              rcases List.mem_cons.mp hm with hmm | hmm
              exacts [hk hmm.symm, hc2 hmm])]
      · intro pk
        rw [v5 pk, spentForRev_congr sA s pk _ hso, c5 pk, filterOut_append_left,
          ← filterOut_append_right]
        have hst : filterOut (spentForRev s pk t.inputs)
            (createdFor e pk ((poutsL (txs.map (fun t => (t, false)))).map
              (fun po => po.2))) = spentForRev s pk t.inputs := by
          refine filterOut_of_disjoint _ _ ?_
          intro c hcmem hcs
          obtain ⟨i, hi, hie⟩ := List.mem_map.mp (spentForRev_sub s pk t.inputs c hcs)
          refine r3 i (by rw [inpsT_cons]; exact List.mem_append_left _ hi) ?_
          rw [poutsT_keys_cons]
          refine List.mem_append_right _ ?_
          have hcc := createdFor_sub e pk _ c hcmem
          rw [List.map_map] at hcc
          exact hie ▸ hcc
        rw [hst, poutsT_snd_cons, createdFor_append, inpsT_cons, spentForRev_append,
          List.append_assoc]
      · intro pk
        rw [v6 pk, spentForRev_congr sA s pk _ hso, c6 pk, ← filterOut_append_right,
          inpsT_cons, spentForRev_append]

theorem rbCoinErase_char (e : Env) (cb : Transaction) (s : Store) :
    (∀ k, tget (rbCoinErase e cb s).utxos k =
      if k ∈ cb.outputs.map e.outId then none else tget s.utxos k) ∧
    (∀ pk, sget (rbCoinErase e cb s).utxoOwners pk =
      filterOut (sget s.utxoOwners pk) (createdFor e pk cb.outputs)) ∧
    (∀ k, tget (rbCoinErase e cb s).transactions k =
      if e.txId cb = k then none else tget s.transactions k) ∧
    (rbCoinErase e cb s).stxos = s.stxos ∧
    (rbCoinErase e cb s).stxoOwners = s.stxoOwners ∧
    (rbCoinErase e cb s).inputs = s.inputs ∧
    (rbCoinErase e cb s).blocks = s.blocks ∧
    (rbCoinErase e cb s).heights = s.heights ∧
    (rbCoinErase e cb s).tip = s.tip ∧
    (rbCoinErase e cb s).candidates = s.candidates := by
  obtain ⟨g1, g2, g3, g4, g5, g6, g7, g8, g9, g10⟩ := eraseU_fold_char e cb.outputs s
  refine ⟨?_, ?_, ?_, g3, g4, g5, g7, g8, g9, g10⟩
  · intro k
    exact g1 k
  · intro pk
    exact g2 pk
  · intro k
    show tget (terase (cb.outputs.foldl (fun s2 o =>
      eraseUtxoU s2 (e.outId o) o.data) s).transactions (e.txId cb)) k = _
    by_cases hk : e.txId cb = k
    · subst hk
      rw [tget_terase_self, if_pos rfl]
    · rw [tget_terase_ne _ (fun hc => hk hc.symm), if_neg hk, g6]

theorem pinps_blockPairs (b : Block) (hcoin : b.coinbaseTx.inputs = []) :
    pinps (blockPairs b) = (b.transactions.map (fun t => t.inputs)).flatten := by
  rw [blockPairs, pinps_cons]
  show b.coinbaseTx.inputs ++ _ = _
  rw [hcoin, List.nil_append]
  unfold pinps
  rw [List.map_map]
  rfl

theorem poutsL_snd_blockPairs (b : Block) :
    (poutsL (blockPairs b)).map (fun po => po.2) =
      b.coinbaseTx.outputs ++
        (poutsL (b.transactions.map (fun t => (t, false)))).map (fun po => po.2) := by
  rw [blockPairs, poutsL_snd_cons]

theorem poutsL_keys_blockPairs (e : Env) (b : Block) :
    (poutsL (blockPairs b)).map (fun po => e.outId po.2) =
      b.coinbaseTx.outputs.map e.outId ++
        (poutsL (b.transactions.map (fun t => (t, false)))).map
          (fun po => e.outId po.2) := by
  rw [blockPairs, poutsL_keys_cons]

theorem mem_createdFor (e : Env) (pk : String) (outs : List Output) (c : Nat)
    (hc : c ∈ createdFor e pk outs) :
    ∃ o ∈ outs, e.outId o = c ∧ o.data.publicKey = some pk := by
  obtain ⟨o, ho, hoe⟩ := List.mem_map.mp hc
  refine ⟨o, List.mem_of_mem_filter ho, hoe, ?_⟩
  have hcond := List.of_mem_filter ho
  exact beq_iff_eq.mp hcond

theorem mem_spentFor (st : Store) (pk : String) (inps : List Input) (x : Nat)
    (hx : x ∈ spentFor st pk inps) :
    ∃ i ∈ inps, i.outputId = x ∧
      (tget st.utxos i.outputId).bind (fun u => u.data.publicKey) = some pk := by
  obtain ⟨i, hi, hie⟩ := List.mem_map.mp hx
  refine ⟨i, List.mem_of_mem_filter hi, hie, ?_⟩
  have hcond := List.of_mem_filter hi
  cases hu : tget st.utxos i.outputId with
  | none =>
    rw [hu] at hcond
    cases hcond
  | some u =>
    rw [hu] at hcond
    show u.data.publicKey = some pk
    have hc2 : (u.data.publicKey == some pk) = true := hcond
    exact beq_iff_eq.mp hc2

theorem spentForRev_eq_spentFor (s1 s0 : Store) (pk : String) (inps : List Input)
    (h : ∀ i ∈ inps, tget s1.stxos i.outputId = tget s0.utxos i.outputId) :
    spentForRev s1 pk inps = spentFor s0 pk inps := by
  unfold spentForRev spentFor
  congr 1
  refine List.filter_congr ?_
  intro i hi
  rw [h i hi]

theorem spentFor_nodup (st : Store) (pk : String) (inps : List Input)
    (hnd : (inps.map (fun i => i.outputId)).Nodup) :
    (spentFor st pk inps).Nodup := by
  refine List.Nodup.sublist ?_ hnd
  exact List.Sublist.map _ (List.filter_sublist _)

theorem poutsL_pairs_blockPairs (b : Block) :
    poutsL (blockPairs b) =
      b.coinbaseTx.outputs.map (fun o => (b.coinbaseTx, o)) ++
        poutsL (b.transactions.map (fun t => (t, false))) := by
  rw [blockPairs, poutsL_cons]

theorem txids_blockPairs (e : Env) (b : Block) :
    (blockPairs b).map (fun p => e.txId p.1) =
      e.txId b.coinbaseTx :: b.transactions.map e.txId := by
  rw [blockPairs, List.map_cons, List.map_map]
  rfl

theorem inids_blockPairs (e : Env) (b : Block) (hcoin : b.coinbaseTx.inputs = []) :
    (pinps (blockPairs b)).map e.inId =
      (b.transactions.map (fun t => t.inputs)).flatten.map e.inId := by
  rw [pinps_blockPairs b hcoin]

theorem reverseCore_char (e : Env) (st sA st3 : Store) (b : Block) (h0 : Nat)
    (hcore : reverseBlockCore e sA { b with height := h0 } = some st3)
    (hcoin : b.coinbaseTx.inputs = [])
    (a1 : ∀ k, tget sA.utxos k =
      match tget (ctabL e (blockPairs b)) k with
      | some r => some r
      | none => if k ∈ (pinps (blockPairs b)).map (fun i => i.outputId) then none
        else tget st.utxos k)
    (a2 : ∀ k, tget sA.stxos k =
      if k ∈ (pinps (blockPairs b)).map (fun i => i.outputId) then tget st.utxos k
      else tget st.stxos k)
    (a3 : ∀ k, tget sA.inputs k =
      match tget (itabL e (pinps (blockPairs b))) k with
      | some r => some r
      | none => tget st.inputs k)
    (a4 : ∀ k, tget sA.transactions k =
      match tget (ttabL e (e.blockId b) (blockPairs b)) k with
      | some r => some r
      | none => tget st.transactions k)
    (a5 : ∀ pk, sget sA.utxoOwners pk =
      filterOut (sget st.utxoOwners pk) (spentFor st pk (pinps (blockPairs b))) ++
        createdFor e pk ((poutsL (blockPairs b)).map (fun po => po.2)))
    (a6 : ∀ pk, sget sA.stxoOwners pk =
      sget st.stxoOwners pk ++ spentFor st pk (pinps (blockPairs b)))
    (hkeyed : ∀ i ∈ pinps (blockPairs b),
      (tget st.utxos i.outputId).map (fun u => u.id) = some i.outputId)
    (hsfresh : ∀ i ∈ pinps (blockPairs b), tget st.stxos i.outputId = none)
    (hinfresh : ∀ i ∈ pinps (blockPairs b), tget st.inputs (e.inId i) = none)
    (hofresh : ∀ po ∈ poutsL (blockPairs b), tget st.utxos (e.outId po.2) = none)
    (htfresh : ∀ p ∈ blockPairs b, tget st.transactions (e.txId p.1) = none)
    (hndSp : ((pinps (blockPairs b)).map (fun i => i.outputId)).Nodup)
    (hndOut : ((poutsL (blockPairs b)).map (fun po => e.outId po.2)).Nodup)
    (hdisj : ∀ i ∈ pinps (blockPairs b),
      i.outputId ∉ (poutsL (blockPairs b)).map (fun po => e.outId po.2))
    (hsofresh : ∀ i ∈ pinps (blockPairs b),
      ∀ pk ∈ ((tget st.utxos i.outputId).bind (fun u => u.data.publicKey)).toList,
        i.outputId ∉ sget st.stxoOwners pk)
    (huofresh : ∀ po ∈ poutsL (blockPairs b), ∀ pk ∈ (po.2.data.publicKey).toList,
      e.outId po.2 ∉ sget st.utxoOwners pk) :
    (∀ k, tget st3.utxos k = tget st.utxos k) ∧
    (∀ k, tget st3.stxos k = tget st.stxos k) ∧
    (∀ k, tget st3.inputs k = tget st.inputs k) ∧
    (∀ k, tget st3.transactions k = tget st.transactions k) ∧
    (∀ pk, sget st3.utxoOwners pk =
      filterOut (sget st.utxoOwners pk) (spentFor st pk (pinps (blockPairs b))) ++
        spentFor st pk (pinps (blockPairs b))) ∧
    (∀ pk, sget st3.stxoOwners pk = sget st.stxoOwners pk) ∧
    st3.blocks = sA.blocks ∧ st3.heights = sA.heights ∧ st3.tip = sA.tip ∧
    st3.candidates = sA.candidates := by
  have hcore2 : reverseTxList e (rbCoinErase e b.coinbaseTx sA) b.transactions =
      some st3 := hcore
  obtain ⟨e1, e2, e3, e4, e5, e6, e7, e8, e9, e10⟩ := rbCoinErase_char e b.coinbaseTx sA
  have hpb := pinps_blockPairs b hcoin
  have hstx : ∀ k, tget (rbCoinErase e b.coinbaseTx sA).stxos k = tget sA.stxos k := by
    intro k
    rw [e4]
  have hinp : ∀ k, tget (rbCoinErase e b.coinbaseTx sA).inputs k = tget sA.inputs k := by
    intro k
    rw [e6]
  have hrpre : RevPre e (rbCoinErase e b.coinbaseTx sA) b.transactions := by
    refine ⟨?_, ?_, ?_⟩
    · intro i hi
      rw [hstx i.outputId, a2 i.outputId,
        if_pos (by rw [hpb]; exact List.mem_map_of_mem _ hi)]
      exact hkeyed i (by rw [hpb]; exact hi)
    · rw [← hpb]
      exact hndSp
    · intro i hi hmem
      refine hdisj i (by rw [hpb]; exact hi) ?_
      rw [poutsL_keys_blockPairs]
      exact List.mem_append_right _ hmem
  obtain ⟨w1, w2, w3, w4, w5, w6, w7, w8, w9, w10⟩ :=
    reverseTxList_char e b.transactions (rbCoinErase e b.coinbaseTx sA) st3 hcore2 hrpre
  have hsfr : ∀ pk, spentForRev (rbCoinErase e b.coinbaseTx sA) pk
      ((b.transactions.map (fun t => t.inputs)).flatten) =
      spentFor st pk ((b.transactions.map (fun t => t.inputs)).flatten) := by
    intro pk
    refine spentForRev_eq_spentFor _ _ _ _ ?_
    intro i hi
    rw [hstx i.outputId, a2 i.outputId,
      if_pos (by rw [hpb]; exact List.mem_map_of_mem _ hi)]
  refine ⟨?_, ?_, ?_, ?_, ?_, ?_, w7.trans e7, w8.trans e8, w9.trans e9,
    w10.trans e10⟩
  · intro k
    rw [w1 k]
    by_cases hcT : k ∈ (poutsL (b.transactions.map (fun t => (t, false)))).map
        (fun po => e.outId po.2)
    · rw [if_pos hcT]
      obtain ⟨po, hpo, hpoe⟩ := List.mem_map.mp hcT
      have hz : tget st.utxos k = none := hpoe ▸ hofresh po (by
        rw [poutsL_pairs_blockPairs]
        exact List.mem_append_right _ hpo)
      rw [hz]
    · rw [if_neg hcT]
      by_cases hsT : k ∈ (b.transactions.map (fun t =>
          t.inputs)).flatten.map (fun i => i.outputId)
      · rw [if_pos hsT, hstx k, a2 k, if_pos (by rw [hpb]; exact hsT)]
      · rw [if_neg hsT, e1 k]
        by_cases hcb : k ∈ b.coinbaseTx.outputs.map e.outId
        · rw [if_pos hcb]
          obtain ⟨o, ho, hoe⟩ := List.mem_map.mp hcb
          have hz : tget st.utxos k = none := hoe ▸ hofresh (b.coinbaseTx, o) (by
            rw [poutsL_pairs_blockPairs]
            exact List.mem_append_left _ (List.mem_map_of_mem _ ho))
          rw [hz]
        · rw [if_neg hcb, a1 k]
          have hctab : tget (ctabL e (blockPairs b)) k = none := by
            refine tget_eq_none_of_not_mem _ _ ?_
            rw [ctabL_keys, poutsL_keys_blockPairs]
            intro hm
            rcases List.mem_append.mp hm with hmm | hmm
            exacts [hcb hmm, hcT hmm]
          rw [hctab]
          show (if k ∈ (pinps (blockPairs b)).map (fun i => i.outputId) then none
            else tget st.utxos k) = tget st.utxos k
          rw [if_neg (by rw [hpb]; exact hsT)]
  · intro k
    rw [w2 k]
    by_cases hsT : k ∈ (b.transactions.map (fun t =>
        t.inputs)).flatten.map (fun i => i.outputId)
    · rw [if_pos hsT]
      obtain ⟨i, hi, hie⟩ := List.mem_map.mp hsT
      have hz : tget st.stxos k = none := hie ▸ hsfresh i (by rw [hpb]; exact hi)
      rw [hz]
    · rw [if_neg hsT, hstx k, a2 k, if_neg (by rw [hpb]; exact hsT)]
  · intro k
    rw [w3 k]
    by_cases hiT : k ∈ (b.transactions.map (fun t => t.inputs)).flatten.map e.inId
    · rw [if_pos hiT]
      obtain ⟨i, hi, hie⟩ := List.mem_map.mp hiT
      have hz : tget st.inputs k = none := hie ▸ hinfresh i (by rw [hpb]; exact hi)
      rw [hz]
    · rw [if_neg hiT, hinp k, a3 k]
      have hitab : tget (itabL e (pinps (blockPairs b))) k = none := by
        refine tget_eq_none_of_not_mem _ _ ?_
        rw [itabL_keys, inids_blockPairs e b hcoin]
        exact hiT
      rw [hitab]
  · intro k
    rw [w4 k]
    by_cases htT : k ∈ b.transactions.map e.txId
    · rw [if_pos htT]
      obtain ⟨t, ht, hte⟩ := List.mem_map.mp htT
      have hz : tget st.transactions k = none := hte ▸ htfresh (t, false)
        (List.mem_cons_of_mem _ (List.mem_map_of_mem _ ht))
      rw [hz]
    · rw [if_neg htT, e3 k]
      by_cases hcbk : e.txId b.coinbaseTx = k
      · rw [if_pos hcbk]
        have hz : tget st.transactions k = none := hcbk ▸ htfresh
          (b.coinbaseTx, true) (List.mem_cons_self _ _)
        rw [hz]
      · rw [if_neg hcbk, a4 k]
        have httab : tget (ttabL e (e.blockId b) (blockPairs b)) k = none := by
          refine tget_eq_none_of_not_mem _ _ ?_
          rw [ttabL_keys, txids_blockPairs]
          intro hm
          rcases List.mem_cons.mp hm with hmm | hmm
          exacts [hcbk hmm.symm, htT hmm]
        rw [httab]
  · intro pk
    rw [w5 pk, hsfr pk, e2 pk, a5 pk, poutsL_snd_blockPairs, createdFor_append, hpb]
    have hdisjCT : ∀ c ∈ b.coinbaseTx.outputs.map e.outId,
        c ∉ (poutsL (b.transactions.map (fun t => (t, false)))).map
          (fun po => e.outId po.2) := by
      have hnd2 := hndOut
      rw [poutsL_keys_blockPairs, List.nodup_append] at hnd2
      exact fun c hc => hnd2.2.2 hc
    have hCcbl0 : ∀ c ∈ createdFor e pk b.coinbaseTx.outputs,
        c ∉ sget st.utxoOwners pk := by
      intro c hc
      obtain ⟨o, ho, hoe, hopk⟩ := mem_createdFor e pk _ c hc
      refine hoe ▸ huofresh (b.coinbaseTx, o) (by
        rw [poutsL_pairs_blockPairs]
        exact List.mem_append_left _ (List.mem_map_of_mem _ ho)) pk ?_
      rw [hopk]
      exact List.mem_singleton.mpr rfl
    have hCtxl0 : ∀ c ∈ createdFor e pk ((poutsL (b.transactions.map
        (fun t => (t, false)))).map (fun po => po.2)), c ∉ sget st.utxoOwners pk := by
      intro c hc
      obtain ⟨o, ho, hoe, hopk⟩ := mem_createdFor e pk _ c hc
      obtain ⟨po, hpo, hpoe⟩ := List.mem_map.mp ho
      have hu := huofresh po (by
        rw [poutsL_pairs_blockPairs]
        exact List.mem_append_right _ hpo) pk (by
        rw [hpoe, hopk]
        exact List.mem_singleton.mpr rfl)
      rw [hpoe, hoe] at hu
      exact hu
    have hd3 : ∀ c ∈ createdFor e pk b.coinbaseTx.outputs,
        c ∉ createdFor e pk ((poutsL (b.transactions.map (fun t => (t, false)))).map
          (fun po => po.2)) := by
      intro c hc hmem
      refine hdisjCT c (createdFor_sub e pk _ c hc) ?_
      have hcc := createdFor_sub e pk _ c hmem
      rw [List.map_map] at hcc
      exact hcc
    have hinner : filterOut (filterOut (sget st.utxoOwners pk)
        (spentFor st pk ((b.transactions.map (fun t => t.inputs)).flatten)) ++
        (createdFor e pk b.coinbaseTx.outputs ++
          createdFor e pk ((poutsL (b.transactions.map (fun t => (t, false)))).map
            (fun po => po.2))))
        (createdFor e pk b.coinbaseTx.outputs) =
        filterOut (sget st.utxoOwners pk)
          (spentFor st pk ((b.transactions.map (fun t => t.inputs)).flatten)) ++
          createdFor e pk ((poutsL (b.transactions.map (fun t => (t, false)))).map
            (fun po => po.2)) := by
      rw [filterOut_append_left, filterOut_append_left,
        filterOut_of_disjoint _ _ (fun c hc hmem =>
          hCcbl0 c hc (mem_of_mem_filterOut hmem)),
        filterOut_eq_nil _ _ (fun x hx => hx), List.nil_append,
        filterOut_of_disjoint _ _ hd3]
    rw [hinner]
    have houter : filterOut (filterOut (sget st.utxoOwners pk)
        (spentFor st pk ((b.transactions.map (fun t => t.inputs)).flatten)) ++
        createdFor e pk ((poutsL (b.transactions.map (fun t => (t, false)))).map
          (fun po => po.2)))
        (createdFor e pk ((poutsL (b.transactions.map (fun t => (t, false)))).map
          (fun po => po.2))) =
        filterOut (sget st.utxoOwners pk)
          (spentFor st pk ((b.transactions.map (fun t => t.inputs)).flatten)) := by
      rw [filterOut_append_left,
        filterOut_of_disjoint _ _ (fun c hc hmem =>
          hCtxl0 c hc (mem_of_mem_filterOut hmem)),
        filterOut_eq_nil _ _ (fun x hx => hx), List.append_nil]
    rw [houter]
  · intro pk
    rw [w6 pk, hsfr pk, e5, a6 pk, hpb, filterOut_append_left]
    have h1 : filterOut (sget st.stxoOwners pk)
        (spentFor st pk ((b.transactions.map (fun t => t.inputs)).flatten)) =
        sget st.stxoOwners pk := by
      refine filterOut_of_disjoint _ _ ?_
      intro x hx hmem
      obtain ⟨i, hi, hie, hipk⟩ := mem_spentFor st pk _ x hx
      have hso2 := hsofresh i (by rw [hpb]; exact hi) pk (by
        rw [hipk]
        exact List.mem_singleton.mpr rfl)
      rw [hie] at hso2
      exact hso2 hmem
    have h2 : filterOut (spentFor st pk ((b.transactions.map
        (fun t => t.inputs)).flatten)) (spentFor st pk ((b.transactions.map
        (fun t => t.inputs)).flatten)) = [] :=
      filterOut_eq_nil _ _ (fun x hx => hx)
    rw [h1, h2, List.append_nil]

/-- C4: applying a block as the new tip and then calling `reverseBlock`
returns the `utxos`, `stxos`, `inputs`, `transactions`, `blocks` and
`heights` tables and the tip record to extensional equality with their
pre-apply state, restores each `stxoOwners` list exactly, restores each
`utxoOwners` list only up to permutation (the spend filter removes an id
from the middle of the list and the reverse append puts it back at the
end), adds the reversed block (carrying its recomputed height) to
`candidates`, and replays the undone transactions into the rescanned
mempool through `submitTransaction`. -/
theorem apply_reverse_roundtrip (e : Env) (st : Store) (mp : Mempool) (b : Block)
    (h0 : Nat) (stA : Store) (mpA : Mempool) (st2 : Store) (mp2 : Mempool)
    (hpre : ApplyPre e st (blockPairs b))
    (hcoin : b.coinbaseTx.inputs = [])
    (hcbflag : b.coinbaseTx.coinbase = true)
    (htxflag : ∀ t ∈ b.transactions, t.coinbase = false)
    (hkeyed : ∀ i ∈ pinps (blockPairs b),
      (tget st.utxos i.outputId).map (fun u => u.id) = some i.outputId)
    (hsfresh : ∀ i ∈ pinps (blockPairs b), tget st.stxos i.outputId = none)
    (hinfresh : ∀ i ∈ pinps (blockPairs b), tget st.inputs (e.inId i) = none)
    (hofresh : ∀ po ∈ poutsL (blockPairs b), tget st.utxos (e.outId po.2) = none)
    (htfresh : ∀ p ∈ blockPairs b, tget st.transactions (e.txId p.1) = none)
    (hbfresh : tget st.blocks (e.blockId b) = none)
    (hhfresh : tget st.heights h0 = none)
    (htip : st.tip = tget st.blocks b.previousBlockId)
    (htipsome : st.tip.isSome = true)
    (hbid : e.blockId { b with height := h0 } = e.blockId b)
    (hsofresh : ∀ i ∈ pinps (blockPairs b),
      ∀ pk ∈ ((tget st.utxos i.outputId).bind (fun u => u.data.publicKey)).toList,
        i.outputId ∉ sget st.stxoOwners pk)
    (huofresh : ∀ po ∈ poutsL (blockPairs b), ∀ pk ∈ (po.2.data.publicKey).toList,
      e.outId po.2 ∉ sget st.utxoOwners pk)
    (hownnd : ∀ pk ∈ spentPks st (pinps (blockPairs b)),
      (sget st.utxoOwners pk).Nodup)
    (hownmem : ∀ i ∈ pinps (blockPairs b),
      ∀ pk ∈ ((tget st.utxos i.outputId).bind (fun u => u.data.publicKey)).toList,
        i.outputId ∈ sget st.utxoOwners pk)
    (happly : applyBlockOps e st mp b h0 = some (stA, mpA))
    (hrev : reverseBlock e stA mpA = some (st2, mp2)) :
    (∀ k, tget st2.utxos k = tget st.utxos k) ∧
    (∀ k, tget st2.stxos k = tget st.stxos k) ∧
    (∀ k, tget st2.inputs k = tget st.inputs k) ∧
    (∀ k, tget st2.transactions k = tget st.transactions k) ∧
    (∀ k, tget st2.blocks k = tget st.blocks k) ∧
    (∀ k, tget st2.heights k = tget st.heights k) ∧
    st2.tip = st.tip ∧
    (∀ k, tget st2.candidates k =
      if k = e.blockId b then some { b with height := h0 }
      else tget st.candidates k) ∧
    (∀ pk, (sget st2.utxoOwners pk).Perm (sget st.utxoOwners pk)) ∧
    (∀ pk, sget st2.stxoOwners pk = sget st.stxoOwners pk) ∧
    mp2 = b.transactions.foldl (fun m t => (submitTransaction e st2 m t).2)
      (rescanMempool e st2 mpA) := by
  obtain ⟨s2c, m2c, hconf, hstA, hmpA⟩ := applyBlockOps_inv e st mp b h0 stA mpA happly
  obtain ⟨a1, a2, a3, a4, a5, a6, a7, a8, a9, a10⟩ :=
    confirmAll_char e (e.blockId b) (blockPairs b) st mp s2c m2c hconf hpre
  subst hstA
  obtain ⟨tipDb, tip, st3, tipDb2, prevDb, hvtip, hvbuild, hvcore, hvtip3, hvprev,
    hvst2, hvmp2⟩ := reverseBlock_inv e (abFinal e b h0 s2c) mpA st2 mp2 hrev
  have htipDb : tipDb = DbBlock.ofBlock e b h0 := by
    have hat : (abFinal e b h0 s2c).tip = some (DbBlock.ofBlock e b h0) := rfl
    rw [hat] at hvtip
    exact (Option.some.inj hvtip).symm
  subst htipDb
  have hbuild2 : buildBlock (abFinal e b h0 s2c) (DbBlock.ofBlock e b h0) =
      some { b with height := h0 } :=
    buildBlock_reconstruct e st (abFinal e b h0 s2c) b h0 (fun k => a4 k)
      (fun k => a1 k) (fun k => a3 k) hpre.2.2.2.1 hpre.2.2.2.2.1 hpre.2.2.1
      hcbflag htxflag
  have htipeq : tip = { b with height := h0 } := by
    rw [hbuild2] at hvbuild
    exact (Option.some.inj hvbuild).symm
  subst htipeq
  obtain ⟨c1, c2, c3, c4, c5, c6, cb7, cb8, cb9, cb10⟩ :=
    reverseCore_char e st (abFinal e b h0 s2c) st3 b h0 hvcore hcoin
      (fun k => a1 k) (fun k => a2 k) (fun k => a3 k) (fun k => a4 k)
      (fun pk => a5 pk) (fun pk => a6 pk) hkeyed hsfresh hinfresh hofresh htfresh
      hpre.2.1 hpre.2.2.2.2.1 hpre.2.2.2.2.2 hsofresh huofresh
  have htd2 : tipDb2 = DbBlock.ofBlock e b h0 := by
    rw [cb9] at hvtip3
    have hsm : some (DbBlock.ofBlock e b h0) = some tipDb2 := hvtip3
    exact (Option.some.inj hsm).symm
  subst htd2
  obtain ⟨prevDb0, hprev0⟩ := Option.isSome_iff_exists.mp htipsome
  have hprevblocks : tget st.blocks b.previousBlockId = some prevDb0 :=
    htip.symm.trans hprev0
  have hne : b.previousBlockId ≠ e.blockId b := by
    intro hc
    rw [hc, hbfresh] at hprevblocks
    exact Option.noConfusion hprevblocks
  have hblocks3 : ∀ k, tget st3.blocks k =
      tget (tput s2c.blocks (e.blockId b) (DbBlock.ofBlock e b h0)) k := by
    intro k
    rw [cb7]
    rfl
  have hblocks : tget (rbMid e { b with height := h0 } st3
      (DbBlock.ofBlock e b h0)).blocks b.previousBlockId = some prevDb0 := by
    show tget (terase st3.blocks (e.blockId { b with height := h0 }))
      b.previousBlockId = some prevDb0
    rw [hbid, tget_terase_ne _ hne, hblocks3, tget_tput_ne _ _ hne, a7]
    exact hprevblocks
  have hgb : getBlockDB e (rbMid e { b with height := h0 } st3
      (DbBlock.ofBlock e b h0)) b.previousBlockId = some prevDb0 := by
    unfold getBlockDB
    rw [hblocks]
  have hprevDbEq : prevDb = prevDb0 := by
    have hv2 : getBlockDB e (rbMid e { b with height := h0 } st3
        (DbBlock.ofBlock e b h0)) b.previousBlockId = some prevDb := hvprev
    rw [hgb] at hv2
    exact (Option.some.inj hv2).symm
  subst hprevDbEq
  subst hvst2
  refine ⟨?_, ?_, ?_, ?_, ?_, ?_, ?_, ?_, ?_, ?_, ?_⟩
  · intro k
    exact c1 k
  · intro k
    exact c2 k
  · intro k
    exact c3 k
  · intro k
    exact c4 k
  · intro k
    show tget (terase st3.blocks (e.blockId { b with height := h0 })) k =
      tget st.blocks k
    rw [hbid]
    by_cases hk : k = e.blockId b
    · subst hk
      rw [tget_terase_self, hbfresh]
    · rw [tget_terase_ne _ hk, hblocks3, tget_tput_ne _ _ hk, a7]
  · intro k
    show tget (terase st3.heights (DbBlock.ofBlock e b h0).height) k =
      tget st.heights k
    have hh3 : ∀ k2, tget st3.heights k2 =
        tget (tput s2c.heights h0 (e.blockId b)) k2 := by
      intro k2
      rw [cb8]
      rfl
    by_cases hk : k = h0
    · subst hk
      show tget (terase st3.heights k) k = tget st.heights k
      rw [tget_terase_self, hhfresh]
    · show tget (terase st3.heights h0) k = tget st.heights k
      rw [tget_terase_ne _ hk, hh3, tget_tput_ne _ _ hk, a8]
  · show some prevDb = st.tip
    exact hprev0.symm
  · intro k
    show tget (tput st3.candidates (e.blockId { b with height := h0 })
      { b with height := h0 }) k = _
    rw [hbid]
    by_cases hk : k = e.blockId b
    · subst hk
      rw [tget_tput_self, if_pos rfl]
    · rw [tget_tput_ne _ _ hk, if_neg hk]
      have hc3 : ∀ k2, tget st3.candidates k2 =
          tget (terase s2c.candidates (e.blockId b)) k2 := by
        intro k2
        rw [cb10]
        rfl
      rw [hc3, tget_terase_ne _ hk, a10]
  · intro pk
    show (sget st3.utxoOwners pk).Perm (sget st.utxoOwners pk)
    rw [c5 pk]
    by_cases hS : spentFor st pk (pinps (blockPairs b)) = []
    · rw [hS, filterOut_nil, List.append_nil]
    · obtain ⟨x, hx⟩ := List.exists_mem_of_ne_nil _ hS
      obtain ⟨i, hi, hie, hipk⟩ := mem_spentFor st pk _ x hx
      have hpkmem : pk ∈ spentPks st (pinps (blockPairs b)) := by
        unfold spentPks
        exact List.mem_filterMap.mpr ⟨i, hi, hipk⟩
      refine filterOut_append_perm _ _ (hownnd pk hpkmem)
        (spentFor_nodup st pk _ hpre.2.1) ?_
      intro x2 hx2
      obtain ⟨i2, hi2, hie2, hipk2⟩ := mem_spentFor st pk _ x2 hx2
      have hm := hownmem i2 hi2 pk (by
        rw [hipk2]
        exact List.mem_singleton.mpr rfl)
      rw [hie2] at hm
      exact hm
  · intro pk
    show sget st3.stxoOwners pk = sget st.stxoOwners pk
    exact c6 pk
  · exact hvmp2

/-- Counterexample to the bitwise-restoration claim: applying `bC4` (which
spends output 1 of owner "a") and reversing it leaves the owner list of "a"
as `[2, 1]`, a permutation of — but not equal to — the pre-apply `[1, 2]`:
the spend filters the id out of the middle and the reverse appends it at
the end. -/
theorem apply_reverse_owner_order_cex :
    ((applyBlockOps eBase stC4 emptyMempool bC4 2).bind
      (fun p => reverseBlock eBase p.1 p.2)).map
        (fun q => sget q.1.utxoOwners "a") = some [2, 1] ∧
    sget stC4.utxoOwners "a" = [1, 2] ∧
    ([2, 1] : List Nat) ≠ [1, 2] := by
  refine ⟨rfl, rfl, by decide⟩

/-- Witness for the amended round-trip theorem on the concrete block `bC4`
over `stC4`: the spent output record returns to `utxos` and leaves `stxos`,
the owner "a" spent-list is restored exactly, the tip record returns to the
previous block, and `candidates` holds the reversed block at its id. -/
theorem apply_reverse_roundtrip_witness :
    ((applyBlockOps eBase stC4 emptyMempool bC4 2).bind
      (fun p => reverseBlock eBase p.1 p.2)).map
        (fun q => (tget q.1.utxos 1, tget q.1.stxos 1, sget q.1.stxoOwners "a",
          q.1.tip, tget q.1.candidates 100)) =
      some (tget stC4.utxos 1, tget stC4.stxos 1, sget stC4.stxoOwners "a",
        stC4.tip, some { bC4 with height := 2 }) := by
  cases hcomp : (applyBlockOps eBase stC4 emptyMempool bC4 2).bind
      (fun p => reverseBlock eBase p.1 p.2) with
  | none => exact absurd hcomp (by decide)
  | some q =>
    obtain ⟨p, happly, hrev⟩ := Option.bind_eq_some.mp hcomp
    obtain ⟨m1, m2, m3, m4, m5, m6, m7, m8, m9, m10, m11⟩ :=
      apply_reverse_roundtrip eBase stC4 emptyMempool bC4 2 p.1 p.2 q.1 q.2
        ⟨by decide, by decide, by decide, by decide, by decide, by decide⟩
        (by decide) (by decide) (by decide) (by decide) (by decide) (by decide)
        (by decide) (by decide) (by decide) (by decide) rfl (by decide) rfl
        (by decide) (by decide) (by decide) (by decide) happly hrev
    show some (tget q.1.utxos 1, tget q.1.stxos 1, sget q.1.stxoOwners "a",
      q.1.tip, tget q.1.candidates 100) = _
    rw [m1 1, m2 1, m10 "a", m7, m8 100, if_pos (show (100 : Nat) = eBase.blockId bC4
      from rfl)]
